import Mathlib

/-!
Verification of the in-memory skip-list store (memdb) and write-batch code
of this repository. Definitions are shallow embeddings of the Go source in
src/goleveldb/leveldb/memdb/memdb_.go; theorems settle the specification
claims against them.

Modelling conventions:
* byte strings are lists of naturals (`Bytes`);
* the Go `math/rand` generator is represented by an arbitrary stream
  `rnd : Nat -> Nat` of non-negative values together with a cursor
  `rndIdx`, consumed exactly where the source calls `p.rnd.Int()`;
* Go slices of ints become `List Nat` with total access `List.getD _ _ 0`
  (the source never reads out of bounds on the paths verified here, which
  the representation invariant below makes precise);
* loops whose termination depends on the data-structure invariant take a
  generous fuel parameter; the correctness lemmas show the fuel is never
  exhausted on states satisfying the invariant.
-/

set_option maxHeartbeats 1000000

/-- Byte strings, modelled as lists of naturals. -/
abbrev Bytes := List Nat

/-- Maximum skip-list height (`tMaxHeight = 12` in the source). -/
def tMaxHeight : Nat := 12

/-- Offset of the kv-offset field in a node record (`nKV`). -/
def nKV : Nat := 0

/-- Offset of the key-length field in a node record (`nKey`). -/
def nKey : Nat := 1

/-- Offset of the value-length field in a node record (`nVal`). -/
def nVal : Nat := 2

/-- Offset of the height field in a node record (`nHeight`). -/
def nHeight : Nat := 3

/-- Offset of the first next-pointer in a node record (`nNext`). -/
def nNext : Nat := 4

/-- The state of the in-memory database `DB_`.  Field for field the Go
struct, with the RNG represented by a stream plus cursor and the slice
capacity of `kvData` tracked explicitly in `kvCap`. -/
structure DB where
  cmp : Bytes → Bytes → Int
  rnd : Nat → Nat
  rndIdx : Nat
  kvData : List Nat
  kvCap : Nat
  nodeData : List Nat
  prevNode : List Nat
  maxHeight : Nat
  n : Nat
  kvSize : Int

/-- Read `p.nodeData[i]` (total, defaulting to 0 out of bounds). -/
def nd (p : DB) (i : Nat) : Nat := p.nodeData.getD i 0

/-- The key bytes of node `x`: `p.kvData[nodeData[x] : nodeData[x]+nodeData[x+nKey]]`. -/
def keyOf (p : DB) (x : Nat) : Bytes :=
  (p.kvData.drop (nd p x)).take (nd p (x + nKey))

/-- The value bytes of node `x`. -/
def valOf (p : DB) (x : Nat) : Bytes :=
  (p.kvData.drop (nd p x + nd p (x + nKey))).take (nd p (x + nVal))

/-- Modelled from the spec: Go's `append` capacity growth is runtime
internal (the spec only requires `Capacity()` to report the buffer
headroom); the model keeps the capacity and enlarges it when an append
exceeds it.  No claim depends on the precise growth amounts. -/
def growCap (c need : Nat) : Nat := if need ≤ c then c else max need (2 * c)

/-- The loop of `randHeight`: `for h < tMaxHeight && p.rnd.Int()%4 == 0 { h++ }`.
Returns the height and the advanced RNG cursor.  Fuel `tMaxHeight` is enough
since `h` starts at 1 and increases each iteration. -/
def randHeightGo (rnd : Nat → Nat) : Nat → Nat → Nat → Nat × Nat
  | 0, idx, h => (h, idx)
  | fuel + 1, idx, h =>
    if h < tMaxHeight then
      if rnd idx % 4 = 0 then randHeightGo rnd fuel (idx + 1) (h + 1)
      else (h, idx + 1)
    else (h, idx)

/-- `DB_.randHeight`. -/
def DB.randHeight (p : DB) : Nat × DB :=
  let r := randHeightGo p.rnd tMaxHeight p.rndIdx 1
  (r.1, { p with rndIdx := r.2 })

/-- The loop body of `DB_.findGE`, with fuel.  State: current `node`, current
level `h`, current `prevNode` scratch (returned, since Go mutates the shared
array).  Returns `(node, exact, prevNode)`. -/
def DB.findGEAux (p : DB) (key : Bytes) (prev : Bool) :
    Nat → Nat → Nat → List Nat → Nat × Bool × List Nat
  | 0, _, _, pn => (0, false, pn)
  | fuel + 1, node, h, pn =>
    let next := nd p (node + nNext + h)
    let c : Int := if next ≠ 0 then p.cmp (keyOf p next) key else 1
    if c < 0 then
      p.findGEAux key prev fuel next h pn
    else
      if prev then
        let pn' := pn.set h node
        if h = 0 then (next, decide (c = 0), pn')
        else p.findGEAux key prev fuel node (h - 1) pn'
      else
        if c = 0 then (next, true, pn)
        else if h = 0 then (next, false, pn)
        else p.findGEAux key prev fuel node (h - 1) pn

/-- `DB_.findGE`.  The fuel `|nodeData| + tMaxHeight + 1` dominates the true
iteration count (at most one forward move per live node plus one descent per
level) on every state satisfying the representation invariant. -/
def DB.findGE (p : DB) (key : Bytes) (prev : Bool) : Nat × Bool × List Nat :=
  p.findGEAux key prev (p.nodeData.length + tMaxHeight + 1) 0 (p.maxHeight - 1) p.prevNode

/-- The loop `for i := p.maxHeight; i < h; i++ { p.prevNode[i] = 0 }`. -/
def zeroRange (l : List Nat) (i h : Nat) : List Nat :=
  if i < h then zeroRange (l.set i 0) (i + 1) h else l
termination_by h - i

/-- The node splice loop of `DB_.Put`:
`for i, n := range p.prevNode[:h] { m := n+nNext+i; append(nodeData, nodeData[m]); nodeData[m] = node }`. -/
def spliceLoop (ndata pn : List Nat) (node : Nat) (i h : Nat) : List Nat :=
  if i < h then
    let n0 := pn.getD i 0
    let m := n0 + nNext + i
    let nd1 := ndata ++ [ndata.getD m 0]
    let nd2 := nd1.set m node
    spliceLoop nd2 pn node (i + 1) h
  else ndata
termination_by h - i

/-- `DB_.Put`. -/
def DB.Put (p : DB) (key value : Bytes) : DB :=
  let r := p.findGE key true
  let node := r.1
  let ex := r.2.1
  let p1 := { p with prevNode := r.2.2 }
  if ex then
    let kvOffset := p1.kvData.length
    let kv := (p1.kvData ++ key) ++ value
    let nd1 := p1.nodeData.set node kvOffset
    let m := nd1.getD (node + nVal) 0
    let nd2 := nd1.set (node + nVal) value.length
    { p1 with
      kvData := kv, kvCap := growCap p1.kvCap kv.length,
      nodeData := nd2,
      kvSize := p1.kvSize + (value.length : Int) - (m : Int) }
  else
    let hr := p1.randHeight
    let h := hr.1
    let p2 := hr.2
    let pn2 := zeroRange p2.prevNode p2.maxHeight h
    let mh := if p2.maxHeight < h then h else p2.maxHeight
    let p3 := { p2 with prevNode := pn2, maxHeight := mh }
    let kvOffset := p3.kvData.length
    let kv := (p3.kvData ++ key) ++ value
    let node := p3.nodeData.length
    let ndBase := p3.nodeData ++ [kvOffset, key.length, value.length, h]
    let ndFinal := spliceLoop ndBase p3.prevNode node 0 h
    { p3 with
      kvData := kv, kvCap := growCap p3.kvCap kv.length,
      nodeData := ndFinal,
      kvSize := p3.kvSize + ((key.length + value.length : Nat) : Int),
      n := p3.n + 1 }

/-- The unlink loop of `DB_.Delete`:
`for i, n := range p.prevNode[:h] { m := n+nNext+i; nodeData[m] = nodeData[nodeData[m]+nNext+i] }`. -/
def deleteLoop (ndata pn : List Nat) (i h : Nat) : List Nat :=
  if i < h then
    let n0 := pn.getD i 0
    let m := n0 + nNext + i
    let nd1 := ndata.set m (ndata.getD (ndata.getD m 0 + nNext + i) 0)
    deleteLoop nd1 pn (i + 1) h
  else ndata
termination_by h - i

/-- `DB_.Delete`.  The boolean is `true` on success, `false` for the
`ErrNotFound` return. -/
def DB.Delete (p : DB) (key : Bytes) : DB × Bool :=
  let r := p.findGE key true
  let node := r.1
  let ex := r.2.1
  let p1 := { p with prevNode := r.2.2 }
  if ex then
    let h := nd p1 (node + nHeight)
    let ndFinal := deleteLoop p1.nodeData p1.prevNode 0 h
    let p2 := { p1 with nodeData := ndFinal }
    ({ p2 with
       kvSize := p2.kvSize - ((nd p2 (node + nKey) + nd p2 (node + nVal) : Nat) : Int),
       n := p2.n - 1 }, true)
  else (p1, false)

/-- `DB_.Get`.  `none` models the `ErrNotFound` return. -/
def DB.Get (p : DB) (key : Bytes) : Option Bytes :=
  let r := p.findGE key false
  if r.2.1 then
    some ((p.kvData.drop (nd p r.1 + nd p (r.1 + nKey))).take (nd p (r.1 + nVal)))
  else none

/-- `DB_.Find`.  `none` models the `ErrNotFound` return. -/
def DB.Find (p : DB) (key : Bytes) : Option (Bytes × Bytes) :=
  let r := p.findGE key false
  if r.1 ≠ 0 then some (keyOf p r.1, valOf p r.1) else none

/-- `DB_.Contains`. -/
def DB.Contains (p : DB) (key : Bytes) : Bool :=
  (p.findGE key false).2.1

/-- `DB_.Capacity`. -/
def DB.Capacity (p : DB) : Nat := p.kvCap

/-- `DB_.Size`. -/
def DB.Size (p : DB) : Int := p.kvSize

/-- `DB_.Free`. -/
def DB.Free (p : DB) : Int := (p.kvCap : Int) - (p.kvData.length : Int)

/-- `DB_.Len`. -/
def DB.Len (p : DB) : Nat := p.n

/-- The loop of `DB_.Reset` zeroing the head next-pointers and `prevNode`. -/
def resetLoop (ndata pn : List Nat) (i : Nat) : List Nat × List Nat :=
  if i < tMaxHeight then resetLoop (ndata.set (nNext + i) 0) (pn.set i 0) (i + 1)
  else (ndata, pn)
termination_by tMaxHeight - i

/-- `DB_.Reset`.  Reseeding the deterministic RNG is modelled by resetting
the stream cursor to 0 (the source recreates `rand.New(rand.NewSource(0xdeadbeef))`,
i.e. restarts the same deterministic stream). -/
def DB.Reset (p : DB) : DB :=
  let nd0 := p.nodeData.take (nNext + tMaxHeight)
  let nd1 := (((nd0.set nKV 0).set nKey 0).set nVal 0).set nHeight tMaxHeight
  let r := resetLoop nd1 p.prevNode 0
  { p with
    rndIdx := 0, maxHeight := 1, n := 0, kvSize := 0,
    kvData := [], nodeData := r.1, prevNode := r.2 }

/-- `New_`.  `nodeData = make([]int, 4+tMaxHeight)` then
`nodeData[nHeight] = tMaxHeight`. -/
def New_ (cmp : Bytes → Bytes → Int) (rnd : Nat → Nat) (capacity : Nat) : DB :=
  { cmp := cmp, rnd := rnd, rndIdx := 0, kvData := [], kvCap := capacity,
    nodeData := (List.replicate (4 + tMaxHeight) 0).set nHeight tMaxHeight,
    prevNode := List.replicate tMaxHeight 0,
    maxHeight := 1, n := 0, kvSize := 0 }

/-- `util.Range`. -/
structure Range where
  Start : Option Bytes
  Limit : Option Bytes

/-- `dbIter_`.  `iterErr` records whether `ErrIterReleased` was set. -/
structure dbIter where
  p : DB
  slice : Option Range
  node : Nat
  forward : Bool
  key : Bytes
  value : Bytes
  released : Bool
  iterErr : Bool

/-- `dbIter_.fill`. -/
def dbIter.fill (i : dbIter) (checkStart checkLimit : Bool) : dbIter × Bool :=
  if i.node ≠ 0 then
    let n0 := nd i.p i.node
    let klen := nd i.p (i.node + nKey)
    let m := n0 + klen
    let k := (i.p.kvData.drop n0).take klen
    let bailLimit : Bool := checkLimit &&
      (match i.slice with
       | some s =>
         match s.Limit with
         | some lim => decide (0 ≤ i.p.cmp k lim)
         | none => false
       | none => false)
    let bailStart : Bool := checkStart &&
      (match i.slice with
       | some s =>
         match s.Start with
         | some st => decide (i.p.cmp k st < 0)
         | none => false
       | none => false)
    if bailLimit || bailStart then ({ i with node := 0, key := [], value := [] }, false)
    else ({ i with
            key := k,
            value := (i.p.kvData.drop m).take (nd i.p (i.node + nVal)) }, true)
  else ({ i with key := [], value := [] }, false)

/-- `dbIter_.First`. -/
def dbIter.First (i : dbIter) : dbIter × Bool :=
  if i.released then ({ i with iterErr := true }, false)
  else
    let i1 := { i with forward := true }
    let node :=
      match i1.slice with
      | some s =>
        match s.Start with
        | some st => (i1.p.findGE st false).1
        | none => nd i1.p nNext
      | none => nd i1.p nNext
    dbIter.fill { i1 with node := node } false true

/-- `dbIter_.Next`. -/
def dbIter.Next (i : dbIter) : dbIter × Bool :=
  if i.released then ({ i with iterErr := true }, false)
  else if i.node = 0 then
    if i.forward = false then i.First else (i, false)
  else
    let i1 := { i with forward := true }
    let i2 := { i1 with node := nd i1.p (i1.node + nNext) }
    dbIter.fill i2 false true

/-- `DB_.NewIterator` (fields not mentioned start at their Go zero values). -/
def DB.NewIterator (p : DB) (slice : Option Range) : dbIter :=
  { p := p, slice := slice, node := 0, forward := false, key := [], value := [],
    released := false, iterErr := false }

/-- Collect key/value pairs from an iterator by repeated `Next`, with fuel. -/
def iterCollect : Nat → dbIter × Bool → List (Bytes × Bytes)
  | 0, _ => []
  | fuel + 1, (it, ok) =>
    if ok then (it.key, it.value) :: iterCollect fuel it.Next else []

/-- A full forward iteration: `NewIterator` with nil range, `First`, then
repeated `Next`, collecting `Key()/Value()` at every valid position. -/
def fullForward (p : DB) : List (Bytes × Bytes) :=
  iterCollect p.nodeData.length (p.NewIterator none).First

/-! ## The reference ordered map (spec side)

The specification compares the store against "a reference ordered map":
`Put` inserts or overwrites, successful `Delete` removes, iteration lists
entries in strictly increasing key order.  The reference is a sorted
association list. -/

/-- A logical store operation (spec side). -/
inductive Op where
  | put (k v : Bytes)
  | del (k : Bytes)

/-- Insert-or-overwrite into a sorted association list. -/
def refInsert (cmp : Bytes → Bytes → Int) (k v : Bytes) :
    List (Bytes × Bytes) → List (Bytes × Bytes)
  | [] => [(k, v)]
  | (a, b) :: t =>
    if cmp k a < 0 then (k, v) :: (a, b) :: t
    else if cmp k a = 0 then (k, v) :: t
    else (a, b) :: refInsert cmp k v t

/-- Remove the entry whose key compares equal to `k`, if any. -/
def refDelete (cmp : Bytes → Bytes → Int) (k : Bytes) :
    List (Bytes × Bytes) → List (Bytes × Bytes)
  | [] => []
  | (a, b) :: t => if cmp k a = 0 then t else (a, b) :: refDelete cmp k t

/-- Whether the reference map holds an entry whose key compares equal to `k`. -/
def refMem (cmp : Bytes → Bytes → Int) (k : Bytes) (M : List (Bytes × Bytes)) : Bool :=
  M.any (fun e => decide (cmp k e.1 = 0))

/-- Apply one operation to the reference map. -/
def refApply (cmp : Bytes → Bytes → Int) (M : List (Bytes × Bytes)) : Op → List (Bytes × Bytes)
  | .put k v => refInsert cmp k v M
  | .del k => refDelete cmp k M

/-- Replay a sequence of operations on the reference map. -/
def refReplay (cmp : Bytes → Bytes → Int) (ops : List Op) : List (Bytes × Bytes) :=
  ops.foldl (refApply cmp) []

/-- Apply one operation to the store. -/
def dbApply (p : DB) : Op → DB
  | .put k v => p.Put k v
  | .del k => (p.Delete k).1

/-- Replay a sequence of operations on the store. -/
def dbReplay (p : DB) (ops : List Op) : DB :=
  ops.foldl dbApply p

/-- A store operation including `Reset` (used by the invariant claims). -/
inductive OpR where
  | put (k v : Bytes)
  | del (k : Bytes)
  | reset

/-- Apply one `OpR` to the store. -/
def dbApplyR (p : DB) : OpR → DB
  | .put k v => p.Put k v
  | .del k => (p.Delete k).1
  | .reset => p.Reset

/-- Replay a sequence of `OpR` on the store. -/
def dbReplayR (p : DB) (ops : List OpR) : DB :=
  ops.foldl dbApplyR p

/-! ## The comparator contract

The store consumes an external Ordering Policy (`comparer.BasicComparer`).
`LawfulCmp` states the contract a comparator must satisfy: it compares
equal exactly on equal byte strings, is transitive, and is antisymmetric
in sign.  The default bytewise comparer satisfies it. -/

/-- The Ordering Policy contract. -/
structure LawfulCmp (cmp : Bytes → Bytes → Int) : Prop where
  eq_iff : ∀ a b, cmp a b = 0 ↔ a = b
  lt_trans : ∀ a b c, cmp a b < 0 → cmp b c < 0 → cmp a c < 0
  flip : ∀ a b, cmp a b < 0 ↔ 0 < cmp b a

/-- The default bytewise (lexicographic) comparator. -/
def bytewiseCompare : Bytes → Bytes → Int
  | [], [] => 0
  | [], _ :: _ => -1
  | _ :: _, [] => 1
  | a :: as, b :: bs =>
    if a < b then -1 else if b < a then 1 else bytewiseCompare as bs

/-! ## The write batch and its wire codec -/

/-- Modelled from the spec: the batch op tag for delete records.  The
`keyType` constants are declared outside src/; the wire format section
fixes `0x00=delete`. -/
def keyTypeDel : Nat := 0

/-- Modelled from the spec: the batch op tag for put records (`0x01=put`). -/
def keyTypeVal : Nat := 1

/-- `batchHeaderLen = 8 + 4`. -/
def batchHeaderLen : Nat := 12

/-- Record location index (`batchIndex`).  The position and length fields
are Go `int`s, hence `Int`: `decodeBatch` can in fact store negative
lengths (see the claims about corrupted inputs). -/
structure BatchIndex where
  keyType : Nat
  keyPos : Int
  keyLen : Int
  valuePos : Int
  valueLen : Int
deriving DecidableEq, Repr

/-- `batchIndex.k`. -/
def BatchIndex.k (idx : BatchIndex) (data : List Nat) : Bytes :=
  (data.drop idx.keyPos.toNat).take idx.keyLen.toNat

/-- `batchIndex.v` (`nil` is modelled as `[]`). -/
def BatchIndex.v (idx : BatchIndex) (data : List Nat) : Bytes :=
  if idx.valueLen ≠ 0 then (data.drop idx.valuePos.toNat).take idx.valueLen.toNat
  else []

/-- `Batch`. -/
structure Batch where
  data : List Nat
  index : List BatchIndex
  internalLen : Int
deriving DecidableEq, Repr

/-- The Go zero value of `Batch`. -/
def emptyBatch : Batch := { data := [], index := [], internalLen := 0 }

/-- The byte list produced by `binary.PutUvarint` for `x` (7-bit groups,
little-endian, continuation bit 0x80).  Faithful to Go for every `x`
that fits the reserved buffer space (the source reserves
`binary.MaxVarintLen32` bytes per length, i.e. lengths below `2^32`). -/
def uvarintBytes : Nat → Nat → List Nat
  | 0, x => [x % 128]
  | fuel + 1, x => if x < 128 then [x] else (x % 128 + 128) :: uvarintBytes fuel (x / 128)

/-- `binary.PutUvarint` output for `x` (fuel `x` always suffices). -/
def putUvarint (x : Nat) : List Nat := uvarintBytes x x

/-- `Batch.appendRec`.  The source grows the buffer with slack
(`grow`/`MaxVarintLen32` headroom), writes the record sequentially and
truncates to the written prefix; the resulting buffer value is exactly
the old buffer followed by the encoded record, which is what the model
appends. -/
def Batch.appendRec (b : Batch) (kt : Nat) (key value : Bytes) : Batch :=
  let o := b.data.length
  let keyPart := putUvarint key.length
  if kt = keyTypeVal then
    let valPart := putUvarint value.length
    let idx : BatchIndex :=
      { keyType := kt, keyPos := (o + 1 + keyPart.length : Nat),
        keyLen := (key.length : Nat),
        valuePos := (o + 1 + keyPart.length + key.length + valPart.length : Nat),
        valueLen := (value.length : Nat) }
    { data := b.data ++ kt :: (keyPart ++ key ++ valPart ++ value),
      index := b.index ++ [idx],
      internalLen := b.internalLen + idx.keyLen + idx.valueLen + 8 }
  else
    let idx : BatchIndex :=
      { keyType := kt, keyPos := (o + 1 + keyPart.length : Nat),
        keyLen := (key.length : Nat), valuePos := 0, valueLen := 0 }
    { data := b.data ++ kt :: (keyPart ++ key),
      index := b.index ++ [idx],
      internalLen := b.internalLen + idx.keyLen + idx.valueLen + 8 }

/-- `Batch.Put`. -/
def Batch.Put (b : Batch) (key value : Bytes) : Batch :=
  b.appendRec keyTypeVal key value

/-- `Batch.Delete`. -/
def Batch.Delete (b : Batch) (key : Bytes) : Batch :=
  b.appendRec keyTypeDel key []

/-- `Batch.Dump`. -/
def Batch.Dump (b : Batch) : List Nat := b.data

/-- `Batch.Len`. -/
def Batch.Len (b : Batch) : Nat := b.index.length

/-- `Batch.Reset`. -/
def Batch.Reset (_b : Batch) : Batch := emptyBatch

/-- A logical batch-building operation. -/
inductive BatchOp where
  | put (k v : Bytes)
  | del (k : Bytes)

/-- Apply one building operation to a batch. -/
def batchApply (b : Batch) : BatchOp → Batch
  | .put k v => b.Put k v
  | .del k => b.Delete k

/-- Build a batch from a sequence of `Batch.Put`/`Batch.Delete` calls. -/
def buildBatch (ops : List BatchOp) : Batch :=
  ops.foldl batchApply emptyBatch

/-- Reinterpret a `uint64` as a Go `int` (two's complement), as the
source's `int(x)` conversion does. -/
def intOfUint64 (x : Nat) : Int := if x < 2 ^ 63 then (x : Int) else (x : Int) - 2 ^ 64

/-- 64-bit two's-complement wrap-around of an `Int` (Go `int` addition). -/
def wrap64 (z : Int) : Int := (z + 2 ^ 63) % 2 ^ 64 - 2 ^ 63

/-- `binary.Uvarint` (Go), byte-for-byte: returns the decoded value and the
byte count, `(0, 0)` on a truncated varint and a negative count on 64-bit
overflow.  Byte reads reduce mod 256 (a Go byte). -/
def goUvarintAux : List Nat → Nat → Nat → Nat → Nat × Int
  | [], _, _, _ => (0, 0)
  | b :: rest, i, x, s =>
    if i = 10 then (0, -11)
    else
      if b % 256 < 128 then
        if i = 9 ∧ 1 < b % 256 then (0, -10)
        else ((x ||| (b % 256) <<< s) % 2 ^ 64, (i : Int) + 1)
      else goUvarintAux rest (i + 1) ((x ||| (b % 256 % 128) <<< s) % 2 ^ 64) (s + 7)

/-- `binary.Uvarint`. -/
def goUvarint (buf : List Nat) : Nat × Int := goUvarintAux buf 0 0 0

/-- A hexadecimal digit character code, lowercase. -/
def hexDigit (n : Nat) : Char := if n < 10 then Char.ofNat (48 + n) else Char.ofNat (87 + n)

/-- Hex digits of `n`, most significant first (fuel `n` suffices). -/
def hexDigits : Nat → Nat → List Char
  | 0, _ => []
  | fuel + 1, n => if n = 0 then [] else hexDigits fuel (n / 16) ++ [hexDigit (n % 16)]

/-- Go `fmt.Sprintf` `%#x` formatting of an unsigned value. -/
def goHexFmt (n : Nat) : String :=
  if n = 0 then "0x0" else "0x" ++ String.mk (hexDigits n n)

/-- Outcome of running `decodeBatch`.  `panicked` marks a Go runtime
out-of-range slice index or slice bound (the source has no recover);
`fuelOut` is a model artefact for loops longer than the fuel, shown
unreachable on the inputs the positive claims quantify over. -/
inductive DecodeOutcome where
  | ok (index : List BatchIndex)
  | corrupted (reason : String)
  | panicked
  | fuelOut
deriving DecidableEq, Repr

/-- The loop of `decodeBatch`, collecting the record indices the callback
receives.  (The callbacks the verified claims use never fail, so the
callback is modelled as a pure collector.)  All cursor arithmetic is Go
`int` arithmetic; the two additions that can exceed 64 bits wrap via
`wrap64`. -/
def decodeBatchLoop (data : List Nat) : Nat → Nat → Int → List BatchIndex → DecodeOutcome
  | 0, _, _, _ => .fuelOut
  | fuel + 1, i, o, acc =>
    if o < (data.length : Int) then
      if o < 0 then .panicked
      else
        let kt := data.getD o.toNat 0 % 256
        if keyTypeVal < kt then .corrupted ("bad record: invalid type " ++ goHexFmt kt)
        else
          let o1 := o + 1
          let r := goUvarint (data.drop o1.toNat)
          let x := r.1
          let nn := r.2
          let o2 := o1 + nn
          if nn ≤ 0 ∨ (data.length : Int) < wrap64 (o2 + intOfUint64 x) then
            .corrupted "bad record: invalid key length"
          else
            let keyPos := o2
            let keyLen := intOfUint64 x
            let o3 := wrap64 (o2 + keyLen)
            if kt = keyTypeVal then
              if o3 < 0 ∨ (data.length : Int) < o3 then .panicked
              else
                let r2 := goUvarint (data.drop o3.toNat)
                let x2 := r2.1
                let n2 := r2.2
                let o4 := o3 + n2
                if n2 ≤ 0 ∨ (data.length : Int) < wrap64 (o4 + intOfUint64 x2) then
                  .corrupted "bad record: invalid value length"
                else
                  let valueLen := intOfUint64 x2
                  let o5 := wrap64 (o4 + valueLen)
                  decodeBatchLoop data fuel (i + 1) o5
                    (acc ++ [{ keyType := kt, keyPos := keyPos, keyLen := keyLen,
                               valuePos := o4, valueLen := valueLen }])
            else
              decodeBatchLoop data fuel (i + 1) o3
                (acc ++ [{ keyType := kt, keyPos := keyPos, keyLen := keyLen,
                           valuePos := 0, valueLen := 0 }])
    else .ok acc

/-- `decodeBatch`.  Fuel `|data| + 1` dominates the iteration count on
every input that decodes successfully (each record consumes at least two
bytes). -/
def decodeBatch (data : List Nat) : DecodeOutcome :=
  decodeBatchLoop data (data.length + 1) 0 0 []

/-- Little-endian base-256 decoding (Go `binary.LittleEndian.UintNN`). -/
def leDecode : List Nat → Nat
  | [] => 0
  | b :: rest => b % 256 + 256 * leDecode rest

/-- `decodeBatchHeader`: requires 12 bytes, reads `seq` (8 bytes LE) and
the record count (4 bytes LE, converted to a Go `int`). -/
def decodeBatchHeader (data : List Nat) : Except String (Nat × Int) :=
  if data.length < batchHeaderLen then .error "too short"
  else
    let seq := leDecode (data.take 8)
    let batchLen : Int := (leDecode ((data.drop 8).take 4) : Int)
    if batchLen < 0 then .error "invalid records length"
    else .ok (seq, batchLen)

/-- The running `internalLen` accumulated by `Batch.decode`'s callback. -/
def sumInternal (idx : List BatchIndex) : Int :=
  idx.foldl (fun a e => a + e.keyLen + e.valueLen + 8) 0

/-- Outcome of `Batch.decode`/`Batch.Load`. -/
inductive LoadResult where
  | ok (b : Batch)
  | corrupted (reason : String)
  | panicked
  | fuelOut
deriving DecidableEq, Repr

/-- `Batch.decode`. -/
def Batch.decode (_b : Batch) (data : List Nat) (expectedLen : Int) : LoadResult :=
  match decodeBatch data with
  | .ok idx =>
    if 0 ≤ expectedLen ∧ (idx.length : Int) ≠ expectedLen then
      .corrupted ("invalid records length: " ++ toString expectedLen ++ " vs " ++
        toString idx.length)
    else .ok { data := data, index := idx, internalLen := sumInternal idx }
  | .corrupted r => .corrupted r
  | .panicked => .panicked
  | .fuelOut => .fuelOut

/-- `Batch.Load`. -/
def Batch.Load (b : Batch) (data : List Nat) : LoadResult :=
  b.decode data (-1)

/-- 8-byte little-endian encoding of `x` (as a `uint64`). -/
def uint64LE (x : Nat) : List Nat :=
  [x % 256, x / 256 % 256, x / 256 ^ 2 % 256, x / 256 ^ 3 % 256,
   x / 256 ^ 4 % 256, x / 256 ^ 5 % 256, x / 256 ^ 6 % 256, x / 256 ^ 7 % 256]

/-- Modelled from the spec: `makeInternalKey` (declared outside src/) packs
`userKey ‖ (sequence:56bits, type:8bits)` as the user key followed by one
little-endian 64-bit trailer holding `seq<<8 | keyType`. -/
def makeInternalKey (ukey : Bytes) (seq : Nat) (kt : Nat) : Bytes :=
  ukey ++ uint64LE (seq * 256 + kt)

/-- The loop of `Batch.putMem`: record `i` is written with internal key
`makeInternalKey(k_i, seq+i, keyType_i)` and its value.  `memdb.Put`
always returns nil, so the source's error propagation is vacuous. -/
def putMemGo (data : List Nat) (seq : Nat) : List BatchIndex → Nat → DB → DB
  | [], _, db => db
  | idx :: rest, i, db =>
    putMemGo data seq rest (i + 1)
      (db.Put (makeInternalKey (idx.k data) (seq + i) idx.keyType) (idx.v data))

/-- `Batch.putMem`. -/
def Batch.putMem (b : Batch) (seq : Nat) (db : DB) : DB :=
  putMemGo b.data seq b.index 0 db

/-- The loop of `Batch.revertMem`: deletes each record's internal key,
stopping at the first `ErrNotFound` (boolean `false`). -/
def revertMemGo (data : List Nat) (seq : Nat) : List BatchIndex → Nat → DB → DB × Bool
  | [], _, db => (db, true)
  | idx :: rest, i, db =>
    let r := db.Delete (makeInternalKey (idx.k data) (seq + i) idx.keyType)
    if r.2 then revertMemGo data seq rest (i + 1) r.1 else (r.1, false)

/-- `Batch.revertMem`. -/
def Batch.revertMem (b : Batch) (seq : Nat) (db : DB) : DB × Bool :=
  revertMemGo b.data seq b.index 0 db

/-- The encoded bytes of one batch record (reference form of what
`appendRec` appends). -/
def encRec : BatchOp → List Nat
  | .put k v => keyTypeVal :: (putUvarint k.length ++ k ++ putUvarint v.length ++ v)
  | .del k => keyTypeDel :: (putUvarint k.length ++ k)

/-- Concatenated record encodings. -/
def encChain : List BatchOp → List Nat
  | [] => []
  | op :: t => encRec op ++ encChain t

/-- The index entry `appendRec` records for one record starting at offset `o`. -/
def idxRec (o : Nat) : BatchOp → BatchIndex
  | .put k v =>
    { keyType := keyTypeVal, keyPos := (o + 1 + (putUvarint k.length).length : Nat),
      keyLen := (k.length : Nat),
      valuePos := (o + 1 + (putUvarint k.length).length + k.length +
        (putUvarint v.length).length : Nat),
      valueLen := (v.length : Nat) }
  | .del k =>
    { keyType := keyTypeDel, keyPos := (o + 1 + (putUvarint k.length).length : Nat),
      keyLen := (k.length : Nat), valuePos := 0, valueLen := 0 }

/-- The index entries of a record sequence starting at offset `o`. -/
def idxChain (o : Nat) : List BatchOp → List BatchIndex
  | [] => []
  | op :: t => idxRec o op :: idxChain (o + (encRec op).length) t

/-- The internal keys `putMem`/`revertMem` derive for the records of an
index list, the loop counter starting at `i`. -/
def internalKeys (data : List Nat) (seq : Nat) : List BatchIndex → Nat → List Bytes
  | [], _ => []
  | idx :: rest, i =>
    makeInternalKey (idx.k data) (seq + i) idx.keyType ::
      internalKeys data seq rest (i + 1)

/-- The (internal key, value) pairs `putMem` inserts for an index list. -/
def recPairs (data : List Nat) (seq : Nat) : List BatchIndex → Nat → List (Bytes × Bytes)
  | [], _ => []
  | idx :: rest, i =>
    (makeInternalKey (idx.k data) (seq + i) idx.keyType, idx.v data) ::
      recPairs data seq rest (i + 1)

/-- Key/value lengths small enough for the 32-bit varint headroom the
source reserves (`binary.MaxVarintLen32`). -/
def opLenOK : BatchOp → Bool
  | .put k v => decide (k.length < 2 ^ 32) && decide (v.length < 2 ^ 32)
  | .del k => decide (k.length < 2 ^ 32)

/-! ## List access helpers -/

lemma getD_set_self : ∀ (l : List Nat) (i v : Nat), i < l.length →
    (l.set i v).getD i 0 = v
  | [], i, v, h => by simp at h
  | _ :: _, 0, _, _ => rfl
  | a :: t, i + 1, v, h => by
    simpa [List.set_cons_succ, List.getD_cons_succ] using
      getD_set_self t i v (by simpa using h)

lemma getD_set_ne : ∀ (l : List Nat) (i j v : Nat), i ≠ j →
    (l.set i v).getD j 0 = l.getD j 0
  | [], _, _, _, _ => by simp
  | a :: t, 0, 0, v, h => absurd rfl h
  | a :: t, 0, j + 1, v, _ => by simp [List.set_cons_zero, List.getD_cons_succ]
  | a :: t, i + 1, 0, v, _ => by simp [List.set_cons_succ, List.getD_cons_zero]
  | a :: t, i + 1, j + 1, v, h => by
    simpa [List.set_cons_succ, List.getD_cons_succ] using
      getD_set_ne t i j v (fun hc => h (by omega))

lemma getD_append_left : ∀ (l m : List Nat) (j : Nat), j < l.length →
    (l ++ m).getD j 0 = l.getD j 0
  | [], _, j, h => by simp at h
  | a :: t, m, 0, _ => rfl
  | a :: t, m, j + 1, h => by
    simpa [List.getD_cons_succ] using getD_append_left t m j (by simpa using h)

lemma getD_append_right : ∀ (l m : List Nat) (j : Nat), l.length ≤ j →
    (l ++ m).getD j 0 = m.getD (j - l.length) 0
  | [], m, j, _ => by simp
  | a :: t, m, 0, h => by simp at h
  | a :: t, m, j + 1, h => by
    simpa [List.getD_cons_succ] using getD_append_right t m j (by simpa using h)

lemma getD_replicate_zero (k j : Nat) : (List.replicate k (0 : Nat)).getD j 0 = 0 := by
  induction k generalizing j with
  | zero => simp [List.getD]
  | succ m ih =>
    cases j with
    | zero => rfl
    | succ jj => simpa [List.replicate_succ, List.getD_cons_succ] using ih jj

lemma getD_oob : ∀ (l : List Nat) (j : Nat), l.length ≤ j → l.getD j 0 = 0
  | [], j, _ => by simp [List.getD]
  | a :: t, 0, h => by simp at h
  | a :: t, j + 1, h => by
    simpa [List.getD_cons_succ] using getD_oob t j (by simpa using h)

lemma set_oob : ∀ (l : List Nat) (j v : Nat), l.length ≤ j → l.set j v = l
  | [], _, _, _ => by simp
  | a :: t, 0, v, h => by simp at h
  | a :: t, j + 1, v, h => by
    simpa [List.set_cons_succ] using set_oob t j v (by simpa using h)

/-- Slices strictly inside a list are unaffected by appending. -/
lemma slice_append (data ext : List Nat) (o len : Nat) (h : o + len ≤ data.length) :
    (((data ++ ext).drop o).take len) = ((data.drop o).take len) := by
  rw [List.drop_append_of_le_length (by omega)]
  exact List.take_append_of_le_length (by simp; omega)

/-- The slice starting at the old length of an extended list is the extension. -/
lemma slice_at_end (data ext : List Nat) :
    ((data ++ ext).drop data.length) = ext := List.drop_left data ext

/-! ## Chain segments

`ChainSeg f s l e` states that following the pointer function `f` from
start `s` visits exactly the nodes of `l` in order and then reaches `e`. -/

/-- Pointer-chasing segment. -/
def ChainSeg (f : Nat → Nat) : Nat → List Nat → Nat → Prop
  | s, [], e => s = e
  | s, x :: xs, e => s = x ∧ ChainSeg f (f x) xs e

/-- A complete chain: a segment ending at the null node 0. -/
def IsNodeChain (f : Nat → Nat) (s : Nat) (l : List Nat) : Prop := ChainSeg f s l 0

lemma chainSeg_nil {f : Nat → Nat} {s e : Nat} : ChainSeg f s [] e ↔ s = e := Iff.rfl

lemma chainSeg_cons {f : Nat → Nat} {s e x : Nat} {xs : List Nat} :
    ChainSeg f s (x :: xs) e ↔ s = x ∧ ChainSeg f (f x) xs e := Iff.rfl

lemma chainSeg_append {f : Nat → Nat} :
    ∀ {a b : List Nat} {s e : Nat},
      ChainSeg f s (a ++ b) e ↔ ∃ m, ChainSeg f s a m ∧ ChainSeg f m b e := by
  intro a
  induction a with
  | nil =>
    intro b s e
    constructor
    · intro h; exact ⟨s, rfl, h⟩
    · rintro ⟨m, hm, h⟩; cases hm; exact h
  | cons x xs ih =>
    intro b s e
    constructor
    · rintro ⟨rfl, h⟩
      rcases ih.mp h with ⟨m, h1, h2⟩
      exact ⟨m, ⟨rfl, h1⟩, h2⟩
    · rintro ⟨m, ⟨rfl, h1⟩, h2⟩
      exact ⟨rfl, ih.mpr ⟨m, h1, h2⟩⟩

lemma chainSeg_congr {f g : Nat → Nat} :
    ∀ {l : List Nat} {s e : Nat}, (∀ x ∈ l, g x = f x) → ChainSeg f s l e →
      ChainSeg g s l e := by
  intro l
  induction l with
  | nil => intro s e _ h; exact h
  | cons x xs ih =>
    intro s e hg hseg
    obtain ⟨hs, h⟩ := hseg
    refine ⟨hs, ?_⟩
    rw [hg x (List.mem_cons_self x xs)]
    exact ih (fun y hy => hg y (List.mem_cons_of_mem _ hy)) h

/-- Redirecting the pointer out of the last node of a segment. -/
lemma chainSeg_redirect {f g : Nat → Nat} :
    ∀ {l : List Nat} {s e e' : Nat}, ChainSeg f s l e → l ≠ [] →
      (∀ x ∈ l.dropLast, g x = f x) → g (l.getLastD 0) = e' →
      ChainSeg g s l e' := by
  intro l
  induction l with
  | nil => intro s e e' _ h _ _; exact absurd rfl h
  | cons x xs ih =>
    intro s e e' hseg _ hg hlast
    obtain ⟨hs, h⟩ := hseg
    cases xs with
    | nil =>
      exact ⟨hs, by simpa [List.getLastD_cons, List.getLastD_nil] using hlast⟩
    | cons y ys =>
      have hx : g x = f x := hg x (by simp [List.dropLast_cons₂])
      refine ⟨hs, ?_⟩
      rw [hx]
      exact ih h (by simp) (fun z hz => hg z (by simp [List.dropLast_cons₂, hz]))
        (by simpa [List.getLastD_cons] using hlast)

lemma chainSeg_suffix {f : Nat → Nat} {s e x : Nat} {u v : List Nat}
    (h : ChainSeg f s (u ++ x :: v) e) : ChainSeg f (f x) v e := by
  rcases chainSeg_append.mp h with ⟨m, _, hm⟩
  exact hm.2

lemma chainSeg_head {f : Nat → Nat} {s e : Nat} :
    ∀ {l : List Nat}, ChainSeg f s l e → s = l.headD e
  | [], h => h
  | x :: xs, h => h.1

/-! ## Lawfulness of the bytewise comparator -/

lemma bytewise_eq_iff : ∀ a b : Bytes, bytewiseCompare a b = 0 ↔ a = b
  | [], [] => by simp [bytewiseCompare]
  | [], _ :: _ => by simp [bytewiseCompare]
  | _ :: _, [] => by simp [bytewiseCompare]
  | x :: xs, y :: ys => by
    simp only [bytewiseCompare]
    rcases Nat.lt_trichotomy x y with h | h | h
    · rw [if_pos h]
      constructor
      · intro hc; exact absurd hc (by decide)
      · intro hc; injection hc with h1 _; omega
    · subst h
      rw [if_neg (lt_irrefl x), if_neg (lt_irrefl x)]
      rw [bytewise_eq_iff xs ys]
      constructor
      · intro hc; rw [hc]
      · intro hc; injection hc
    · rw [if_neg (show ¬ x < y by omega), if_pos h]
      constructor
      · intro hc; exact absurd hc (by decide)
      · intro hc; injection hc with h1 _; omega

lemma bytewise_flip : ∀ a b : Bytes, bytewiseCompare a b < 0 ↔ 0 < bytewiseCompare b a
  | [], [] => by simp [bytewiseCompare]
  | [], _ :: _ => by simp [bytewiseCompare]
  | _ :: _, [] => by simp [bytewiseCompare]
  | x :: xs, y :: ys => by
    simp only [bytewiseCompare]
    rcases Nat.lt_trichotomy x y with h | h | h
    · rw [if_pos h, if_neg (show ¬ y < x by omega), if_pos h]
      constructor <;> intro <;> decide
    · subst h
      rw [if_neg (lt_irrefl x), if_neg (lt_irrefl x), if_neg (lt_irrefl x),
        if_neg (lt_irrefl x)]
      exact bytewise_flip xs ys
    · rw [if_neg (show ¬ x < y by omega), if_pos h, if_pos h]
      constructor <;> intro hc <;> exact absurd hc (by decide)

lemma bytewise_lt_trans : ∀ a b c : Bytes, bytewiseCompare a b < 0 →
    bytewiseCompare b c < 0 → bytewiseCompare a c < 0
  | [], [], _, h1, _ => by simp [bytewiseCompare] at h1
  | [], _ :: _, [], _, h2 => by simp [bytewiseCompare] at h2
  | [], _ :: _, _ :: _, _, _ => by simp [bytewiseCompare]
  | _ :: _, [], _, h1, _ => by simp [bytewiseCompare] at h1
  | _ :: _, _ :: _, [], _, h2 => by simp [bytewiseCompare] at h2
  | x :: xs, y :: ys, z :: zs, h1, h2 => by
    simp only [bytewiseCompare] at h1 h2 ⊢
    by_cases hxy : x < y
    · by_cases hyz : y < z
      · rw [if_pos (show x < z by omega)]; decide
      · by_cases hzy : z < y
        · rw [if_neg hyz, if_pos hzy] at h2; exact absurd h2 (by decide)
        · have hyz' : y = z := by omega
          subst hyz'
          rw [if_pos hxy]; decide
    · by_cases hyx : y < x
      · rw [if_neg hxy, if_pos hyx] at h1; exact absurd h1 (by decide)
      · have hxy' : x = y := by omega
        subst hxy'
        rw [if_neg (lt_irrefl x), if_neg (lt_irrefl x)] at h1
        by_cases hyz : x < z
        · rw [if_pos hyz]; decide
        · by_cases hzy : z < x
          · rw [if_neg hyz, if_pos hzy] at h2; exact absurd h2 (by decide)
          · have : x = z := by omega
            subst this
            rw [if_neg (lt_irrefl x), if_neg (lt_irrefl x)] at h2 ⊢
            exact bytewise_lt_trans xs ys zs h1 h2

/-- The default bytewise comparator satisfies the Ordering Policy contract. -/
lemma lawful_bytewise : LawfulCmp bytewiseCompare :=
  ⟨bytewise_eq_iff, bytewise_lt_trans, bytewise_flip⟩

/-- A lawful comparator is irreflexive in the strict sense. -/
lemma LawfulCmp.not_lt_self {cmp : Bytes → Bytes → Int} (hc : LawfulCmp cmp)
    (a : Bytes) : ¬ cmp a a < 0 := by
  intro h
  have := (hc.flip a a).mp h
  omega

/-- From `cmp a b ≥ 0` and `cmp b c < 0` conclude `cmp c a < 0` is false; the
useful composition: `a < t ≤ b` gives `a < b`. -/
lemma LawfulCmp.lt_of_lt_of_ge {cmp : Bytes → Bytes → Int} (hc : LawfulCmp cmp)
    {a t b : Bytes} (h1 : cmp a t < 0) (h2 : ¬ cmp b t < 0) : cmp a b < 0 := by
  rcases Int.lt_trichotomy (cmp b t) 0 with h | h | h
  · exact absurd h h2
  · have : b = t := (hc.eq_iff b t).mp h
    subst this
    exact h1
  · have : cmp t b < 0 := (hc.flip t b).mpr h
    exact hc.lt_trans a t b h1 this

/-! ## The representation invariant -/

/-- Height field of node `x`. -/
def htOf (p : DB) (x : Nat) : Nat := nd p (x + nHeight)

/-- The level-`h` pointer function of the node table: `x ↦ nodeData[x+nNext+h]`. -/
def nextF (p : DB) (h : Nat) : Nat → Nat := fun x => nd p (x + nNext + h)

/-- The nodes of `ns` participating in level `h` (height > `h`). -/
def levelNodes (p : DB) (h : Nat) (ns : List Nat) : List Nat :=
  ns.filter (fun x => decide (h < htOf p x))

/-- Structural validity of one live node. -/
structure NodeOk (p : DB) (x : Nat) : Prop where
  lb : 4 + tMaxHeight ≤ x
  ht1 : 1 ≤ htOf p x
  ht2 : htOf p x ≤ p.maxHeight
  inND : x + nNext + htOf p x ≤ p.nodeData.length
  inKV : nd p x + nd p (x + nKey) + nd p (x + nVal) ≤ p.kvData.length

/-- Disjointness of the node-table regions of two nodes. -/
def NodeDisj (p : DB) (x y : Nat) : Prop :=
  x + nNext + htOf p x ≤ y ∨ y + nNext + htOf p y ≤ x

/-- Total key+value payload of a model (spec side). -/
def kvLenSum : List (Bytes × Bytes) → Int
  | [] => 0
  | e :: t => (e.1.length : Int) + (e.2.length : Int) + kvLenSum t

/-- The representation invariant: the store `p` realises the sorted
association list `M` through the live nodes `ns` (in key order). -/
structure RepW (cmp : Bytes → Bytes → Int) (p : DB) (M : List (Bytes × Bytes))
    (ns : List Nat) : Prop where
  hcmp : p.cmp = cmp
  hpn : p.prevNode.length = tMaxHeight
  hhead : 4 + tMaxHeight ≤ p.nodeData.length
  hheadH : nd p nHeight = tMaxHeight
  hmax1 : 1 ≤ p.maxHeight
  hmax2 : p.maxHeight ≤ tMaxHeight
  hmodel : M = ns.map (fun x => (keyOf p x, valOf p x))
  hsort : List.Pairwise (fun a b => cmp a.1 b.1 < 0) M
  hvalid : ∀ x ∈ ns, NodeOk p x
  hdisj : List.Pairwise (NodeDisj p) ns
  hchain : ∀ h, h < tMaxHeight → IsNodeChain (nextF p h) (nextF p h 0) (levelNodes p h ns)
  hcount : p.n = ns.length
  hsize : p.kvSize = kvLenSum M
  hroom : ns.length + 4 + tMaxHeight ≤ p.nodeData.length

/-- The representation invariant, node list quantified. -/
def RepI (cmp : Bytes → Bytes → Int) (p : DB) (M : List (Bytes × Bytes)) : Prop :=
  ∃ ns, RepW cmp p M ns

/-- Keys are strictly sorted along the node list. -/
lemma RepW.sortN {cmp p M ns} (hr : RepW cmp p M ns) :
    List.Pairwise (fun x y => cmp (keyOf p x) (keyOf p y) < 0) ns := by
  have := hr.hsort
  rw [hr.hmodel, List.pairwise_map] at this
  exact this

/-- The empty store satisfies the invariant. -/
lemma rep_new (cmp : Bytes → Bytes → Int) (rnd : Nat → Nat) (capacity : Nat) :
    RepW cmp (New_ cmp rnd capacity) [] [] := by
  refine ⟨rfl, ?_, ?_, ?_, ?_, ?_, rfl, List.Pairwise.nil, ?_, List.Pairwise.nil, ?_, rfl, rfl, ?_⟩
  · simp [New_]
  · simp [New_, tMaxHeight]
  · exact getD_set_self _ _ _ (by decide)
  · simp [New_]
  · simp [New_, tMaxHeight]
  · intro x hx; simp at hx
  · intro h _
    show ChainSeg _ _ ([].filter _) 0
    simp only [List.filter_nil]
    show nd (New_ cmp rnd capacity) (0 + nNext + h) = 0
    unfold nd New_
    simp only
    rw [getD_set_ne _ _ _ _ (by simp [nHeight, nNext]; omega)]
    exact getD_replicate_zero _ _
  · simp [New_, tMaxHeight]

/-! ## Search auxiliary lemmas -/

lemma takeWhile_append_all {pr : Nat → Bool} :
    ∀ (u v : List Nat), (∀ z ∈ u, pr z = true) →
      (u ++ v).takeWhile pr = u ++ v.takeWhile pr := by
  intro u
  induction u with
  | nil => intro v _; rfl
  | cons z u ih =>
    intro v h
    simp only [List.cons_append, List.takeWhile_cons, h z (by simp), if_true]
    rw [ih v (fun w hw => h w (by simp [hw]))]

lemma dropWhile_append_all {pr : Nat → Bool} :
    ∀ (u v : List Nat), (∀ z ∈ u, pr z = true) →
      (u ++ v).dropWhile pr = v.dropWhile pr := by
  intro u
  induction u with
  | nil => intro v _; rfl
  | cons z u ih =>
    intro v h
    simp only [List.cons_append, List.dropWhile_cons, h z (by simp), if_true]
    exact ih v (fun w hw => h w (by simp [hw]))

lemma getLastD_append_cons :
    ∀ (u : List Nat) (y : Nat) (w : List Nat) (d : Nat),
      (u ++ y :: w).getLastD d = w.getLastD y
  | [], y, w, d => by rw [List.nil_append]; exact List.getLastD_cons d y w
  | z :: u, y, w, d => by
    simp only [List.cons_append, List.getLastD_cons]
    exact getLastD_append_cons u y w z

/-- The search predicate: node key strictly below the target. -/
def belowT (cmp : Bytes → Bytes → Int) (p : DB) (t : Bytes) (y : Nat) : Bool :=
  decide (cmp (keyOf p y) t < 0)

/-- The exactness flag `findGE` reports: whether the first node whose key is
not below the target has key equal to it. -/
def specExact (cmp : Bytes → Bytes → Int) (p : DB) (t : Bytes) : List Nat → Bool
  | [] => false
  | y :: _ => decide (cmp (keyOf p y) t = 0)

/-- Position of the search state: `x` is the head sentinel with the whole
node list ahead, or a live node of height above `h` with key below the
target and exactly `S` ahead of it. -/
def SearchPos (cmp : Bytes → Bytes → Int) (p : DB) (ns : List Nat) (t : Bytes)
    (h x : Nat) (S : List Nat) : Prop :=
  (x = 0 ∧ S = ns) ∨
    (∃ pre, ns = pre ++ x :: S ∧ h < htOf p x ∧ cmp (keyOf p x) t < 0)

/-- One unfolding of the `findGE` loop. -/
lemma findGEAux_succ (p : DB) (t : Bytes) (prev : Bool) (f x h : Nat) (pn : List Nat) :
    p.findGEAux t prev (f + 1) x h pn =
      (let next := nd p (x + nNext + h)
       let c : Int := if next ≠ 0 then p.cmp (keyOf p next) t else 1
       if c < 0 then p.findGEAux t prev f next h pn
       else
         if prev then
           (if h = 0 then (next, decide (c = 0), pn.set h x)
            else p.findGEAux t prev f x (h - 1) (pn.set h x))
         else
           (if c = 0 then (next, true, pn)
            else if h = 0 then (next, false, pn)
            else p.findGEAux t prev f x (h - 1) pn)) := rfl

/-- Master correctness lemma for the `findGE` loop. -/
lemma findGEAux_spec {cmp : Bytes → Bytes → Int} {p : DB} {M : List (Bytes × Bytes)}
    {ns : List Nat} (hc : LawfulCmp cmp) (hr : RepW cmp p M ns) (t : Bytes) (prev : Bool) :
    ∀ (fuel h x : Nat) (S pn : List Nat),
      S.length + h + 1 ≤ fuel → h < p.maxHeight → pn.length = tMaxHeight →
      SearchPos cmp p ns t h x S →
      (p.findGEAux t prev fuel x h pn).1 =
          (S.dropWhile (belowT cmp p t)).headD 0 ∧
        (p.findGEAux t prev fuel x h pn).2.1 =
          specExact cmp p t (S.dropWhile (belowT cmp p t)) ∧
        (p.findGEAux t prev fuel x h pn).2.2.length = tMaxHeight ∧
        ∀ g : Nat, (p.findGEAux t prev fuel x h pn).2.2.getD g 0 =
          if prev = true ∧ g ≤ h then
            (levelNodes p g (S.takeWhile (belowT cmp p t))).getLastD x
          else pn.getD g 0 := by
  intro fuel
  induction fuel with
  | zero => intro h x S pn hfuel _ _ _; omega
  | succ f ih =>
    intro h x S pn hfuel hmax hpnlen hpos
    have hSsub : S.Sublist ns := by
      rcases hpos with ⟨hx0, hSns⟩ | ⟨pre, hns, _, _⟩
      · rw [hSns]
      · rw [hns]
        exact (List.sublist_cons_self x S).trans (List.sublist_append_right pre _)
    have hOkS : ∀ z ∈ S, NodeOk p z := fun z hz => hr.hvalid z (hSsub.subset hz)
    have hPairS : List.Pairwise (fun a b => cmp (keyOf p a) (keyOf p b) < 0) S :=
      hr.sortN.sublist hSsub
    have hchainS : ChainSeg (nextF p h) (nextF p h x) (levelNodes p h S) 0 := by
      rcases hpos with ⟨hx0, hSns⟩ | ⟨pre, hns, hhx, _⟩
      · subst hx0; rw [hSns]
        exact hr.hchain h (lt_of_lt_of_le hmax hr.hmax2)
      · have hch := hr.hchain h (lt_of_lt_of_le hmax hr.hmax2)
        rw [hns] at hch
        unfold levelNodes IsNodeChain at hch
        rw [List.filter_append, List.filter_cons, if_pos (by simpa using hhx)] at hch
        exact chainSeg_suffix hch
    cases hlevel : levelNodes p h S with
    | nil =>
      rw [hlevel] at hchainS
      have hnext0 : nextF p h x = 0 := hchainS
      have hS0 : h = 0 → S = [] := by
        intro h0; subst h0
        have heq : S.filter (fun z => decide (0 < htOf p z)) = S :=
          List.filter_eq_self.mpr (fun z hz => by
            simpa using (hOkS z hz).ht1)
        unfold levelNodes at hlevel
        rw [heq] at hlevel
        exact hlevel
      have hAh : levelNodes p h (S.takeWhile (belowT cmp p t)) = [] := by
        have hsub1 : (levelNodes p h (S.takeWhile (belowT cmp p t))).Sublist
            (levelNodes p h S) := by
          unfold levelNodes
          exact List.Sublist.filter _ (List.takeWhile_sublist _)
        rw [hlevel] at hsub1
        exact List.sublist_nil.mp hsub1
      have hnext0' : nd p (x + nNext + h) = 0 := hnext0
      have hstep : p.findGEAux t prev (f + 1) x h pn =
          if prev then
            (if h = 0 then ((0 : Nat), false, pn.set h x)
             else p.findGEAux t prev f x (h - 1) (pn.set h x))
          else
            (if h = 0 then ((0 : Nat), false, pn)
             else p.findGEAux t prev f x (h - 1) pn) := by
        rw [DB.findGEAux]
        rw [hnext0']
        norm_num
      have hpos' : SearchPos cmp p ns t (h - 1) x S := by
        rcases hpos with hl | ⟨pre, hns, hhx, hx⟩
        · exact Or.inl hl
        · exact Or.inr ⟨pre, hns, by omega, hx⟩
      rw [hstep]
      cases prev with
      | false =>
        by_cases hh0 : h = 0
        · have hSnil := hS0 hh0
          rw [if_neg (by simp), if_pos hh0, hSnil]
          refine ⟨by simp, by simp [specExact], hpnlen, ?_⟩
          intro g
          simp
        · rw [if_neg (by simp), if_neg hh0]
          obtain ⟨ih1, ih2, ih3, ih4⟩ :=
            ih (h - 1) x S pn (by omega) (by omega) hpnlen hpos'
          refine ⟨ih1, ih2, ih3, ?_⟩
          intro g
          rw [ih4 g]
          simp
      | true =>
        by_cases hh0 : h = 0
        · have hSnil := hS0 hh0
          rw [if_pos rfl, if_pos hh0, hSnil]
          subst hh0
          refine ⟨by simp, by simp [specExact], by simp [hpnlen], ?_⟩
          intro g
          by_cases hg : g = 0
          · subst hg
            rw [getD_set_self _ _ _ (by simp [hpnlen, tMaxHeight])]
            simp [levelNodes, List.getLastD_nil]
          · rw [getD_set_ne _ _ _ _ (fun hc => hg hc.symm)]
            rw [if_neg (fun hc => hg (Nat.le_zero.mp hc.2))]
        · rw [if_pos rfl, if_neg hh0]
          have hpn2 : (pn.set h x).length = tMaxHeight := by simp [hpnlen]
          obtain ⟨ih1, ih2, ih3, ih4⟩ :=
            ih (h - 1) x S (pn.set h x) (by omega) (by omega) hpn2 hpos'
          refine ⟨ih1, ih2, ih3, ?_⟩
          intro g
          rw [ih4 g]
          by_cases hg : g ≤ h - 1
          · rw [if_pos ⟨rfl, hg⟩, if_pos ⟨rfl, by omega⟩]
          · by_cases hgh : g = h
            · subst hgh
              rw [if_neg (fun hc => hg hc.2), if_pos ⟨rfl, le_refl _⟩]
              rw [getD_set_self _ _ _
                (by rw [hpnlen]; exact lt_of_lt_of_le hmax hr.hmax2)]
              rw [hAh, List.getLastD_nil]
            · rw [if_neg (fun hc => hg (by omega)), if_neg (fun hc => hgh (by omega))]
              rw [getD_set_ne _ _ _ _ (fun hc => hgh hc.symm)]
    | cons y rest =>
      rw [hlevel] at hchainS
      obtain ⟨hxy, hrest⟩ := hchainS
      have hyL : y ∈ levelNodes p h S := by
        rw [hlevel]; exact List.mem_cons_self y rest
      have hyS : y ∈ S := (List.mem_filter.mp hyL).1
      have hyht : h < htOf p y := by
        have := (List.mem_filter.mp hyL).2
        simpa using this
      have hyOk : NodeOk p y := hOkS y hyS
      have hy0 : y ≠ 0 := by have := hyOk.lb; omega
      have hnexty : nd p (x + nNext + h) = y := hxy.symm ▸ rfl
      by_cases hcy : cmp (keyOf p y) t < 0
      · -- walk forward to y
        obtain ⟨C, Sp, hSdec⟩ := List.append_of_mem hyS
        have hCbelow : ∀ z ∈ C ++ [y], belowT cmp p t z = true := by
          intro z hz
          rcases List.mem_append.mp hz with hzC | hzy
          · have hp := hPairS
            rw [hSdec] at hp
            have hrel : cmp (keyOf p z) (keyOf p y) < 0 :=
              (List.pairwise_append.mp hp).2.2 z hzC y (List.mem_cons_self _ _)
            exact decide_eq_true (hc.lt_trans _ _ _ hrel hcy)
          · have hzy' : z = y := by simpa using hzy
            subst hzy'
            exact decide_eq_true hcy
        have hCcons : C ++ y :: Sp = (C ++ [y]) ++ Sp := by simp
        have hA : S.takeWhile (belowT cmp p t) =
            (C ++ [y]) ++ Sp.takeWhile (belowT cmp p t) := by
          rw [hSdec, hCcons]
          exact takeWhile_append_all _ _ hCbelow
        have hB : S.dropWhile (belowT cmp p t) = Sp.dropWhile (belowT cmp p t) := by
          rw [hSdec, hCcons]
          exact dropWhile_append_all _ _ hCbelow
        have hlenS : S.length = C.length + Sp.length + 1 := by
          rw [hSdec]
          simp
          omega
        have hposy : SearchPos cmp p ns t h y Sp := by
          rcases hpos with ⟨hx0, hSns⟩ | ⟨pre, hns, _, _⟩
          · refine Or.inr ⟨C, ?_, hyht, hcy⟩
            rw [← hSns, hSdec]
          · refine Or.inr ⟨pre ++ x :: C, ?_, hyht, hcy⟩
            rw [hns, hSdec]
            simp
        have hstep : p.findGEAux t prev (f + 1) x h pn = p.findGEAux t prev f y h pn := by
          rw [findGEAux_succ, hnexty, hr.hcmp]
          simp only [hy0, ne_eq, not_false_eq_true, if_true, if_pos hcy]
        rw [hstep]
        obtain ⟨ih1, ih2, ih3, ih4⟩ := ih h y Sp pn (by omega) hmax hpnlen hposy
        refine ⟨by rw [ih1, hB], by rw [ih2, hB], ih3, ?_⟩
        intro g
        rw [ih4 g]
        by_cases hg : prev = true ∧ g ≤ h
        · rw [if_pos hg, if_pos hg, hA]
          unfold levelNodes
          rw [show (C ++ [y]) ++ Sp.takeWhile (belowT cmp p t) =
              C ++ y :: Sp.takeWhile (belowT cmp p t) by simp]
          rw [List.filter_append, List.filter_cons,
            if_pos (by simp only [decide_eq_true_eq]; omega)]
          exact (getLastD_append_cons _ _ _ _).symm
        · rw [if_neg hg, if_neg hg]
      · -- y is the first level-h node not below the target
        have hAh : levelNodes p h (S.takeWhile (belowT cmp p t)) = [] := by
          cases hfa : levelNodes p h (S.takeWhile (belowT cmp p t)) with
          | nil => rfl
          | cons w ws =>
            exfalso
            have hsplit : levelNodes p h S =
                levelNodes p h (S.takeWhile (belowT cmp p t)) ++
                  levelNodes p h (S.dropWhile (belowT cmp p t)) := by
              unfold levelNodes
              rw [← List.filter_append, List.takeWhile_append_dropWhile]
            rw [hfa, hlevel] at hsplit
            rw [List.cons_append] at hsplit
            have hwy : y = w := by
              injection hsplit with h1 _
            have hwA : w ∈ S.takeWhile (belowT cmp p t) := by
              have hmw : w ∈ levelNodes p h (S.takeWhile (belowT cmp p t)) := by
                rw [hfa]; exact List.mem_cons_self _ _
              exact (List.mem_filter.mp hmw).1
            have hbel := List.mem_takeWhile_imp hwA
            rw [← hwy] at hbel
            simp only [belowT, decide_eq_true_eq] at hbel
            exact hcy hbel
        have hyB : y ∈ S.dropWhile (belowT cmp p t) := by
          have hyn : y ∉ S.takeWhile (belowT cmp p t) := by
            intro hmem
            have hb := List.mem_takeWhile_imp hmem
            simp only [belowT, decide_eq_true_eq] at hb
            exact hcy hb
          have hy2 : y ∈ S.takeWhile (belowT cmp p t) ++ S.dropWhile (belowT cmp p t) := by
            rw [List.takeWhile_append_dropWhile]; exact hyS
          rcases List.mem_append.mp hy2 with h1 | h1
          · exact absurd h1 hyn
          · exact h1
        have hheadB : cmp (keyOf p y) t = 0 →
            S.dropWhile (belowT cmp p t) = y :: (S.dropWhile (belowT cmp p t)).tail := by
          intro hceq
          cases hBr : S.dropWhile (belowT cmp p t) with
          | nil => rw [hBr] at hyB; simp at hyB
          | cons w B2 =>
            have hwyr : w = y := by
              by_contra hwy
              have hyB2 : y ∈ B2 := by
                rw [hBr] at hyB
                rcases List.mem_cons.mp hyB with h1 | h1
                · exact absurd h1.symm hwy
                · exact h1
              have hPB : List.Pairwise (fun a b => cmp (keyOf p a) (keyOf p b) < 0)
                  (S.dropWhile (belowT cmp p t)) :=
                hPairS.sublist (List.dropWhile_sublist _)
              rw [hBr] at hPB
              have hrel : cmp (keyOf p w) (keyOf p y) < 0 :=
                (List.pairwise_cons.mp hPB).1 y hyB2
              have hky : keyOf p y = t := (hc.eq_iff _ _).mp hceq
              rw [hky] at hrel
              have hwfail := List.head?_dropWhile_not (belowT cmp p t) S
              rw [hBr] at hwfail
              simp only [List.head?_cons] at hwfail
              exact absurd hrel (by simpa [belowT] using hwfail)
            rw [hwyr]
            simp
        have hS0' : h = 0 → S = y :: rest := by
          intro h0; subst h0
          have heq : S.filter (fun z => decide (0 < htOf p z)) = S :=
            List.filter_eq_self.mpr (fun z hz => by simpa using (hOkS z hz).ht1)
          unfold levelNodes at hlevel
          rw [heq] at hlevel
          exact hlevel
        have hB0 : h = 0 → S.dropWhile (belowT cmp p t) = y :: rest := by
          intro h0
          rw [hS0' h0, List.dropWhile_cons]
          simp [belowT, hcy]
        have hA0 : h = 0 → S.takeWhile (belowT cmp p t) = [] := by
          intro h0
          rw [hS0' h0, List.takeWhile_cons]
          simp [belowT, hcy]
        have hexactT : cmp (keyOf p y) t = 0 →
            specExact cmp p t (S.dropWhile (belowT cmp p t)) = true := by
          intro hceq
          rw [hheadB hceq]
          simp [specExact, hceq]
        have hpos' : SearchPos cmp p ns t (h - 1) x S := by
          rcases hpos with hl | ⟨pre, hns, hhx, hx⟩
          · exact Or.inl hl
          · exact Or.inr ⟨pre, hns, by omega, hx⟩
        have hstep := findGEAux_succ p t prev f x h pn
        rw [hnexty, hr.hcmp] at hstep
        simp only [hy0, ne_eq, not_false_eq_true, if_true] at hstep
        rw [if_neg hcy] at hstep
        rw [hstep]
        cases prev with
        | false =>
          by_cases hc0 : cmp (keyOf p y) t = 0
          · rw [if_neg (by simp), if_pos hc0]
            refine ⟨?_, ?_, hpnlen, ?_⟩
            · rw [hheadB hc0]; simp
            · rw [hexactT hc0]
            · intro g; simp
          · rw [if_neg (by simp), if_neg hc0]
            by_cases hh0 : h = 0
            · rw [if_pos hh0]
              refine ⟨?_, ?_, hpnlen, ?_⟩
              · rw [hB0 hh0]; simp
              · rw [hB0 hh0]; simp [specExact, hc0]
              · intro g; simp
            · rw [if_neg hh0]
              obtain ⟨ih1, ih2, ih3, ih4⟩ :=
                ih (h - 1) x S pn (by omega) (by omega) hpnlen hpos'
              refine ⟨ih1, ih2, ih3, ?_⟩
              intro g
              rw [ih4 g]
              simp
        | true =>
          rw [if_pos rfl]
          by_cases hh0 : h = 0
          · rw [if_pos hh0]
            subst hh0
            refine ⟨?_, ?_, by simp [hpnlen], ?_⟩
            · rw [hB0 rfl]; simp
            · rw [hB0 rfl]; simp [specExact]
            · intro g
              by_cases hg : g = 0
              · subst hg
                rw [getD_set_self _ _ _ (by simp [hpnlen, tMaxHeight])]
                rw [if_pos ⟨rfl, le_refl 0⟩, hA0 rfl]
                simp [levelNodes, List.getLastD_nil]
              · rw [getD_set_ne _ _ _ _ (fun hcc => hg hcc.symm)]
                rw [if_neg (fun hcc => hg (Nat.le_zero.mp hcc.2))]
          · rw [if_neg hh0]
            have hpn2 : (pn.set h x).length = tMaxHeight := by simp [hpnlen]
            obtain ⟨ih1, ih2, ih3, ih4⟩ :=
              ih (h - 1) x S (pn.set h x) (by omega) (by omega) hpn2 hpos'
            refine ⟨ih1, ih2, ih3, ?_⟩
            intro g
            rw [ih4 g]
            by_cases hg : g ≤ h - 1
            · rw [if_pos ⟨rfl, hg⟩, if_pos ⟨rfl, by omega⟩]
            · by_cases hgh : g = h
              · subst hgh
                rw [if_neg (fun hcc => hg hcc.2), if_pos ⟨rfl, le_refl _⟩]
                rw [getD_set_self _ _ _
                  (by rw [hpnlen]; exact lt_of_lt_of_le hmax hr.hmax2)]
                rw [hAh, List.getLastD_nil]
              · rw [if_neg (fun hcc => hg (by omega)), if_neg (fun hcc => hgh (by omega))]
                rw [getD_set_ne _ _ _ _ (fun hcc => hgh hcc.symm)]

/-- End of a nonempty segment: the pointer out of its last node. -/
lemma chainSeg_last {f : Nat → Nat} :
    ∀ {l : List Nat} {s e d : Nat}, ChainSeg f s l e → l ≠ [] →
      f (l.getLastD d) = e := by
  intro l
  induction l with
  | nil => intro s e d _ h; exact absurd rfl h
  | cons x xs ih =>
    intro s e d hseg _
    obtain ⟨hs, h⟩ := hseg
    cases xs with
    | nil => rw [List.getLastD_cons, List.getLastD_nil]; exact h
    | cons y ys =>
      rw [List.getLastD_cons]
      exact ih h (by simp)

/-- `zeroRange` characterised pointwise. -/
lemma zeroRange_spec : ∀ (h i : Nat) (l : List Nat),
    (zeroRange l i h).length = l.length ∧
      ∀ g, (zeroRange l i h).getD g 0 =
        if i ≤ g ∧ g < h then 0 else l.getD g 0 := by
  intro h
  have main : ∀ k i l, h - i ≤ k → (zeroRange l i h).length = l.length ∧
      ∀ g, (zeroRange l i h).getD g 0 =
        if i ≤ g ∧ g < h then 0 else l.getD g 0 := by
    intro k
    induction k with
    | zero =>
      intro i l hk
      rw [zeroRange, if_neg (by omega)]
      exact ⟨rfl, fun g => by rw [if_neg (by omega)]⟩
    | succ k ih =>
      intro i l hk
      by_cases hih : i < h
      · rw [zeroRange, if_pos hih]
        obtain ⟨ih1, ih2⟩ := ih (i + 1) (l.set i 0) (by omega)
        refine ⟨by rw [ih1]; simp, ?_⟩
        intro g
        rw [ih2 g]
        by_cases hg1 : i + 1 ≤ g ∧ g < h
        · rw [if_pos hg1, if_pos (by omega)]
        · rw [if_neg hg1]
          by_cases hgi : g = i
          · subst hgi
            rw [if_pos (by omega)]
            by_cases hlen : g < l.length
            · exact getD_set_self _ _ _ hlen
            · rw [set_oob _ _ _ (by omega)]
              exact getD_oob _ _ (by omega)
          · rw [if_neg (by omega), getD_set_ne _ _ _ _ (fun hc => hgi hc.symm)]
      · rw [zeroRange, if_neg hih]
        exact ⟨rfl, fun g => by rw [if_neg (by omega)]⟩
  exact fun i l => main (h - i) i l (le_refl _)

/-- `spliceLoop` characterised pointwise: every `prevNode` slot is redirected
to the new node, the appended cells copy the old slot values in order, and
everything else is untouched. -/
lemma spliceLoop_spec : ∀ (k i h : Nat) (ndata pn : List Nat) (z : Nat),
    h - i ≤ k → i ≤ h →
    (∀ a, i ≤ a → a < h → pn.getD a 0 + nNext + a < ndata.length) →
    (∀ a b, i ≤ a → a < h → i ≤ b → b < h → a ≠ b →
      pn.getD a 0 + nNext + a ≠ pn.getD b 0 + nNext + b) →
    (spliceLoop ndata pn z i h).length = ndata.length + (h - i) ∧
      (∀ a, i ≤ a → a < h →
        (spliceLoop ndata pn z i h).getD (pn.getD a 0 + nNext + a) 0 = z) ∧
      (∀ a, i ≤ a → a < h →
        (spliceLoop ndata pn z i h).getD (ndata.length + (a - i)) 0 =
          ndata.getD (pn.getD a 0 + nNext + a) 0) ∧
      (∀ j, (∀ a, i ≤ a → a < h → j ≠ pn.getD a 0 + nNext + a) →
        j < ndata.length →
        (spliceLoop ndata pn z i h).getD j 0 = ndata.getD j 0) := by
  intro k
  induction k with
  | zero =>
    intro i h ndata pn z hk hih _ _
    rw [spliceLoop, if_neg (by omega)]
    exact ⟨by omega, fun a ha1 ha2 => by omega, fun a ha1 ha2 => by omega,
      fun j _ _ => rfl⟩
  | succ k ih =>
    intro i h ndata pn z hk hih hbound hdistinct
    by_cases hlt : i < h
    · rw [spliceLoop, if_pos hlt]
      set m := pn.getD i 0 + nNext + i with hm
      set nd2 := ((ndata ++ [ndata.getD m 0]).set m z) with hnd2
      have hlen2 : nd2.length = ndata.length + 1 := by
        rw [hnd2]; simp
      have hbound2 : ∀ a, i + 1 ≤ a → a < h →
          pn.getD a 0 + nNext + a < nd2.length := by
        intro a ha1 ha2
        rw [hlen2]
        exact lt_trans (hbound a (by omega) ha2) (by omega)
      have hdistinct2 : ∀ a b, i + 1 ≤ a → a < h → i + 1 ≤ b → b < h → a ≠ b →
          pn.getD a 0 + nNext + a ≠ pn.getD b 0 + nNext + b := by
        intro a b ha1 ha2 hb1 hb2 hab
        exact hdistinct a b (by omega) ha2 (by omega) hb2 hab
      obtain ⟨ih1, ih2, ih3, ih4⟩ :=
        ih (i + 1) h nd2 pn z (by omega) (by omega) hbound2 hdistinct2
      have hmlt : m < ndata.length := hbound i (le_refl _) hlt
      have hgetm : ∀ j, j < ndata.length → j ≠ m →
          nd2.getD j 0 = ndata.getD j 0 := by
        intro j hj hjm
        rw [hnd2, getD_set_ne _ _ _ _ (fun hc => hjm hc.symm),
          getD_append_left _ _ _ hj]
      have hndlen : nd2.getD ndata.length 0 = ndata.getD m 0 := by
        rw [hnd2, getD_set_ne _ _ _ _ (by omega),
          getD_append_right _ _ _ (le_refl _)]
        simp
      refine ⟨by rw [ih1, hlen2]; omega, ?_, ?_, ?_⟩
      · intro a ha1 ha2
        by_cases hai : a = i
        · rw [hai, ← hm]
          rw [ih4 m (fun b hb1 hb2 => hdistinct i b (le_refl _) hlt (by omega) hb2
              (by omega)) (by omega)]
          rw [hnd2, getD_set_self _ _ _ (by simp; omega)]
        · exact ih2 a (by omega) ha2
      · intro a ha1 ha2
        by_cases hai : a = i
        · rw [hai, ← hm]
          have heq0 : ndata.length + (i - i) = ndata.length := by omega
          rw [heq0]
          rw [ih4 ndata.length (fun b hb1 hb2 => by
              have := hbound b (by omega) hb2
              omega) (by omega)]
          exact hndlen
        · have hrw : ndata.length + (a - i) = nd2.length + (a - (i + 1)) := by
            rw [hlen2]; omega
          rw [hrw, ih3 a (by omega) ha2]
          rw [hgetm _ (hbound a (by omega) ha2)
            (hdistinct a i (by omega) ha2 (le_refl _) hlt (by omega))]
      · intro j hj hjlen
        rw [ih4 j (fun a ha1 ha2 => hj a (by omega) ha2) (by omega)]
        exact hgetm j hjlen (hj i (le_refl _) hlt)
    · rw [spliceLoop, if_neg hlt]
      exact ⟨by omega, fun a ha1 ha2 => by omega, fun a ha1 ha2 => by omega,
        fun j _ _ => rfl⟩

/-- `deleteLoop` characterised pointwise: every `prevNode` slot is redirected
past the unlinked node, everything else is untouched. -/
lemma deleteLoop_spec : ∀ (k i h : Nat) (ndata pn : List Nat),
    h - i ≤ k →
    (∀ a, i ≤ a → a < h → pn.getD a 0 + nNext + a < ndata.length) →
    (∀ a b, i ≤ a → a < h → i ≤ b → b < h → a ≠ b →
      pn.getD a 0 + nNext + a ≠ pn.getD b 0 + nNext + b) →
    (∀ a b, i ≤ a → a < h → i ≤ b → b < h →
      ndata.getD (pn.getD a 0 + nNext + a) 0 + nNext + a ≠
        pn.getD b 0 + nNext + b) →
    (deleteLoop ndata pn i h).length = ndata.length ∧
      (∀ a, i ≤ a → a < h →
        (deleteLoop ndata pn i h).getD (pn.getD a 0 + nNext + a) 0 =
          ndata.getD (ndata.getD (pn.getD a 0 + nNext + a) 0 + nNext + a) 0) ∧
      (∀ j, (∀ a, i ≤ a → a < h → j ≠ pn.getD a 0 + nNext + a) →
        (deleteLoop ndata pn i h).getD j 0 = ndata.getD j 0) := by
  intro k
  induction k with
  | zero =>
    intro i h ndata pn hk _ _ _
    rw [deleteLoop, if_neg (by omega)]
    exact ⟨rfl, fun a ha1 ha2 => by omega, fun j _ => rfl⟩
  | succ k ih =>
    intro i h ndata pn hk hbound hdistinct hread
    by_cases hlt : i < h
    · rw [deleteLoop, if_pos hlt]
      set m := pn.getD i 0 + nNext + i with hm
      set v := ndata.getD (ndata.getD m 0 + nNext + i) 0 with hv
      set nd2 := ndata.set m v with hnd2
      have hmlt : m < ndata.length := hbound i (le_refl _) hlt
      have hlen2 : nd2.length = ndata.length := by rw [hnd2]; simp
      have hgetm : ∀ j, j ≠ m → nd2.getD j 0 = ndata.getD j 0 := by
        intro j hjm
        rw [hnd2, getD_set_ne _ _ _ _ (fun hc => hjm hc.symm)]
      have hslots : ∀ a, i + 1 ≤ a → a < h →
          nd2.getD (pn.getD a 0 + nNext + a) 0 = ndata.getD (pn.getD a 0 + nNext + a) 0 := by
        intro a ha1 ha2
        exact hgetm _ (fun hc =>
          hdistinct a i (by omega) ha2 (le_refl _) hlt (by omega) (hm ▸ hc))
      obtain ⟨ih1, ih2, ih3⟩ := ih (i + 1) h nd2 pn (by omega)
        (fun a ha1 ha2 => by rw [hlen2]; exact hbound a (by omega) ha2)
        (fun a b ha1 ha2 hb1 hb2 hab =>
          hdistinct a b (by omega) ha2 (by omega) hb2 hab)
        (fun a b ha1 ha2 hb1 hb2 => by
          rw [hslots a ha1 ha2]
          exact hread a b (by omega) ha2 (by omega) hb2)
      refine ⟨by rw [ih1, hlen2], ?_, ?_⟩
      · intro a ha1 ha2
        by_cases hai : a = i
        · rw [hai, ← hm]
          rw [ih3 m (fun b hb1 hb2 =>
            hdistinct i b (le_refl _) hlt (by omega) hb2 (by omega))]
          rw [hnd2, getD_set_self _ _ _ hmlt]
        · rw [ih2 a (by omega) ha2]
          rw [hslots a (by omega) ha2]
          rw [hgetm _ (hread a i (by omega) ha2 (le_refl _) hlt)]
      · intro j hj
        rw [ih3 j (fun a ha1 ha2 => hj a (by omega) ha2)]
        exact hgetm j (hj i (le_refl _) hlt)
    · rw [deleteLoop, if_neg hlt]
      exact ⟨rfl, fun a ha1 ha2 => by omega, fun j _ => rfl⟩

/-- `resetLoop` characterised pointwise. -/
lemma resetLoop_spec : ∀ (k i : Nat) (ndata pn : List Nat),
    tMaxHeight - i ≤ k →
    (resetLoop ndata pn i).1.length = ndata.length ∧
      (resetLoop ndata pn i).2.length = pn.length ∧
      (∀ g, (resetLoop ndata pn i).1.getD g 0 =
        if nNext + i ≤ g ∧ g < nNext + tMaxHeight then 0 else ndata.getD g 0) ∧
      (∀ g, (resetLoop ndata pn i).2.getD g 0 =
        if i ≤ g ∧ g < tMaxHeight then 0 else pn.getD g 0) := by
  intro k
  induction k with
  | zero =>
    intro i ndata pn hk
    rw [resetLoop, if_neg (by omega)]
    exact ⟨rfl, rfl, fun g => by rw [if_neg (by omega)],
      fun g => by rw [if_neg (by omega)]⟩
  | succ k ih =>
    intro i ndata pn hk
    by_cases hlt : i < tMaxHeight
    · rw [resetLoop, if_pos hlt]
      obtain ⟨ih1, ih2, ih3, ih4⟩ := ih (i + 1) (ndata.set (nNext + i) 0)
        (pn.set i 0) (by omega)
      refine ⟨by rw [ih1]; simp, by rw [ih2]; simp, ?_, ?_⟩
      · intro g
        rw [ih3 g]
        by_cases hg1 : nNext + (i + 1) ≤ g ∧ g < nNext + tMaxHeight
        · rw [if_pos hg1, if_pos (by omega)]
        · rw [if_neg hg1]
          by_cases hgi : g = nNext + i
          · subst hgi
            rw [if_pos (by omega)]
            by_cases hlen : nNext + i < ndata.length
            · exact getD_set_self _ _ _ hlen
            · rw [set_oob _ _ _ (by omega)]
              exact getD_oob _ _ (by omega)
          · rw [if_neg (by omega), getD_set_ne _ _ _ _ (fun hc => hgi hc.symm)]
      · intro g
        rw [ih4 g]
        by_cases hg1 : i + 1 ≤ g ∧ g < tMaxHeight
        · rw [if_pos hg1, if_pos (by omega)]
        · rw [if_neg hg1]
          by_cases hgi : g = i
          · subst hgi
            rw [if_pos (by omega)]
            by_cases hlen : g < pn.length
            · exact getD_set_self _ _ _ hlen
            · rw [set_oob _ _ _ (by omega)]
              exact getD_oob _ _ (by omega)
          · rw [if_neg (by omega), getD_set_ne _ _ _ _ (fun hc => hgi hc.symm)]
    · rw [resetLoop, if_neg hlt]
      exact ⟨rfl, rfl, fun g => by rw [if_neg (by omega)],
        fun g => by rw [if_neg (by omega)]⟩

/-- `randHeight` always yields a height in `[1, tMaxHeight]`. -/
lemma randHeightGo_bounds (rnd : Nat → Nat) :
    ∀ (fuel idx h : Nat), 1 ≤ h → h ≤ tMaxHeight →
      1 ≤ (randHeightGo rnd fuel idx h).1 ∧
        (randHeightGo rnd fuel idx h).1 ≤ tMaxHeight := by
  intro fuel
  induction fuel with
  | zero => intro idx h h1 h2; exact ⟨h1, h2⟩
  | succ f ih =>
    intro idx h h1 h2
    rw [randHeightGo]
    by_cases hlt : h < tMaxHeight
    · rw [if_pos hlt]
      by_cases hr : rnd idx % 4 = 0
      · rw [if_pos hr]
        exact ih (idx + 1) (h + 1) (by omega) (by omega)
      · rw [if_neg hr]
        exact ⟨h1, h2⟩
    · rw [if_neg hlt]
      exact ⟨h1, h2⟩

/-- `randHeight` bounds on any store. -/
lemma DB.randHeight_bounds (p : DB) :
    1 ≤ p.randHeight.1 ∧ p.randHeight.1 ≤ tMaxHeight :=
  randHeightGo_bounds p.rnd tMaxHeight p.rndIdx 1 (le_refl _) (by simp [tMaxHeight])

/-- `randHeight` changes only the RNG cursor. -/
lemma DB.randHeight_state (p : DB) :
    p.randHeight.2.cmp = p.cmp ∧ p.randHeight.2.kvData = p.kvData ∧
      p.randHeight.2.kvCap = p.kvCap ∧ p.randHeight.2.nodeData = p.nodeData ∧
      p.randHeight.2.prevNode = p.prevNode ∧ p.randHeight.2.maxHeight = p.maxHeight ∧
      p.randHeight.2.n = p.n ∧ p.randHeight.2.kvSize = p.kvSize :=
  ⟨rfl, rfl, rfl, rfl, rfl, rfl, rfl, rfl⟩

/-! ## Facts shared by the `Put` and `Delete` preservation proofs -/

lemma getLastD_mem : ∀ (l : List Nat) (d : Nat), l = [] ∨ l.getLastD d ∈ l
  | [], _ => Or.inl rfl
  | x :: xs, d => by
    right
    rw [List.getLastD_cons]
    rcases getLastD_mem xs x with h | h
    · subst h; simp [List.getLastD_nil]
    · exact List.mem_cons_of_mem _ h

/-- Live nodes are pairwise distinct. -/
lemma RepW.nodup {cmp p M ns} (hc : LawfulCmp cmp) (hr : RepW cmp p M ns) :
    ns.Nodup := by
  have hs := hr.sortN
  refine hs.imp ?_
  intro a b hab hEq
  subst hEq
  exact hc.not_lt_self _ hab

/-- The value `findGE`'s write-mode search leaves in `prevNode[a]`. -/
def pvOf (cmp : Bytes → Bytes → Int) (p : DB) (ns : List Nat) (t : Bytes) (a : Nat) : Nat :=
  (levelNodes p a (ns.takeWhile (belowT cmp p t))).getLastD 0

/-- The first node at level `a` whose key is not below the target. -/
def bvOf (cmp : Bytes → Bytes → Int) (p : DB) (ns : List Nat) (t : Bytes) (a : Nat) : Nat :=
  (levelNodes p a (ns.dropWhile (belowT cmp p t))).headD 0

/-- Splitting the level-`a` chain at the target position. -/
lemma level_split {cmp p M ns} (hr : RepW cmp p M ns) (t : Bytes) (a : Nat)
    (ha : a < tMaxHeight) :
    ChainSeg (nextF p a) (nextF p a 0)
        (levelNodes p a (ns.takeWhile (belowT cmp p t))) (bvOf cmp p ns t a) ∧
      ChainSeg (nextF p a) (bvOf cmp p ns t a)
        (levelNodes p a (ns.dropWhile (belowT cmp p t))) 0 := by
  have hch := hr.hchain a ha
  unfold IsNodeChain at hch
  have hsplit : levelNodes p a ns =
      levelNodes p a (ns.takeWhile (belowT cmp p t)) ++
        levelNodes p a (ns.dropWhile (belowT cmp p t)) := by
    unfold levelNodes
    rw [← List.filter_append, List.takeWhile_append_dropWhile]
  rw [hsplit] at hch
  rcases chainSeg_append.mp hch with ⟨mid, h1, h2⟩
  have hmid : mid = bvOf cmp p ns t a := chainSeg_head h2
  subst hmid
  exact ⟨h1, h2⟩

/-- The pointer out of the `prevNode[a]` node reaches the level-`a` successor. -/
lemma pv_next {cmp p M ns} (hr : RepW cmp p M ns) (t : Bytes) (a : Nat)
    (ha : a < tMaxHeight) :
    nextF p a (pvOf cmp p ns t a) = bvOf cmp p ns t a := by
  obtain ⟨h1, _⟩ := level_split hr t a ha
  unfold pvOf
  cases hfa : levelNodes p a (ns.takeWhile (belowT cmp p t)) with
  | nil =>
    rw [hfa] at h1
    rw [List.getLastD_nil]
    exact h1
  | cons w ws =>
    rw [hfa] at h1
    exact chainSeg_last h1 (by simp)

/-- `pvOf` is the head or a live node tall enough for its level. -/
lemma pv_cases {cmp p M ns} (hr : RepW cmp p M ns) (t : Bytes) (a : Nat) :
    pvOf cmp p ns t a = 0 ∨
      (pvOf cmp p ns t a ∈ ns ∧ a < htOf p (pvOf cmp p ns t a) ∧
        pvOf cmp p ns t a ∈ ns.takeWhile (belowT cmp p t)) := by
  unfold pvOf
  rcases getLastD_mem (levelNodes p a (ns.takeWhile (belowT cmp p t))) 0 with h | h
  · rw [h, List.getLastD_nil]; exact Or.inl rfl
  · right
    have hmem := List.mem_filter.mp h
    refine ⟨(List.takeWhile_sublist _).subset hmem.1, by simpa using hmem.2, hmem.1⟩

/-- Above `maxHeight` every level chain is empty. -/
lemma levelNodes_high {cmp p M ns} (hr : RepW cmp p M ns) (g : Nat)
    (hg : p.maxHeight ≤ g) : ∀ sub : List Nat, sub.Sublist ns →
      levelNodes p g sub = [] := by
  intro sub hsub
  unfold levelNodes
  rw [List.filter_eq_nil]
  intro z hz
  have hok := hr.hvalid z (hsub.subset hz)
  simp only [decide_eq_true_eq]
  have := hok.ht2
  omega

/-- The node-table slot written by the splice/unlink loop at level `a`. -/
lemma pv_slot_bound {cmp p M ns} (hr : RepW cmp p M ns) (t : Bytes) (a : Nat)
    (ha : a < tMaxHeight) :
    pvOf cmp p ns t a + nNext + a < p.nodeData.length := by
  rcases pv_cases hr t a with h | ⟨hmem, hht, _⟩
  · rw [h]
    have := hr.hhead
    simp only [nNext, tMaxHeight] at *
    omega
  · have hok := hr.hvalid _ hmem
    have := hok.inND
    omega

/-- Distinct levels write distinct slots. -/
lemma pv_slot_distinct {cmp p M ns} (hc : LawfulCmp cmp) (hr : RepW cmp p M ns)
    (t : Bytes) (a b : Nat) (ha : a < tMaxHeight) (hb : b < tMaxHeight)
    (hab : a ≠ b) :
    pvOf cmp p ns t a + nNext + a ≠ pvOf cmp p ns t b + nNext + b := by
  have hdisj : ∀ x y, x ∈ ns → y ∈ ns → x ≠ y → NodeDisj p x y := by
    intro x y hx hy hxy
    have hsymm : ∀ {u w : Nat}, NodeDisj p u w → NodeDisj p w u := by
      intro u w hd
      rcases hd with hd | hd
      · exact Or.inr hd
      · exact Or.inl hd
    exact List.Pairwise.forall (fun u w h => hsymm h) hr.hdisj hx hy hxy
  rcases pv_cases hr t a with hA | ⟨hAmem, hAht, _⟩ <;>
    rcases pv_cases hr t b with hB | ⟨hBmem, hBht, _⟩
  · rw [hA, hB]; omega
  · rw [hA]
    have := (hr.hvalid _ hBmem).lb
    simp only [nNext, tMaxHeight] at *
    omega
  · rw [hB]
    have := (hr.hvalid _ hAmem).lb
    simp only [nNext, tMaxHeight] at *
    omega
  · by_cases hxy : pvOf cmp p ns t a = pvOf cmp p ns t b
    · rw [hxy]; omega
    · rcases hdisj _ _ hAmem hBmem hxy with hd | hd
      · omega
      · omega

/-- Field cells (offsets `0..3`) of the head or of any live node are never a
splice slot. -/
lemma pv_slot_field_avoid {cmp p M ns} (hc : LawfulCmp cmp) (hr : RepW cmp p M ns)
    (t : Bytes) (a : Nat) (ha : a < tMaxHeight) :
    (∀ y ∈ ns, ∀ d, d < nNext → y + d ≠ pvOf cmp p ns t a + nNext + a) ∧
      (∀ d, d < nNext → d ≠ pvOf cmp p ns t a + nNext + a) := by
  have hdisj : ∀ x y, x ∈ ns → y ∈ ns → x ≠ y → NodeDisj p x y := by
    intro x y hx hy hxy
    have hsymm : ∀ {u w : Nat}, NodeDisj p u w → NodeDisj p w u := by
      intro u w hd
      rcases hd with hd | hd
      · exact Or.inr hd
      · exact Or.inl hd
    exact List.Pairwise.forall (fun u w h => hsymm h) hr.hdisj hx hy hxy
  constructor
  · intro y hy d hd
    have hylb := (hr.hvalid _ hy).lb
    rcases pv_cases hr t a with hA | ⟨hAmem, hAht, _⟩
    · rw [hA]
      simp only [nNext, tMaxHeight] at *
      omega
    · by_cases hxy : pvOf cmp p ns t a = y
      · rw [hxy]
        simp only [nNext] at *
        omega
      · rcases hdisj _ _ hAmem hy (fun hq => hxy hq) with hdj | hdj <;>
          · have := (hr.hvalid _ hAmem).lb
            simp only [nNext, tMaxHeight] at *
            omega
  · intro d hd
    rcases pv_cases hr t a with hA | ⟨hAmem, _, _⟩
    · rw [hA]
      simp only [nNext] at *
      omega
    · have := (hr.hvalid _ hAmem).lb
      simp only [nNext, tMaxHeight] at *
      omega

/-- A next-pointer cell of a live node coincides with a splice slot only for
the `prevNode` node of that very level. -/
lemma pv_slot_next_avoid {cmp p M ns} (hc : LawfulCmp cmp) (hr : RepW cmp p M ns)
    (t : Bytes) (a : Nat) (ha : a < tMaxHeight) (y : Nat) (hy : y ∈ ns)
    (i : Nat) (hi : i < htOf p y) (hne : y ≠ pvOf cmp p ns t a ∨ i ≠ a) :
    y + nNext + i ≠ pvOf cmp p ns t a + nNext + a := by
  have hdisj : ∀ x w, x ∈ ns → w ∈ ns → x ≠ w → NodeDisj p x w := by
    intro x w hx hw hxw
    have hsymm : ∀ {u v : Nat}, NodeDisj p u v → NodeDisj p v u := by
      intro u v hd
      rcases hd with hd | hd
      · exact Or.inr hd
      · exact Or.inl hd
    exact List.Pairwise.forall (fun u v h => hsymm h) hr.hdisj hx hw hxw
  have hylb := (hr.hvalid _ hy).lb
  rcases pv_cases hr t a with hA | ⟨hAmem, hAht, _⟩
  · rw [hA]
    simp only [nNext, tMaxHeight] at *
    omega
  · by_cases hxy : pvOf cmp p ns t a = y
    · rcases hne with hne | hne
      · exact absurd hxy.symm hne
      · rw [hxy]
        simp only [nNext] at *
        omega
    · rcases hdisj _ _ hAmem hy hxy with hdj | hdj <;>
        · have h1 := (hr.hvalid _ hAmem).inND
          have h2 := (hr.hvalid _ hy).inND
          simp only [nNext] at *
          omega

/-- Top-level correctness of `findGE` on an invariant-satisfying store. -/
lemma findGE_spec {cmp p M ns} (hc : LawfulCmp cmp) (hr : RepW cmp p M ns)
    (t : Bytes) (prev : Bool) :
    (p.findGE t prev).1 = (ns.dropWhile (belowT cmp p t)).headD 0 ∧
      (p.findGE t prev).2.1 = specExact cmp p t (ns.dropWhile (belowT cmp p t)) ∧
      (p.findGE t prev).2.2.length = tMaxHeight ∧
      ∀ g : Nat, (p.findGE t prev).2.2.getD g 0 =
        if prev = true ∧ g < p.maxHeight then pvOf cmp p ns t g
        else p.prevNode.getD g 0 := by
  unfold DB.findGE
  have hroom := hr.hroom
  have hmax1 := hr.hmax1
  have hmax2 := hr.hmax2
  obtain ⟨h1, h2, h3, h4⟩ := findGEAux_spec hc hr t prev
    (p.nodeData.length + tMaxHeight + 1) (p.maxHeight - 1) 0 ns p.prevNode
    (by omega) (by omega) hr.hpn (Or.inl ⟨rfl, rfl⟩)
  refine ⟨h1, h2, h3, ?_⟩
  intro g
  rw [h4 g]
  by_cases hp : prev = true ∧ g ≤ p.maxHeight - 1
  · rw [if_pos hp, if_pos ⟨hp.1, by omega⟩]
    rfl
  · rw [if_neg hp, if_neg (fun hq => hp ⟨hq.1, by omega⟩)]

/-- The search's exactness flag says precisely that some live node carries
the target key. -/
lemma specExact_true_iff {cmp p M ns} (hc : LawfulCmp cmp) (hr : RepW cmp p M ns)
    (t : Bytes) :
    specExact cmp p t (ns.dropWhile (belowT cmp p t)) = true ↔
      ∃ y ∈ ns, keyOf p y = t := by
  constructor
  · intro hex
    cases hB : ns.dropWhile (belowT cmp p t) with
    | nil => rw [hB] at hex; simp [specExact] at hex
    | cons y B2 =>
      rw [hB] at hex
      simp only [specExact, decide_eq_true_eq] at hex
      refine ⟨y, ?_, (hc.eq_iff _ _).mp hex⟩
      exact (List.dropWhile_sublist _).subset (hB ▸ List.mem_cons_self y B2)
  · rintro ⟨y, hyns, hyk⟩
    have hynA : y ∉ ns.takeWhile (belowT cmp p t) := by
      intro hmem
      have hb := List.mem_takeWhile_imp hmem
      simp only [belowT, decide_eq_true_eq, hyk] at hb
      exact hc.not_lt_self t hb
    have hyB : y ∈ ns.dropWhile (belowT cmp p t) := by
      have h2 : y ∈ ns.takeWhile (belowT cmp p t) ++ ns.dropWhile (belowT cmp p t) := by
        rw [List.takeWhile_append_dropWhile]; exact hyns
      rcases List.mem_append.mp h2 with h1 | h1
      · exact absurd h1 hynA
      · exact h1
    cases hB : ns.dropWhile (belowT cmp p t) with
    | nil => rw [hB] at hyB; simp at hyB
    | cons b0 B2 =>
      simp only [specExact, decide_eq_true_eq]
      by_cases hb0 : b0 = y
      · rw [hb0, hyk]
        exact (hc.eq_iff t t).mpr rfl
      · rw [hB] at hyB
        have hyB2 : y ∈ B2 := by
          rcases List.mem_cons.mp hyB with h1 | h1
          · exact absurd h1.symm hb0
          · exact h1
        have hPB := hr.sortN.sublist (List.dropWhile_sublist (belowT cmp p t))
        rw [hB] at hPB
        have hrel : cmp (keyOf p b0) (keyOf p y) < 0 :=
          (List.pairwise_cons.mp hPB).1 y hyB2
        have hfail := List.head?_dropWhile_not (belowT cmp p t) ns
        rw [hB] at hfail
        simp only [List.head?_cons] at hfail
        rw [hyk] at hrel
        exact absurd hrel (by simpa [belowT] using hfail)

/-- Stored key length field matches the key slice length. -/
lemma keyOf_len {p : DB} {y : Nat} (hok : NodeOk p y) :
    (keyOf p y).length = nd p (y + nKey) := by
  have := hok.inKV
  simp only [keyOf, List.length_take, List.length_drop]
  omega

/-- Stored value length field matches the value slice length. -/
lemma valOf_len {p : DB} {y : Nat} (hok : NodeOk p y) :
    (valOf p y).length = nd p (y + nVal) := by
  have := hok.inKV
  simp only [valOf, List.length_take, List.length_drop]
  omega

lemma kvLenSum_append : ∀ (M1 M2 : List (Bytes × Bytes)),
    kvLenSum (M1 ++ M2) = kvLenSum M1 + kvLenSum M2
  | [], M2 => by simp [kvLenSum]
  | e :: t, M2 => by
    simp only [List.cons_append, kvLenSum, List.append_eq]
    rw [kvLenSum_append t M2]
    ring

/-- Inserting over an equal key replaces its entry in place. -/
lemma refInsert_mid {cmp : Bytes → Bytes → Int} (hc : LawfulCmp cmp)
    (k v ka : Bytes) (va : Bytes) :
    ∀ (MA MB : List (Bytes × Bytes)), (∀ a ∈ MA, cmp a.1 k < 0) → cmp k ka = 0 →
      refInsert cmp k v (MA ++ (ka, va) :: MB) = MA ++ (k, v) :: MB
  | [], MB, _, hm => by
    simp only [List.nil_append, refInsert]
    rw [if_neg (by omega), if_pos hm]
  | a :: MA, MB, hA, hm => by
    have ha := hA a (List.mem_cons_self a MA)
    have hgt : 0 < cmp k a.1 := (hc.flip a.1 k).mp ha
    simp only [List.cons_append, refInsert, List.append_eq, Prod.mk.eta]
    rw [if_neg (by omega), if_neg (by omega)]
    rw [refInsert_mid hc k v ka va MA MB
      (fun b hb => hA b (List.mem_cons_of_mem a hb)) hm]

/-- Inserting a fresh key lands between the strictly smaller prefix and the
strictly larger suffix. -/
lemma refInsert_split {cmp : Bytes → Bytes → Int} (hc : LawfulCmp cmp)
    (k v : Bytes) :
    ∀ (MA MB : List (Bytes × Bytes)), (∀ a ∈ MA, cmp a.1 k < 0) →
      (∀ b ∈ MB, cmp k b.1 < 0) →
      refInsert cmp k v (MA ++ MB) = MA ++ (k, v) :: MB
  | [], [], _, _ => by simp [refInsert]
  | [], b :: MB, _, hB => by
    have hb := hB b (List.mem_cons_self b MB)
    simp only [List.nil_append, refInsert]
    rw [if_pos hb]
  | a :: MA, MB, hA, hB => by
    have ha := hA a (List.mem_cons_self a MA)
    have hgt : 0 < cmp k a.1 := (hc.flip a.1 k).mp ha
    simp only [List.cons_append, refInsert, List.append_eq, Prod.mk.eta]
    rw [if_neg (by omega), if_neg (by omega)]
    rw [refInsert_split hc k v MA MB
      (fun b hb => hA b (List.mem_cons_of_mem a hb)) hB]

/-- `Put` on an existing key: the node's kv offset and value length are
rewritten in place; the invariant is preserved with the value replaced in
the model. -/
lemma rep_overwrite {cmp : Bytes → Bytes → Int} {p : DB} {M : List (Bytes × Bytes)}
    {ns : List Nat} (hc : LawfulCmp cmp) (hr : RepW cmp p M ns)
    (k v : Bytes) (y : Nat) (p2 : DB)
    (hy : ns.dropWhile (belowT cmp p k) = y :: (ns.dropWhile (belowT cmp p k)).tail)
    (hky : keyOf p y = k)
    (f_cmp : p2.cmp = cmp) (f_kv : p2.kvData = (p.kvData ++ k) ++ v)
    (f_nd : p2.nodeData = (p.nodeData.set y p.kvData.length).set (y + nVal) v.length)
    (f_pn : p2.prevNode.length = tMaxHeight)
    (f_mh : p2.maxHeight = p.maxHeight) (f_n : p2.n = p.n)
    (f_sz : p2.kvSize = p.kvSize + (v.length : Int) - (nd p (y + nVal) : Int)) :
    RepW cmp p2 (refInsert cmp k v M) ns := by
  have hyns : y ∈ ns := by
    have hm : y ∈ ns.dropWhile (belowT cmp p k) := by
      rw [hy]; exact List.mem_cons_self _ _
    exact (List.dropWhile_sublist _).subset hm
  have hok := hr.hvalid y hyns
  have hyreg : 4 + tMaxHeight ≤ y := hok.lb
  have hyreg' : 16 ≤ y := by simp only [tMaxHeight] at hyreg; omega
  have hndlen2 : p2.nodeData.length = p.nodeData.length := by
    rw [f_nd]; simp
  have hkvlen2 : p2.kvData.length = p.kvData.length + k.length + v.length := by
    rw [f_kv]; simp; omega
  have hdisj : ∀ x w, x ∈ ns → w ∈ ns → x ≠ w → NodeDisj p x w := by
    intro x w hx hw hxw
    have hsymm : ∀ {u z : Nat}, NodeDisj p u z → NodeDisj p z u := by
      intro u z hd
      rcases hd with hd | hd
      · exact Or.inr hd
      · exact Or.inl hd
    exact List.Pairwise.forall (fun u z h => hsymm h) hr.hdisj hx hw hxw
  have hnd_ne : ∀ j, j ≠ y → j ≠ y + nVal → nd p2 j = nd p j := by
    intro j h1 h2
    show p2.nodeData.getD j 0 = p.nodeData.getD j 0
    rw [f_nd, getD_set_ne _ _ _ _ (fun hq => h2 hq.symm),
      getD_set_ne _ _ _ _ (fun hq => h1 hq.symm)]
  have hyinND : y + nNext + htOf p y ≤ p.nodeData.length := hok.inND
  have hyht1 : 1 ≤ htOf p y := hok.ht1
  have hnd_y : nd p2 y = p.kvData.length := by
    show p2.nodeData.getD y 0 = _
    rw [f_nd, getD_set_ne _ _ _ _ (by simp only [nVal]; omega)]
    refine getD_set_self _ _ _ (by simp only [nNext] at hyinND; omega)
  have hnd_yv : nd p2 (y + nVal) = v.length := by
    show p2.nodeData.getD (y + nVal) 0 = _
    rw [f_nd]
    refine getD_set_self _ _ _ ?_
    rw [List.length_set]
    have hin := hyinND
    simp only [nNext] at hin
    simp only [nVal]
    omega
  have hcells : ∀ z ∈ ns, z ≠ y → ∀ d, d < nNext + htOf p z →
      z + d ≠ y ∧ z + d ≠ y + nVal := by
    intro z hz hzy d hd
    rcases hdisj z y hz hyns hzy with hdj | hdj
    · constructor
      · simp only [nNext] at hd hdj
        omega
      · simp only [nNext, nVal] at hd hdj ⊢
        omega
    · constructor
      · simp only [nNext] at hd hdj
        omega
      · simp only [nNext, nVal] at hd hdj ⊢
        omega
  have hnd_field : ∀ z ∈ ns, z ≠ y → ∀ d, d < nNext + htOf p z →
      nd p2 (z + d) = nd p (z + d) := by
    intro z hz hzy d hd
    obtain ⟨h1, h2⟩ := hcells z hz hzy d hd
    exact hnd_ne _ h1 h2
  have hnd_head : ∀ d, d < nNext + tMaxHeight → nd p2 d = nd p d := by
    intro d hd
    simp only [nNext, tMaxHeight] at hd
    refine hnd_ne d (by omega) (by simp only [nVal]; omega)
  have hht_all : ∀ z ∈ ns, htOf p2 z = htOf p z := by
    intro z hz
    by_cases hzy : z = y
    · subst hzy
      show nd p2 (z + nHeight) = nd p (z + nHeight)
      refine hnd_ne _ (by simp only [nHeight]; omega)
        (by simp only [nHeight, nVal]; omega)
    · refine hnd_field z hz hzy nHeight ?_
      have := (hr.hvalid z hz).ht1
      simp only [nNext, nHeight]
      omega
  have hkey_ne : ∀ z ∈ ns, z ≠ y →
      keyOf p2 z = keyOf p z ∧ valOf p2 z = valOf p z := by
    intro z hz hzy
    have hzok := hr.hvalid z hz
    have hzht := hzok.ht1
    have hn0 : nd p2 z = nd p z := by
      have := hnd_field z hz hzy 0 (by simp only [nNext]; omega)
      simpa using this
    have hn1 : nd p2 (z + nKey) = nd p (z + nKey) :=
      hnd_field z hz hzy nKey (by simp only [nNext, nKey]; omega)
    have hn2 : nd p2 (z + nVal) = nd p (z + nVal) :=
      hnd_field z hz hzy nVal (by simp only [nNext, nVal]; omega)
    have hb := hzok.inKV
    constructor
    · show (p2.kvData.drop (nd p2 z)).take (nd p2 (z + nKey)) = _
      rw [hn0, hn1, f_kv, List.append_assoc]
      exact slice_append _ _ _ _ (by omega)
    · show (p2.kvData.drop (nd p2 z + nd p2 (z + nKey))).take (nd p2 (z + nVal)) = _
      rw [hn0, hn1, hn2, f_kv, List.append_assoc]
      exact slice_append _ _ _ _ (by omega)
  have hklen : nd p (y + nKey) = k.length := by
    rw [← keyOf_len hok, hky]
  have hn1y : nd p2 (y + nKey) = nd p (y + nKey) :=
    hnd_ne _ (by simp only [nKey]; omega) (by simp only [nKey, nVal]; omega)
  have hkey_y : keyOf p2 y = k := by
    show (p2.kvData.drop (nd p2 y)).take (nd p2 (y + nKey)) = k
    rw [hnd_y, hn1y, hklen, f_kv, List.append_assoc, slice_at_end]
    exact List.take_left k v
  have hval_y : valOf p2 y = v := by
    show (p2.kvData.drop (nd p2 y + nd p2 (y + nKey))).take (nd p2 (y + nVal)) = v
    rw [hnd_y, hn1y, hklen, hnd_yv, f_kv, List.append_assoc]
    rw [← List.length_append p.kvData k, ← List.append_assoc, slice_at_end]
    exact List.take_length v
  have hnext_all : ∀ z ∈ ns, ∀ a, a < htOf p z → nextF p2 a z = nextF p a z := by
    intro z hz a ha
    show nd p2 (z + nNext + a) = nd p (z + nNext + a)
    rw [show z + nNext + a = z + (nNext + a) by omega]
    by_cases hzy : z = y
    · subst hzy
      refine hnd_ne _ (by simp only [nNext]; omega)
        (by simp only [nNext, nVal]; omega)
    · exact hnd_field z hz hzy (nNext + a) (by omega)
  have hnext_head : ∀ a, a < tMaxHeight → nextF p2 a 0 = nextF p a 0 := by
    intro a ha
    show nd p2 (0 + nNext + a) = nd p (0 + nNext + a)
    rw [show 0 + nNext + a = nNext + a by omega]
    refine hnd_head _ (by simp only [nNext, tMaxHeight] at *; omega)
  have hnsAB : ns = ns.takeWhile (belowT cmp p k) ++
      y :: (ns.dropWhile (belowT cmp p k)).tail := by
    rw [← hy, List.takeWhile_append_dropWhile]
  have hnodup := RepW.nodup hc hr
  have hyA : y ∉ ns.takeWhile (belowT cmp p k) := by
    intro hmem
    have hb := List.mem_takeWhile_imp hmem
    simp only [belowT, decide_eq_true_eq, hky] at hb
    exact hc.not_lt_self k hb
  have hmodelA : ∀ z ∈ ns.takeWhile (belowT cmp p k), z ≠ y := by
    intro z hz hzy
    subst hzy
    exact hyA hz
  have hsubA : (ns.takeWhile (belowT cmp p k)).Sublist ns := List.takeWhile_sublist _
  have hsubB2 : ((ns.dropWhile (belowT cmp p k)).tail).Sublist ns :=
    (List.tail_sublist _).trans (List.dropWhile_sublist _)
  have hmodelB : ∀ z ∈ (ns.dropWhile (belowT cmp p k)).tail, z ≠ y := by
    intro z hz hzy
    subst hzy
    have hndAB : ns.Nodup := hnodup
    rw [hnsAB] at hndAB
    have := (List.pairwise_append.mp hndAB).2.1
    rw [List.pairwise_cons] at this
    exact (this.1 z hz) rfl
  have hmodel2 : refInsert cmp k v M =
      (ns.takeWhile (belowT cmp p k)).map (fun x => (keyOf p x, valOf p x)) ++
        (k, v) :: ((ns.dropWhile (belowT cmp p k)).tail).map
          (fun x => (keyOf p x, valOf p x)) := by
    rw [hr.hmodel]
    conv_lhs => rw [hnsAB]
    rw [List.map_append, List.map_cons]
    rw [refInsert_mid hc k v (keyOf p y) (valOf p y) _ _ ?_ ?_]
    · intro a ha
      rcases List.mem_map.mp ha with ⟨z, hz, hza⟩
      have hb := List.mem_takeWhile_imp hz
      simp only [belowT, decide_eq_true_eq] at hb
      rw [← hza]
      exact hb
    · rw [hky]
      exact (hc.eq_iff k k).mpr rfl
  refine ⟨f_cmp, f_pn, ?_, ?_, ?_, ?_, ?_, ?_, ?_, ?_, ?_, ?_, ?_, ?_⟩
  · rw [hndlen2]; exact hr.hhead
  · show nd p2 nHeight = tMaxHeight
    rw [hnd_head nHeight (by simp only [nHeight, nNext, tMaxHeight]; omega)]
    exact hr.hheadH
  · rw [f_mh]; exact hr.hmax1
  · rw [f_mh]; exact hr.hmax2
  · -- model
    rw [hmodel2]
    conv_rhs => rw [hnsAB, List.map_append, List.map_cons]
    congr 1
    · exact List.map_congr_left (fun z hz => by
        rw [(hkey_ne z (hsubA.subset hz) (hmodelA z hz)).1,
          (hkey_ne z (hsubA.subset hz) (hmodelA z hz)).2])
    · congr 1
      · rw [hkey_y, hval_y]
      · exact List.map_congr_left (fun z hz => by
          rw [(hkey_ne z (hsubB2.subset hz) (hmodelB z hz)).1,
            (hkey_ne z (hsubB2.subset hz) (hmodelB z hz)).2])
  · -- sortedness
    rw [hmodel2]
    have hsold := hr.hsort
    rw [hr.hmodel] at hsold
    conv at hsold => rw [hnsAB]
    rw [List.map_append, List.map_cons] at hsold
    rw [List.pairwise_append] at hsold ⊢
    obtain ⟨hsA, hsYB, hcross⟩ := hsold
    rw [List.pairwise_cons] at hsYB ⊢
    refine ⟨hsA, ⟨?_, hsYB.2⟩, ?_⟩
    · intro b hb
      have := hsYB.1 b hb
      rwa [hky] at this
    · intro a ha b hb
      rcases List.mem_cons.mp hb with hb1 | hb1
      · subst hb1
        have h2 := hcross a ha (keyOf p y, valOf p y) (List.mem_cons_self _ _)
        simpa [hky] using h2
      · exact hcross a ha b (List.mem_cons_of_mem _ hb1)
  · -- validity
    intro z hz
    have hzok := hr.hvalid z hz
    refine ⟨hzok.lb, ?_, ?_, ?_, ?_⟩
    · rw [hht_all z hz]; exact hzok.ht1
    · rw [hht_all z hz, f_mh]; exact hzok.ht2
    · rw [hht_all z hz, hndlen2]; exact hzok.inND
    · by_cases hzy : z = y
      · subst hzy
        rw [hnd_y, hn1y, hklen, hnd_yv, hkvlen2]
      · have hzht := hzok.ht1
        have e0 : nd p2 z = nd p z := by
          have := hnd_field z hz hzy 0 (by simp only [nNext]; omega)
          simpa using this
        have e1 : nd p2 (z + nKey) = nd p (z + nKey) :=
          hnd_field z hz hzy nKey (by simp only [nNext, nKey]; omega)
        have e2 : nd p2 (z + nVal) = nd p (z + nVal) :=
          hnd_field z hz hzy nVal (by simp only [nNext, nVal]; omega)
        rw [e0, e1, e2, hkvlen2]
        have := hzok.inKV
        omega
  · -- disjointness: heights unchanged
    refine hr.hdisj.imp_of_mem ?_
    intro a b ha hb hab
    unfold NodeDisj at *
    rw [hht_all a ha, hht_all b hb]
    exact hab
  · -- chains
    intro a ha
    have hch := hr.hchain a ha
    unfold IsNodeChain at *
    have hfilter : levelNodes p2 a ns = levelNodes p a ns := by
      unfold levelNodes
      exact List.filter_congr (fun z hz => by rw [hht_all z hz])
    rw [hfilter, hnext_head a ha]
    refine chainSeg_congr ?_ hch
    intro z hz
    have hzmem := List.mem_filter.mp hz
    have hzh : a < htOf p z := by simpa using hzmem.2
    exact hnext_all z hzmem.1 a hzh
  · rw [f_n, hr.hcount]
  · -- size
    rw [f_sz, hr.hsize, hmodel2, hr.hmodel]
    conv_lhs => rw [hnsAB]
    rw [List.map_append, List.map_cons]
    rw [kvLenSum_append, kvLenSum_append]
    simp only [kvLenSum]
    rw [← valOf_len hok, hky]
    ring
  · rw [hndlen2]; exact hr.hroom

lemma nodup_dropLast_ne_getLastD :
    ∀ (l : List Nat) (d : Nat), l.Nodup → ∀ w ∈ l.dropLast, w ≠ l.getLastD d
  | [], _, _, w, hw => by simp at hw
  | [x], _, _, w, hw => by simp at hw
  | x :: y :: ys, d, hnd, w, hw => by
    rw [List.dropLast_cons₂] at hw
    rw [List.getLastD_cons]
    rcases List.mem_cons.mp hw with hw1 | hw1
    · subst hw1
      intro hq
      have hmem : (y :: ys).getLastD w ∈ y :: ys := by
        rcases getLastD_mem (y :: ys) w with hh | hh
        · simp at hh
        · exact hh
      rw [← hq] at hmem
      exact (List.nodup_cons.mp hnd).1 hmem
    · exact nodup_dropLast_ne_getLastD (y :: ys) d (List.nodup_cons.mp hnd).2 w hw1

lemma levelNodes_append (p : DB) (i : Nat) (u w : List Nat) :
    levelNodes p i (u ++ w) = levelNodes p i u ++ levelNodes p i w :=
  List.filter_append _ _

lemma levelNodes_cons (p : DB) (i : Nat) (x : Nat) (w : List Nat) :
    levelNodes p i (x :: w) =
      if i < htOf p x then x :: levelNodes p i w else levelNodes p i w := by
  unfold levelNodes
  rw [List.filter_cons]
  by_cases hx : i < htOf p x
  · rw [if_pos (by simpa using hx), if_pos hx]
  · rw [if_neg (by simpa using hx), if_neg hx]

/-- `Put` on a fresh key: a new node is spliced in at every level below its
drawn height; the invariant is preserved with the pair inserted into the
model. -/
lemma rep_insert {cmp : Bytes → Bytes → Int} {p : DB} {M : List (Bytes × Bytes)}
    {ns : List Nat} (hc : LawfulCmp cmp) (hr : RepW cmp p M ns)
    (k v : Bytes) (h : Nat) (pn2 : List Nat) (p2 : DB)
    (hex : specExact cmp p k (ns.dropWhile (belowT cmp p k)) = false)
    (hh1 : 1 ≤ h) (hh2 : h ≤ tMaxHeight)
    (f_pnv : ∀ a, a < h → pn2.getD a 0 = pvOf cmp p ns k a)
    (f_cmp : p2.cmp = cmp)
    (f_kv : p2.kvData = (p.kvData ++ k) ++ v)
    (f_nd : p2.nodeData =
      spliceLoop (p.nodeData ++ [p.kvData.length, k.length, v.length, h]) pn2
        p.nodeData.length 0 h)
    (f_pn : p2.prevNode.length = tMaxHeight)
    (f_mh : p2.maxHeight = if p.maxHeight < h then h else p.maxHeight)
    (f_n : p2.n = p.n + 1)
    (f_sz : p2.kvSize = p.kvSize + ((k.length + v.length : Nat) : Int)) :
    RepW cmp p2 (refInsert cmp k v M)
      (ns.takeWhile (belowT cmp p k) ++
        p.nodeData.length :: ns.dropWhile (belowT cmp p k)) := by
  set A := ns.takeWhile (belowT cmp p k) with hA
  set B := ns.dropWhile (belowT cmp p k) with hB
  set z := p.nodeData.length with hz
  set ndBase := p.nodeData ++ [p.kvData.length, k.length, v.length, h] with hbase
  have hnsAB : ns = A ++ B := (List.takeWhile_append_dropWhile _ _).symm
  have hbaseLen : ndBase.length = z + 4 := by rw [hbase]; simp
  have hz16 : 16 ≤ z := by
    have := hr.hhead
    simp only [tMaxHeight] at this
    omega
  have hslot_lt : ∀ a, a < h → pn2.getD a 0 + nNext + a < ndBase.length := by
    intro a ha
    rw [f_pnv a ha, hbaseLen]
    have := pv_slot_bound hr k a (by omega)
    omega
  have hslot_ne : ∀ a b, 0 ≤ a → a < h → 0 ≤ b → b < h → a ≠ b →
      pn2.getD a 0 + nNext + a ≠ pn2.getD b 0 + nNext + b := by
    intro a b _ ha _ hb hab
    rw [f_pnv a ha, f_pnv b hb]
    exact pv_slot_distinct hc hr k a b (by omega) (by omega) hab
  obtain ⟨SL1, SL2, SL3, SL4⟩ := spliceLoop_spec h 0 h ndBase pn2 z
    (by omega) (by omega) (fun a _ ha => hslot_lt a ha)
    (fun a b h1 h2 h3 h4 h5 => hslot_ne a b h1 h2 h3 h4 h5)
  have hnd_len : p2.nodeData.length = z + 4 + h := by
    rw [f_nd, SL1, hbaseLen]
    omega
  have hnd_slot : ∀ a, a < h → nd p2 (pvOf cmp p ns k a + nNext + a) = z := by
    intro a ha
    show p2.nodeData.getD _ 0 = z
    rw [f_nd, ← f_pnv a ha]
    exact SL2 a (by omega) ha
  have hnd_znext : ∀ a, a < h → nd p2 (z + nNext + a) = bvOf cmp p ns k a := by
    intro a ha
    show p2.nodeData.getD _ 0 = _
    rw [f_nd]
    have hidx : z + nNext + a = ndBase.length + (a - 0) := by
      rw [hbaseLen]
      simp only [nNext]
      omega
    rw [hidx, SL3 a (by omega) ha]
    rw [f_pnv a ha]
    have hlt := pv_slot_bound hr k a (by omega)
    rw [hbase, getD_append_left _ _ _ hlt]
    exact pv_next hr k a (by omega)
  have hnd_old : ∀ j, j < z → (∀ a, a < h → j ≠ pvOf cmp p ns k a + nNext + a) →
      nd p2 j = nd p j := by
    intro j hj hja
    show p2.nodeData.getD j 0 = p.nodeData.getD j 0
    rw [f_nd, SL4 j (fun a _ ha => by rw [f_pnv a ha]; exact hja a ha)
      (by rw [hbaseLen]; omega)]
    rw [hbase, getD_append_left _ _ _ hj]
  have hnd_zfield : nd p2 z = p.kvData.length ∧ nd p2 (z + nKey) = k.length ∧
      nd p2 (z + nVal) = v.length ∧ nd p2 (z + nHeight) = h := by
    have hgen : ∀ d, d < 4 →
        nd p2 (z + d) = [p.kvData.length, k.length, v.length, h].getD d 0 := by
      intro d hd
      show p2.nodeData.getD _ 0 = _
      rw [f_nd, SL4 (z + d) (fun a _ ha => by
          rw [f_pnv a ha]
          have := pv_slot_bound hr k a (by omega)
          omega)
        (by rw [hbaseLen]; omega)]
      rw [hbase, getD_append_right _ _ _ (by omega)]
      congr 1
      omega
    refine ⟨by simpa using hgen 0 (by omega), by simpa [nKey] using hgen 1 (by omega),
      by simpa [nVal] using hgen 2 (by omega), by simpa [nHeight] using hgen 3 (by omega)⟩
  have hyltL : ∀ y ∈ ns, y + nNext + htOf p y ≤ z := fun y hy => (hr.hvalid y hy).inND
  have hnd_field_old : ∀ y ∈ ns, ∀ d, d < nNext → nd p2 (y + d) = nd p (y + d) := by
    intro y hy d hd
    refine hnd_old _ ?_ ?_
    · have e1 := hyltL y hy
      simp only [nNext] at e1 hd ⊢
      omega
    · intro a ha
      exact (pv_slot_field_avoid hc hr k a (by omega)).1 y hy d hd
  have hnd_head_field : ∀ d, d < nNext → nd p2 d = nd p d := by
    intro d hd
    refine hnd_old d ?_ ?_
    · simp only [nNext] at hd
      omega
    · intro a ha
      exact (pv_slot_field_avoid hc hr k a (by omega)).2 d hd
  have hht_old : ∀ y ∈ ns, htOf p2 y = htOf p y := by
    intro y hy
    exact hnd_field_old y hy nHeight (by simp [nHeight, nNext])
  have hht_z : htOf p2 z = h := hnd_zfield.2.2.2
  have hnext_old : ∀ y ∈ ns, ∀ i, i < htOf p y →
      (i < h → y ≠ pvOf cmp p ns k i) → nextF p2 i y = nextF p i y := by
    intro y hy i hi hyc
    show nd p2 (y + nNext + i) = nd p (y + nNext + i)
    refine hnd_old _ (by have := hyltL y hy; omega) ?_
    intro a ha
    refine pv_slot_next_avoid hc hr k a (by omega) y hy i hi ?_
    by_cases hai : i = a
    · subst hai
      exact Or.inl (hyc ha)
    · exact Or.inr hai
  have hpv16 : ∀ a, pvOf cmp p ns k a = 0 ∨ 16 ≤ pvOf cmp p ns k a := by
    intro a
    rcases pv_cases hr k a with h1 | ⟨h1, _, _⟩
    · exact Or.inl h1
    · right
      have := (hr.hvalid _ h1).lb
      simp only [tMaxHeight] at this
      omega
  have hnext_head_keep : ∀ i, i < tMaxHeight → (i < h → pvOf cmp p ns k i ≠ 0) →
      nextF p2 i 0 = nextF p i 0 := by
    intro i hi hic
    show nd p2 (0 + nNext + i) = nd p (0 + nNext + i)
    refine hnd_old _ (by simp only [nNext, tMaxHeight] at *; omega) ?_
    intro a ha
    rcases hpv16 a with h0 | h16
    · rw [h0]
      by_cases hia : i = a
      · subst hia
        exact absurd h0 (hic ha)
      · simp only [nNext]
        omega
    · simp only [nNext, tMaxHeight] at *
      omega
  have hnext_head_z : ∀ i, i < h → pvOf cmp p ns k i = 0 → nextF p2 i 0 = z := by
    intro i hi h0
    have := hnd_slot i hi
    rw [h0] at this
    show nd p2 (0 + nNext + i) = z
    rw [show 0 + nNext + i = 0 + nNext + i from rfl]
    simpa using this
  have hkv_old : ∀ y ∈ ns, keyOf p2 y = keyOf p y ∧ valOf p2 y = valOf p y := by
    intro y hy
    have hok := hr.hvalid y hy
    have e0 : nd p2 y = nd p y := by
      simpa using hnd_field_old y hy 0 (by simp [nNext])
    have e1 := hnd_field_old y hy nKey (by simp [nKey, nNext])
    have e2 := hnd_field_old y hy nVal (by simp [nVal, nNext])
    have hb := hok.inKV
    constructor
    · show (p2.kvData.drop (nd p2 y)).take (nd p2 (y + nKey)) = _
      rw [e0, e1, f_kv, List.append_assoc]
      exact slice_append _ _ _ _ (by omega)
    · show (p2.kvData.drop (nd p2 y + nd p2 (y + nKey))).take (nd p2 (y + nVal)) = _
      rw [e0, e1, e2, f_kv, List.append_assoc]
      exact slice_append _ _ _ _ (by omega)
  have hkey_z : keyOf p2 z = k := by
    show (p2.kvData.drop (nd p2 z)).take (nd p2 (z + nKey)) = k
    rw [hnd_zfield.1, hnd_zfield.2.1, f_kv, List.append_assoc, slice_at_end]
    exact List.take_left k v
  have hval_z : valOf p2 z = v := by
    show (p2.kvData.drop (nd p2 z + nd p2 (z + nKey))).take (nd p2 (z + nVal)) = v
    rw [hnd_zfield.1, hnd_zfield.2.1, hnd_zfield.2.2.1, f_kv, List.append_assoc]
    rw [← List.length_append p.kvData k, ← List.append_assoc, slice_at_end]
    exact List.take_length v
  have hz_notin : z ∉ ns := by
    intro hmem
    have hb := hyltL z hmem
    simp only [nNext] at hb
    have := (hr.hvalid z hmem).ht1
    omega
  have hAlt : ∀ a ∈ A, cmp (keyOf p a) k < 0 := by
    intro a ha
    have hb := List.mem_takeWhile_imp ha
    simpa [belowT] using hb
  have hBgt : ∀ b ∈ B, cmp k (keyOf p b) < 0 := by
    intro b hb
    cases hBr : B with
    | nil => rw [hBr] at hb; simp at hb
    | cons b0 B2 =>
      have hb0fail : ¬ cmp (keyOf p b0) k < 0 := by
        have hf := List.head?_dropWhile_not (belowT cmp p k) ns
        rw [← hB, hBr] at hf
        simp only [List.head?_cons] at hf
        simpa [belowT] using hf
      have hb0ne : ¬ cmp (keyOf p b0) k = 0 := by
        rw [hBr] at hex
        simpa [specExact] using hex
      have hb0gt : cmp k (keyOf p b0) < 0 := by
        refine (hc.flip _ _).mpr ?_
        omega
      rw [hBr] at hb
      rcases List.mem_cons.mp hb with hb1 | hb1
      · rw [hb1]
        exact hb0gt
      · have hPB := hr.sortN.sublist (List.dropWhile_sublist (belowT cmp p k))
        rw [← hB, hBr] at hPB
        have hrel := (List.pairwise_cons.mp hPB).1 b hb1
        exact hc.lt_trans _ _ _ hb0gt hrel
  have hsubA : A.Sublist ns := List.takeWhile_sublist _
  have hsubB : B.Sublist ns := List.dropWhile_sublist _
  have hnodup := RepW.nodup hc hr
  have hB_ne_pv : ∀ w ∈ B, ∀ i, w ≠ pvOf cmp p ns k i := by
    intro w hw i hq
    rcases pv_cases hr k i with h0 | ⟨hmem, _, hmemA⟩
    · have hwlb := (hr.hvalid w (hsubB.subset hw)).lb
      rw [hq, h0] at hwlb
      simp only [tMaxHeight] at hwlb
      omega
    · have hnd2 := hnodup
      rw [hnsAB] at hnd2
      have hforall := (List.pairwise_append.mp hnd2).2.2
      rw [← hA] at hmemA
      exact (hforall _ hmemA w hw) hq.symm
  have hchain2 : ∀ i, i < tMaxHeight →
      IsNodeChain (nextF p2 i) (nextF p2 i 0) (levelNodes p2 i (A ++ z :: B)) := by
    intro i hi
    have hsplitA : levelNodes p2 i A = levelNodes p i A :=
      List.filter_congr (fun y hy => by rw [hht_old y (hsubA.subset hy)])
    have hsplitB : levelNodes p2 i B = levelNodes p i B :=
      List.filter_congr (fun y hy => by rw [hht_old y (hsubB.subset hy)])
    obtain ⟨seg1, seg2⟩ := level_split hr k i hi
    have hseg2' : ChainSeg (nextF p2 i) (bvOf cmp p ns k i) (levelNodes p i B) 0 := by
      refine chainSeg_congr ?_ seg2
      intro w hw
      have hm := List.mem_filter.mp hw
      exact hnext_old w (hsubB.subset hm.1) i (by simpa using hm.2)
        (fun _ => hB_ne_pv w hm.1 i)
    have hnodup_lA : (levelNodes p i A).Nodup :=
      ((List.filter_sublist _).trans hsubA).nodup hnodup
    by_cases hih : i < h
    · have hlist : levelNodes p2 i (A ++ z :: B) =
          levelNodes p i A ++ z :: levelNodes p i B := by
        rw [levelNodes_append, levelNodes_cons, if_pos (by rw [hht_z]; omega),
          hsplitA, hsplitB]
      rw [hlist]
      unfold IsNodeChain
      refine chainSeg_append.mpr ⟨z, ?_, ?_⟩
      · cases hlA : levelNodes p i A with
        | nil =>
          have h0 : pvOf cmp p ns k i = 0 := by
            unfold pvOf
            rw [← hA, hlA, List.getLastD_nil]
          rw [chainSeg_nil]
          exact hnext_head_z i hih h0
        | cons w ws =>
          have hlAne : levelNodes p i A ≠ [] := by rw [hlA]; simp
          have hpvmem : pvOf cmp p ns k i ∈ levelNodes p i A := by
            unfold pvOf
            rw [← hA]
            rcases getLastD_mem (levelNodes p i A) 0 with hq | hq
            · exact absurd hq hlAne
            · exact hq
          have h0 : pvOf cmp p ns k i ≠ 0 := by
            have hmem := List.mem_filter.mp hpvmem
            have := (hr.hvalid _ (hsubA.subset hmem.1)).lb
            simp only [tMaxHeight] at this
            omega
          have hstart : nextF p2 i 0 = nextF p i 0 :=
            hnext_head_keep i hi (fun _ => h0)
          rw [hstart, ← hlA]
          refine chainSeg_redirect seg1 hlAne ?_ ?_
          · intro w' hw'
            have hw'lA : w' ∈ levelNodes p i A :=
              (List.dropLast_sublist _).subset hw'
            have hm := List.mem_filter.mp hw'lA
            refine hnext_old w' (hsubA.subset hm.1) i (by simpa using hm.2) ?_
            intro _
            have hne := nodup_dropLast_ne_getLastD _ 0 hnodup_lA w' hw'
            unfold pvOf
            rw [← hA]
            exact hne
          · show nextF p2 i ((levelNodes p i A).getLastD 0) = z
            have : (levelNodes p i A).getLastD 0 = pvOf cmp p ns k i := by
              unfold pvOf
              rw [← hA]
            rw [this]
            exact hnd_slot i hih
      · refine ⟨rfl, ?_⟩
        rw [show nextF p2 i z = bvOf cmp p ns k i from hnd_znext i hih]
        exact hseg2'
    · have hlist : levelNodes p2 i (A ++ z :: B) = levelNodes p i ns := by
        rw [levelNodes_append, levelNodes_cons, if_neg (by rw [hht_z]; omega),
          hsplitA, hsplitB, hnsAB, levelNodes_append]
      rw [hlist]
      have hstart := hnext_head_keep i hi (fun hih2 => absurd hih2 hih)
      rw [hstart]
      refine chainSeg_congr ?_ (hr.hchain i hi)
      intro w hw
      have hm := List.mem_filter.mp hw
      exact hnext_old w hm.1 i (by simpa using hm.2) (fun hih2 => absurd hih2 hih)
  have hmodel2 : refInsert cmp k v M =
      A.map (fun x => (keyOf p x, valOf p x)) ++
        (k, v) :: B.map (fun x => (keyOf p x, valOf p x)) := by
    rw [hr.hmodel]
    conv_lhs => rw [hnsAB]
    rw [List.map_append]
    refine refInsert_split hc k v _ _ ?_ ?_
    · intro a ha
      rcases List.mem_map.mp ha with ⟨x, hx, hxa⟩
      rw [← hxa]
      exact hAlt x hx
    · intro b hbm
      rcases List.mem_map.mp hbm with ⟨x, hx, hxa⟩
      rw [← hxa]
      exact hBgt x hx
  refine ⟨f_cmp, f_pn, ?_, ?_, ?_, ?_, ?_, ?_, ?_, ?_, ?_, ?_, ?_, ?_⟩
  · rw [hnd_len]
    simp only [tMaxHeight]
    omega
  · show nd p2 nHeight = tMaxHeight
    rw [hnd_head_field nHeight (by simp [nHeight, nNext])]
    exact hr.hheadH
  · rw [f_mh]
    have := hr.hmax1
    split <;> omega
  · rw [f_mh]
    have := hr.hmax2
    split <;> omega
  · -- model
    rw [hmodel2, List.map_append, List.map_cons]
    congr 1
    · exact (List.map_congr_left (fun x hx => by
        rw [(hkv_old x (hsubA.subset hx)).1, (hkv_old x (hsubA.subset hx)).2])).symm
    · congr 1
      · rw [hkey_z, hval_z]
      · exact (List.map_congr_left (fun x hx => by
          rw [(hkv_old x (hsubB.subset hx)).1, (hkv_old x (hsubB.subset hx)).2])).symm
  · -- sortedness
    rw [hmodel2]
    rw [List.pairwise_append]
    have hsold := hr.hsort
    rw [hr.hmodel] at hsold
    conv at hsold => rw [hnsAB]
    rw [List.map_append, List.pairwise_append] at hsold
    obtain ⟨hsA, hsB, hcross⟩ := hsold
    refine ⟨hsA, ?_, ?_⟩
    · rw [List.pairwise_cons]
      refine ⟨?_, hsB⟩
      intro b hbm
      rcases List.mem_map.mp hbm with ⟨x, hx, hxa⟩
      rw [← hxa]
      exact hBgt x hx
    · intro a ham b hbm
      rcases List.mem_map.mp ham with ⟨x, hx, hxa⟩
      rcases List.mem_cons.mp hbm with hb1 | hb1
      · rw [hb1, ← hxa]
        exact hAlt x hx
      · exact hcross a ham b hb1
  · -- validity
    intro x hx
    rcases List.mem_append.mp hx with hxA | hxzB
    · have hxns := hsubA.subset hxA
      have hok := hr.hvalid x hxns
      refine ⟨hok.lb, ?_, ?_, ?_, ?_⟩
      · rw [hht_old x hxns]; exact hok.ht1
      · rw [hht_old x hxns, f_mh]
        have := hok.ht2
        split <;> omega
      · rw [hht_old x hxns, hnd_len]
        have := hok.inND
        omega
      · have e0 : nd p2 x = nd p x := by
          simpa using hnd_field_old x hxns 0 (by simp [nNext])
        have e1 := hnd_field_old x hxns nKey (by simp [nKey, nNext])
        have e2 := hnd_field_old x hxns nVal (by simp [nVal, nNext])
        rw [e0, e1, e2, f_kv]
        have := hok.inKV
        simp only [List.length_append]
        omega
    · rcases List.mem_cons.mp hxzB with hxz | hxB
      · subst hxz
        refine ⟨by simp only [tMaxHeight]; omega, ?_, ?_, ?_, ?_⟩
        · rw [hht_z]; omega
        · rw [hht_z, f_mh]
          split <;> omega
        · rw [hht_z, hnd_len]
          simp only [nNext]
          omega
        · rw [hnd_zfield.1, hnd_zfield.2.1, hnd_zfield.2.2.1, f_kv]
          simp only [List.length_append]
          omega
      · have hxns := hsubB.subset hxB
        have hok := hr.hvalid x hxns
        refine ⟨hok.lb, ?_, ?_, ?_, ?_⟩
        · rw [hht_old x hxns]; exact hok.ht1
        · rw [hht_old x hxns, f_mh]
          have := hok.ht2
          split <;> omega
        · rw [hht_old x hxns, hnd_len]
          have := hok.inND
          omega
        · have e0 : nd p2 x = nd p x := by
            simpa using hnd_field_old x hxns 0 (by simp [nNext])
          have e1 := hnd_field_old x hxns nKey (by simp [nKey, nNext])
          have e2 := hnd_field_old x hxns nVal (by simp [nVal, nNext])
          rw [e0, e1, e2, f_kv]
          have := hok.inKV
          simp only [List.length_append]
          omega
  · -- disjointness
    have hold : List.Pairwise (NodeDisj p2) ns := by
      refine hr.hdisj.imp_of_mem ?_
      intro a b ha hb hab
      unfold NodeDisj at *
      rw [hht_old a ha, hht_old b hb]
      exact hab
    rw [hnsAB] at hold
    rw [List.pairwise_append] at hold
    obtain ⟨holdA, holdB, holdX⟩ := hold
    rw [List.pairwise_append]
    refine ⟨holdA, ?_, ?_⟩
    · rw [List.pairwise_cons]
      refine ⟨?_, holdB⟩
      intro b hbm
      right
      have := hyltL b (hsubB.subset hbm)
      rw [hht_old b (hsubB.subset hbm)]
      omega
    · intro a haA b hbm
      rcases List.mem_cons.mp hbm with hb1 | hb1
      · left
        rw [hb1]
        have := hyltL a (hsubA.subset haA)
        rw [hht_old a (hsubA.subset haA)]
        omega
      · exact holdX a haA b hb1
  · exact hchain2
  · rw [f_n, hr.hcount, hnsAB]
    simp only [List.length_append, List.length_cons]
    omega
  · -- size
    rw [f_sz, hr.hsize, hmodel2, hr.hmodel]
    conv_lhs => rw [hnsAB]
    rw [List.map_append, kvLenSum_append, kvLenSum_append]
    simp only [kvLenSum]
    push_cast
    ring
  · -- room
    rw [hnd_len]
    have := hr.hroom
    rw [hnsAB] at this
    simp only [List.length_append, List.length_cons] at *
    omega

/-- `Put` preserves the representation invariant, updating the model by
insert-or-overwrite. -/
lemma put_rep {cmp : Bytes → Bytes → Int} {p : DB} {M : List (Bytes × Bytes)}
    {ns : List Nat} (hc : LawfulCmp cmp) (hr : RepW cmp p M ns) (k v : Bytes) :
    ∃ ns2, RepW cmp (p.Put k v) (refInsert cmp k v M) ns2 := by
  obtain ⟨h1, h2, h3, h4⟩ := findGE_spec hc hr k true
  by_cases hex : specExact cmp p k (ns.dropWhile (belowT cmp p k)) = true
  · cases hB : ns.dropWhile (belowT cmp p k) with
    | nil => rw [hB] at hex; simp [specExact] at hex
    | cons y B2 =>
      have hky : keyOf p y = k := by
        rw [hB] at hex
        simp only [specExact, decide_eq_true_eq] at hex
        exact (hc.eq_iff _ _).mp hex
      have hnode : (p.findGE k true).1 = y := by
        rw [h1, hB, List.headD_cons]
      have hPut : p.Put k v =
          { p with
            prevNode := (p.findGE k true).2.2,
            kvData := (p.kvData ++ k) ++ v,
            kvCap := growCap p.kvCap ((p.kvData ++ k) ++ v).length,
            nodeData := (p.nodeData.set y p.kvData.length).set (y + nVal) v.length,
            kvSize := p.kvSize + (v.length : Int) -
              (((p.nodeData.set y p.kvData.length).getD (y + nVal) 0 : Nat) : Int) } := by
        simp only [DB.Put]
        rw [h2, hex, hnode]
        simp
      refine ⟨ns, ?_⟩
      rw [hPut]
      refine rep_overwrite hc hr k v y _ ?_ hky hr.hcmp rfl rfl ?_ rfl rfl ?_
      · rw [hB]
        rfl
      · exact h3
      · show p.kvSize + (v.length : Int) - _ = p.kvSize + (v.length : Int) - _
        congr 2
        rw [getD_set_ne _ _ _ _ (by simp only [nVal]; omega)]
        rfl
  · have hexF : specExact cmp p k (ns.dropWhile (belowT cmp p k)) = false :=
      Bool.not_eq_true _ ▸ (Bool.eq_false_iff.mpr (fun hq => hex hq))
    set p1 : DB := { p with prevNode := (p.findGE k true).2.2 } with hp1
    set h := p1.randHeight.1 with hh
    set pn2 := zeroRange (p.findGE k true).2.2 p.maxHeight h with hpn2
    have hhb := p1.randHeight_bounds
    have hPut : p.Put k v =
        { p with
          rndIdx := p1.randHeight.2.rndIdx,
          prevNode := pn2,
          maxHeight := if p.maxHeight < h then h else p.maxHeight,
          kvData := (p.kvData ++ k) ++ v,
          kvCap := growCap p.kvCap ((p.kvData ++ k) ++ v).length,
          nodeData := spliceLoop (p.nodeData ++ [p.kvData.length, k.length, v.length, h])
            pn2 p.nodeData.length 0 h,
          kvSize := p.kvSize + ((k.length + v.length : Nat) : Int),
          n := p.n + 1 } := by
      simp only [DB.Put]
      rw [h2, hexF]
      simp
      and_intros <;> rfl
    rw [hPut]
    have hpn2len : pn2.length = tMaxHeight := by
      rw [hpn2, (zeroRange_spec h p.maxHeight _).1]
      exact h3
    have hpnv : ∀ a, a < h → pn2.getD a 0 = pvOf cmp p ns k a := by
      intro a ha
      rw [hpn2, (zeroRange_spec h p.maxHeight _).2 a]
      by_cases hma : p.maxHeight ≤ a
      · rw [if_pos ⟨hma, ha⟩]
        unfold pvOf
        rw [levelNodes_high hr a hma _ (List.takeWhile_sublist _), List.getLastD_nil]
      · rw [if_neg (fun hq => hma hq.1)]
        rw [h4 a, if_pos ⟨rfl, by omega⟩]
    exact ⟨_, rep_insert hc hr k v h pn2 _ hexF hhb.1 hhb.2 hpnv hr.hcmp rfl rfl hpn2len
      rfl rfl rfl⟩

/-- Deleting a key that sits right after the strictly smaller prefix removes
exactly that entry. -/
lemma refDelete_mid {cmp : Bytes → Bytes → Int} (hc : LawfulCmp cmp)
    (k ka va : Bytes) :
    ∀ (MA MB : List (Bytes × Bytes)), (∀ a ∈ MA, cmp a.1 k < 0) → cmp k ka = 0 →
      refDelete cmp k (MA ++ (ka, va) :: MB) = MA ++ MB
  | [], MB, _, hm => by
    simp only [List.nil_append, refDelete]
    rw [if_pos hm]
  | a :: MA, MB, hA, hm => by
    have ha := hA a (List.mem_cons_self a MA)
    have hgt : 0 < cmp k a.1 := (hc.flip a.1 k).mp ha
    simp only [List.cons_append, refDelete, List.append_eq, Prod.mk.eta]
    rw [if_neg (by omega)]
    rw [refDelete_mid hc k ka va MA MB
      (fun b hb => hA b (List.mem_cons_of_mem a hb)) hm]

/-- `Delete` on a present key: the node is unlinked at every level below its
height; the invariant is preserved with the pair removed from the model. -/
lemma rep_delete {cmp : Bytes → Bytes → Int} {p : DB} {M : List (Bytes × Bytes)}
    {ns : List Nat} (hc : LawfulCmp cmp) (hr : RepW cmp p M ns)
    (k : Bytes) (y : Nat) (pn2 : List Nat) (p2 : DB)
    (hy : ns.dropWhile (belowT cmp p k) = y :: (ns.dropWhile (belowT cmp p k)).tail)
    (hky : keyOf p y = k)
    (f_pnv : ∀ a, a < htOf p y → pn2.getD a 0 = pvOf cmp p ns k a)
    (f_cmp : p2.cmp = cmp)
    (f_kv : p2.kvData = p.kvData)
    (f_nd : p2.nodeData = deleteLoop p.nodeData pn2 0 (htOf p y))
    (f_pn : p2.prevNode.length = tMaxHeight)
    (f_mh : p2.maxHeight = p.maxHeight)
    (f_n : p2.n = p.n - 1)
    (f_sz : p2.kvSize =
      p.kvSize - ((nd p2 (y + nKey) + nd p2 (y + nVal) : Nat) : Int)) :
    RepW cmp p2 (refDelete cmp k M)
      (ns.takeWhile (belowT cmp p k) ++ (ns.dropWhile (belowT cmp p k)).tail) := by
  obtain ⟨B2, hy2⟩ : ∃ B2, ns.dropWhile (belowT cmp p k) = y :: B2 := ⟨_, hy⟩
  have hTail : (ns.dropWhile (belowT cmp p k)).tail = B2 := by
    rw [hy2]
    rfl
  rw [hTail]
  set A := ns.takeWhile (belowT cmp p k) with hA
  have hnsAB : ns = A ++ y :: B2 := by
    rw [← hy2, hA, List.takeWhile_append_dropWhile]
  have hsubA : A.Sublist ns := List.takeWhile_sublist _
  have hsubYB : (y :: B2).Sublist ns := by
    rw [← hy2]
    exact List.dropWhile_sublist _
  have hsubB2 : B2.Sublist ns := (List.sublist_cons_self y B2).trans hsubYB
  have hyns : y ∈ ns := hsubYB.subset (List.mem_cons_self y B2)
  have hok := hr.hvalid y hyns
  have htT : htOf p y ≤ tMaxHeight := le_trans hok.ht2 hr.hmax2
  have hnodup := RepW.nodup hc hr
  have hAlt : ∀ a ∈ A, cmp (keyOf p a) k < 0 := by
    intro a ha
    have hb := List.mem_takeWhile_imp ha
    simpa [belowT] using hb
  have hB_ne_pv : ∀ w ∈ y :: B2, ∀ i, w ≠ pvOf cmp p ns k i := by
    intro w hw i hq
    rcases pv_cases hr k i with h0 | ⟨hmem, _, hmemA⟩
    · have hwlb := (hr.hvalid w (hsubYB.subset hw)).lb
      rw [hq, h0] at hwlb
      simp only [tMaxHeight] at hwlb
      omega
    · have hnd2 := hnodup
      rw [hnsAB] at hnd2
      have hforall := (List.pairwise_append.mp hnd2).2.2
      rw [← hA] at hmemA
      exact (hforall _ hmemA w hw) hq.symm
  have hbv : ∀ a, a < htOf p y → bvOf cmp p ns k a = y := by
    intro a ha
    unfold bvOf
    rw [hy2, levelNodes_cons, if_pos ha, List.headD_cons]
  have hpv_pt : ∀ a, a < htOf p y →
      nd p (pvOf cmp p ns k a + nNext + a) = y := by
    intro a ha
    have h1 := pv_next hr k a (by omega)
    have h2 : nextF p a (pvOf cmp p ns k a) = nd p (pvOf cmp p ns k a + nNext + a) := rfl
    rw [h2] at h1
    rw [h1, hbv a ha]
  obtain ⟨DL1, DL2, DL3⟩ := deleteLoop_spec (htOf p y) 0 (htOf p y) p.nodeData pn2
    (by omega)
    (fun a _ ha => by
      rw [f_pnv a ha]
      exact pv_slot_bound hr k a (by omega))
    (fun a b _ ha _ hb hab => by
      rw [f_pnv a ha, f_pnv b hb]
      exact pv_slot_distinct hc hr k a b (by omega) (by omega) hab)
    (fun a b _ ha _ hb => by
      rw [f_pnv a ha, f_pnv b hb]
      show nd p (pvOf cmp p ns k a + nNext + a) + nNext + a ≠ _
      rw [hpv_pt a ha]
      exact pv_slot_next_avoid hc hr k b (by omega) y hyns a ha
        (Or.inl (hB_ne_pv y (List.mem_cons_self y B2) b)))
  have hnd_len : p2.nodeData.length = p.nodeData.length := by
    rw [f_nd, DL1]
  have hnd_slot : ∀ a, a < htOf p y →
      nd p2 (pvOf cmp p ns k a + nNext + a) = nextF p a y := by
    intro a ha
    show p2.nodeData.getD _ 0 = _
    rw [f_nd, ← f_pnv a ha, DL2 a (Nat.zero_le _) ha, f_pnv a ha]
    show nd p (nd p (pvOf cmp p ns k a + nNext + a) + nNext + a) = _
    rw [hpv_pt a ha]
    rfl
  have hnd_old : ∀ j, (∀ a, a < htOf p y → j ≠ pvOf cmp p ns k a + nNext + a) →
      nd p2 j = nd p j := by
    intro j hj
    show p2.nodeData.getD j 0 = p.nodeData.getD j 0
    rw [f_nd, DL3 j (fun a _ ha => by rw [f_pnv a ha]; exact hj a ha)]
  have hyltL : ∀ w ∈ ns, w + nNext + htOf p w ≤ p.nodeData.length :=
    fun w hw => (hr.hvalid w hw).inND
  have hnd_field_old : ∀ w ∈ ns, ∀ d, d < nNext → nd p2 (w + d) = nd p (w + d) := by
    intro w hw d hd
    refine hnd_old _ ?_
    intro a ha
    exact (pv_slot_field_avoid hc hr k a (by omega)).1 w hw d hd
  have hnd_head_field : ∀ d, d < nNext → nd p2 d = nd p d := by
    intro d hd
    refine hnd_old d ?_
    intro a ha
    exact (pv_slot_field_avoid hc hr k a (by omega)).2 d hd
  have hht_old : ∀ w ∈ ns, htOf p2 w = htOf p w := by
    intro w hw
    exact hnd_field_old w hw nHeight (by simp [nHeight, nNext])
  have hnext_old : ∀ w ∈ ns, ∀ i, i < htOf p w →
      (i < htOf p y → w ≠ pvOf cmp p ns k i) → nextF p2 i w = nextF p i w := by
    intro w hw i hi hyc
    show nd p2 (w + nNext + i) = nd p (w + nNext + i)
    refine hnd_old _ ?_
    intro a ha
    refine pv_slot_next_avoid hc hr k a (by omega) w hw i hi ?_
    by_cases hai : i = a
    · subst hai
      exact Or.inl (hyc ha)
    · exact Or.inr hai
  have hpv16 : ∀ a, pvOf cmp p ns k a = 0 ∨ 16 ≤ pvOf cmp p ns k a := by
    intro a
    rcases pv_cases hr k a with h1 | ⟨h1, _, _⟩
    · exact Or.inl h1
    · right
      have := (hr.hvalid _ h1).lb
      simp only [tMaxHeight] at this
      omega
  have hnext_head_keep : ∀ i, i < tMaxHeight →
      (i < htOf p y → pvOf cmp p ns k i ≠ 0) → nextF p2 i 0 = nextF p i 0 := by
    intro i hi hic
    show nd p2 (0 + nNext + i) = nd p (0 + nNext + i)
    refine hnd_old _ ?_
    intro a ha
    rcases hpv16 a with h0 | h16
    · rw [h0]
      by_cases hia : i = a
      · subst hia
        exact absurd h0 (hic ha)
      · simp only [nNext]
        omega
    · simp only [nNext, tMaxHeight] at *
      omega
  have hnext_head_y : ∀ i, i < htOf p y → pvOf cmp p ns k i = 0 →
      nextF p2 i 0 = nextF p i y := by
    intro i hi h0
    have hs := hnd_slot i hi
    rw [h0] at hs
    show nd p2 (0 + nNext + i) = nextF p i y
    simpa using hs
  have hkv_old : ∀ w ∈ ns, keyOf p2 w = keyOf p w ∧ valOf p2 w = valOf p w := by
    intro w hw
    have e0 : nd p2 w = nd p w := by
      simpa using hnd_field_old w hw 0 (by simp [nNext])
    have e1 := hnd_field_old w hw nKey (by simp [nKey, nNext])
    have e2 := hnd_field_old w hw nVal (by simp [nVal, nNext])
    constructor
    · show (p2.kvData.drop (nd p2 w)).take (nd p2 (w + nKey)) = _
      rw [e0, e1, f_kv]
      rfl
    · show (p2.kvData.drop (nd p2 w + nd p2 (w + nKey))).take (nd p2 (w + nVal)) = _
      rw [e0, e1, e2, f_kv]
      rfl
  have hmodel2 : refDelete cmp k M =
      A.map (fun x => (keyOf p x, valOf p x)) ++
        B2.map (fun x => (keyOf p x, valOf p x)) := by
    rw [hr.hmodel]
    conv_lhs => rw [hnsAB]
    rw [List.map_append, List.map_cons]
    refine refDelete_mid hc k (keyOf p y) (valOf p y) _ _ ?_ ?_
    · intro a ha
      rcases List.mem_map.mp ha with ⟨x, hx, hxa⟩
      rw [← hxa]
      exact hAlt x hx
    · rw [hky]
      exact (hc.eq_iff k k).mpr rfl
  have hchain2 : ∀ i, i < tMaxHeight →
      IsNodeChain (nextF p2 i) (nextF p2 i 0) (levelNodes p2 i (A ++ B2)) := by
    intro i hi
    have hsplitA : levelNodes p2 i A = levelNodes p i A :=
      List.filter_congr (fun w hw => by rw [hht_old w (hsubA.subset hw)])
    have hsplitB2 : levelNodes p2 i B2 = levelNodes p i B2 :=
      List.filter_congr (fun w hw => by rw [hht_old w (hsubB2.subset hw)])
    obtain ⟨seg1, seg2⟩ := level_split hr k i hi
    rw [levelNodes_append, hsplitA, hsplitB2]
    have hnodup_lA : (levelNodes p i A).Nodup :=
      ((List.filter_sublist _).trans hsubA).nodup hnodup
    by_cases hih : i < htOf p y
    · have hbvy : bvOf cmp p ns k i = y := hbv i hih
      have seg2t : ChainSeg (nextF p i) (nextF p i y) (levelNodes p i B2) 0 := by
        rw [hy2, levelNodes_cons, if_pos hih] at seg2
        rw [hbvy] at seg2
        exact seg2.2
      have hseg2n : ChainSeg (nextF p2 i) (nextF p i y) (levelNodes p i B2) 0 := by
        refine chainSeg_congr ?_ seg2t
        intro w hw
        have hm := List.mem_filter.mp hw
        exact hnext_old w (hsubB2.subset hm.1) i (by simpa using hm.2)
          (fun _ => hB_ne_pv w (List.mem_cons_of_mem y hm.1) i)
      unfold IsNodeChain
      refine chainSeg_append.mpr ⟨nextF p i y, ?_, hseg2n⟩
      cases hlA : levelNodes p i A with
      | nil =>
        have h0 : pvOf cmp p ns k i = 0 := by
          unfold pvOf
          rw [← hA, hlA, List.getLastD_nil]
        rw [chainSeg_nil]
        exact hnext_head_y i hih h0
      | cons w ws =>
        have hlAne : levelNodes p i A ≠ [] := by rw [hlA]; simp
        have hpvmem : pvOf cmp p ns k i ∈ levelNodes p i A := by
          unfold pvOf
          rw [← hA]
          rcases getLastD_mem (levelNodes p i A) 0 with hq | hq
          · exact absurd hq hlAne
          · exact hq
        have h0 : pvOf cmp p ns k i ≠ 0 := by
          have hmem := List.mem_filter.mp hpvmem
          have := (hr.hvalid _ (hsubA.subset hmem.1)).lb
          simp only [tMaxHeight] at this
          omega
        have hstart : nextF p2 i 0 = nextF p i 0 :=
          hnext_head_keep i hi (fun _ => h0)
        rw [hstart, ← hlA]
        rw [hbvy] at seg1
        refine chainSeg_redirect seg1 hlAne ?_ ?_
        · intro w' hw'
          have hw'lA : w' ∈ levelNodes p i A :=
            (List.dropLast_sublist _).subset hw'
          have hm := List.mem_filter.mp hw'lA
          refine hnext_old w' (hsubA.subset hm.1) i (by simpa using hm.2) ?_
          intro _
          have hne := nodup_dropLast_ne_getLastD _ 0 hnodup_lA w' hw'
          unfold pvOf
          rw [← hA]
          exact hne
        · show nextF p2 i ((levelNodes p i A).getLastD 0) = nextF p i y
          have hgl : (levelNodes p i A).getLastD 0 = pvOf cmp p ns k i := by
            unfold pvOf
            rw [← hA]
          rw [hgl]
          exact hnd_slot i hih
    · have hlist : levelNodes p i A ++ levelNodes p i B2 = levelNodes p i ns := by
        conv_rhs => rw [hnsAB]
        rw [levelNodes_append, levelNodes_cons, if_neg hih]
      rw [hlist]
      have hstart := hnext_head_keep i hi (fun hih2 => absurd hih2 hih)
      rw [hstart]
      refine chainSeg_congr ?_ (hr.hchain i hi)
      intro w hw
      have hm := List.mem_filter.mp hw
      exact hnext_old w hm.1 i (by simpa using hm.2) (fun hih2 => absurd hih2 hih)
  refine ⟨f_cmp, f_pn, ?_, ?_, ?_, ?_, ?_, ?_, ?_, ?_, hchain2, ?_, ?_, ?_⟩
  · rw [hnd_len]
    exact hr.hhead
  · show nd p2 nHeight = tMaxHeight
    rw [hnd_head_field nHeight (by simp [nHeight, nNext])]
    exact hr.hheadH
  · rw [f_mh]
    exact hr.hmax1
  · rw [f_mh]
    exact hr.hmax2
  · rw [hmodel2, List.map_append]
    congr 1
    · exact (List.map_congr_left (fun x hx => by
        rw [(hkv_old x (hsubA.subset hx)).1, (hkv_old x (hsubA.subset hx)).2])).symm
    · exact (List.map_congr_left (fun x hx => by
        rw [(hkv_old x (hsubB2.subset hx)).1, (hkv_old x (hsubB2.subset hx)).2])).symm
  · rw [hmodel2]
    have hold := hr.hsort
    rw [hr.hmodel] at hold
    conv at hold => rw [hnsAB]
    rw [List.map_append, List.map_cons] at hold
    exact hold.sublist ((List.sublist_cons_self _ _).append_left _)
  · intro x hx
    have hxns : x ∈ ns := by
      rcases List.mem_append.mp hx with h1 | h1
      · exact hsubA.subset h1
      · exact hsubB2.subset h1
    have hok2 := hr.hvalid x hxns
    refine ⟨hok2.lb, ?_, ?_, ?_, ?_⟩
    · rw [hht_old x hxns]
      exact hok2.ht1
    · rw [hht_old x hxns, f_mh]
      exact hok2.ht2
    · rw [hht_old x hxns, hnd_len]
      exact hok2.inND
    · have e0 : nd p2 x = nd p x := by
        simpa using hnd_field_old x hxns 0 (by simp [nNext])
      have e1 := hnd_field_old x hxns nKey (by simp [nKey, nNext])
      have e2 := hnd_field_old x hxns nVal (by simp [nVal, nNext])
      rw [e0, e1, e2, f_kv]
      exact hok2.inKV
  · refine (hr.hdisj.sublist ((List.sublist_cons_self y B2).append_left A |>.trans
      (by rw [hnsAB]))).imp_of_mem ?_
    intro a b ha hb hab
    have hans : a ∈ ns := by
      rcases List.mem_append.mp ha with h1 | h1
      · exact hsubA.subset h1
      · exact hsubB2.subset h1
    have hbns : b ∈ ns := by
      rcases List.mem_append.mp hb with h1 | h1
      · exact hsubA.subset h1
      · exact hsubB2.subset h1
    unfold NodeDisj at *
    rw [hht_old a hans, hht_old b hbns]
    exact hab
  · rw [f_n, hr.hcount, hnsAB]
    simp only [List.length_append, List.length_cons]
    omega
  · have e1 := hnd_field_old y hyns nKey (by simp [nKey, nNext])
    have e2 := hnd_field_old y hyns nVal (by simp [nVal, nNext])
    rw [e1, e2] at f_sz
    have hkl : nd p (y + nKey) = k.length := by
      rw [← keyOf_len hok, hky]
    have hvl : nd p (y + nVal) = (valOf p y).length := (valOf_len hok).symm
    rw [f_sz, hr.hsize, hmodel2, hr.hmodel]
    conv_lhs => rw [hnsAB]
    rw [List.map_append, List.map_cons, kvLenSum_append, kvLenSum_append]
    simp only [kvLenSum]
    rw [hkl, hvl, hky]
    push_cast
    ring
  · rw [hnd_len]
    have := hr.hroom
    rw [hnsAB] at this
    simp only [List.length_append, List.length_cons] at *
    omega

/-- Deleting a key that no entry matches leaves the model unchanged. -/
lemma refDelete_id {cmp : Bytes → Bytes → Int} (k : Bytes) :
    ∀ (M : List (Bytes × Bytes)), (∀ e ∈ M, ¬ cmp k e.1 = 0) →
      refDelete cmp k M = M
  | [], _ => rfl
  | (a, b) :: t, h => by
    simp only [refDelete]
    rw [if_neg (h (a, b) (List.mem_cons_self _ _))]
    rw [refDelete_id k t (fun e he => h e (List.mem_cons_of_mem _ he))]

/-- Membership in the reference map coincides with a live node carrying the
key. -/
lemma refMem_model {cmp : Bytes → Bytes → Int} {p : DB} {M : List (Bytes × Bytes)}
    {ns : List Nat} (hc : LawfulCmp cmp) (hr : RepW cmp p M ns) (k : Bytes) :
    refMem cmp k M = true ↔ ∃ y ∈ ns, keyOf p y = k := by
  unfold refMem
  rw [hr.hmodel, List.any_eq_true]
  constructor
  · rintro ⟨e, he, hde⟩
    rcases List.mem_map.mp he with ⟨x, hx, hxe⟩
    rw [← hxe] at hde
    simp only [decide_eq_true_eq] at hde
    exact ⟨x, hx, ((hc.eq_iff _ _).mp hde).symm⟩
  · rintro ⟨x, hx, hkx⟩
    refine ⟨(keyOf p x, valOf p x), List.mem_map_of_mem _ hx, ?_⟩
    simp only [decide_eq_true_eq]
    exact (hc.eq_iff _ _).mpr hkx.symm

/-- `Delete` preserves the representation invariant, updating the model by
removal, and reports presence exactly as the reference map does. -/
lemma delete_rep {cmp : Bytes → Bytes → Int} {p : DB} {M : List (Bytes × Bytes)}
    {ns : List Nat} (hc : LawfulCmp cmp) (hr : RepW cmp p M ns) (k : Bytes) :
    (p.Delete k).2 = refMem cmp k M ∧
      ∃ ns2, RepW cmp (p.Delete k).1 (refDelete cmp k M) ns2 := by
  obtain ⟨h1, h2, h3, h4⟩ := findGE_spec hc hr k true
  by_cases hex : specExact cmp p k (ns.dropWhile (belowT cmp p k)) = true
  · cases hB : ns.dropWhile (belowT cmp p k) with
    | nil => rw [hB] at hex; simp [specExact] at hex
    | cons y B2 =>
      have hky : keyOf p y = k := by
        rw [hB] at hex
        simp only [specExact, decide_eq_true_eq] at hex
        exact (hc.eq_iff _ _).mp hex
      have hyns : y ∈ ns := (List.dropWhile_sublist _).subset
        (by rw [hB]; exact List.mem_cons_self _ _)
      have hnode : (p.findGE k true).1 = y := by
        rw [h1, hB, List.headD_cons]
      have hok := hr.hvalid y hyns
      have hDel : p.Delete k =
          ({ p with
             prevNode := (p.findGE k true).2.2,
             nodeData := deleteLoop p.nodeData (p.findGE k true).2.2 0 (htOf p y),
             kvSize := p.kvSize -
               (((deleteLoop p.nodeData (p.findGE k true).2.2 0 (htOf p y)).getD
                   (y + nKey) 0 +
                 (deleteLoop p.nodeData (p.findGE k true).2.2 0 (htOf p y)).getD
                   (y + nVal) 0 : Nat) : Int),
             n := p.n - 1 }, true) := by
        simp only [DB.Delete]
        rw [h2, hex, hnode]
        simp
        and_intros <;> first
          | exact rfl
          | simp only [nd, htOf, List.getD_eq_getElem?_getD]
      constructor
      · rw [hDel]
        show true = refMem cmp k M
        exact ((refMem_model hc hr k).mpr ⟨y, hyns, hky⟩).symm
      · rw [hDel]
        refine ⟨_, rep_delete hc hr k y _ _ ?_ hky ?_ hr.hcmp rfl rfl h3 rfl rfl rfl⟩
        · rw [hB]
          rfl
        · intro a ha
          rw [h4 a, if_pos ⟨rfl, by have := hok.ht2; omega⟩]
  · have hexF : specExact cmp p k (ns.dropWhile (belowT cmp p k)) = false :=
      Bool.not_eq_true _ ▸ (Bool.eq_false_iff.mpr (fun hq => hex hq))
    have hDel : p.Delete k = ({ p with prevNode := (p.findGE k true).2.2 }, false) := by
      simp only [DB.Delete]
      rw [h2, hexF]
      simp
    have hnomem : ¬ ∃ y ∈ ns, keyOf p y = k := by
      intro hq
      rw [← specExact_true_iff hc hr k] at hq
      exact hex hq
    constructor
    · rw [hDel]
      show false = refMem cmp k M
      cases hrm : refMem cmp k M with
      | false => rfl
      | true => exact absurd ((refMem_model hc hr k).mp hrm) hnomem
    · have hid : refDelete cmp k M = M := by
        refine refDelete_id k M ?_
        intro e he hde
        rw [hr.hmodel] at he
        rcases List.mem_map.mp he with ⟨x, hx, hxe⟩
        refine hnomem ⟨x, hx, ?_⟩
        rw [← hxe] at hde
        exact ((hc.eq_iff _ _).mp hde).symm
      rw [hDel, hid]
      refine ⟨ns, hr.hcmp, h3, hr.hhead, hr.hheadH, hr.hmax1, hr.hmax2, ?_, hr.hsort,
        ?_, ?_, ?_, hr.hcount, hr.hsize, hr.hroom⟩
      · exact hr.hmodel
      · intro x hx
        have hv := hr.hvalid x hx
        exact ⟨hv.lb, hv.ht1, hv.ht2, hv.inND, hv.inKV⟩
      · exact hr.hdisj
      · exact hr.hchain

/-- `Reset` restores the empty-store invariant. -/
lemma reset_rep {cmp : Bytes → Bytes → Int} {p : DB} {M : List (Bytes × Bytes)}
    {ns : List Nat} (hr : RepW cmp p M ns) : RepW cmp p.Reset [] [] := by
  have h16 := hr.hhead
  set nd1 := ((((p.nodeData.take (nNext + tMaxHeight)).set nKV 0).set nKey 0).set
    nVal 0).set nHeight tMaxHeight with hnd1
  have hlen1 : nd1.length = nNext + tMaxHeight := by
    rw [hnd1]
    simp only [List.length_set, List.length_take]
    simp only [nNext, tMaxHeight] at h16 ⊢
    omega
  obtain ⟨RL1, RL2, RL3, RL4⟩ := resetLoop_spec tMaxHeight 0 nd1 p.prevNode (by omega)
  have hRes : p.Reset = { p with
      rndIdx := 0, maxHeight := 1, n := 0, kvSize := 0, kvData := [],
      nodeData := (resetLoop nd1 p.prevNode 0).1,
      prevNode := (resetLoop nd1 p.prevNode 0).2 } := by
    simp only [DB.Reset]
  rw [hRes]
  refine ⟨hr.hcmp, ?_, ?_, ?_, le_refl 1, ?_, rfl, List.Pairwise.nil, ?_,
    List.Pairwise.nil, ?_, rfl, rfl, ?_⟩
  · show (resetLoop nd1 p.prevNode 0).2.length = tMaxHeight
    rw [RL2, hr.hpn]
  · show 4 + tMaxHeight ≤ (resetLoop nd1 p.prevNode 0).1.length
    rw [RL1, hlen1]
    simp only [nNext, tMaxHeight]
    omega
  · show (resetLoop nd1 p.prevNode 0).1.getD nHeight 0 = tMaxHeight
    rw [RL3 nHeight, if_neg (by simp only [nNext, nHeight, tMaxHeight]; omega)]
    rw [hnd1]
    refine getD_set_self _ _ _ ?_
    simp only [List.length_set, List.length_take]
    simp only [nNext, tMaxHeight, nHeight] at h16 ⊢
    omega
  · show (1 : Nat) ≤ tMaxHeight
    simp only [tMaxHeight]
    omega
  · intro x hx
    simp at hx
  · intro h hh
    show ChainSeg _ _ ([].filter _) 0
    simp only [List.filter_nil]
    show (resetLoop nd1 p.prevNode 0).1.getD (0 + nNext + h) 0 = 0
    rw [RL3, if_pos (by simp only [nNext, tMaxHeight] at hh ⊢; omega)]
  · show 0 + 4 + tMaxHeight ≤ (resetLoop nd1 p.prevNode 0).1.length
    rw [RL1, hlen1]
    simp only [nNext, tMaxHeight]
    omega

/-- One `Op` preserves the invariant, with the model updated by `refApply`. -/
lemma apply_rep {cmp : Bytes → Bytes → Int} {p : DB} {M : List (Bytes × Bytes)}
    {ns : List Nat} (hc : LawfulCmp cmp) (hr : RepW cmp p M ns) (op : Op) :
    ∃ ns2, RepW cmp (dbApply p op) (refApply cmp M op) ns2 := by
  cases op with
  | put k v => exact put_rep hc hr k v
  | del k => exact (delete_rep hc hr k).2

/-- Replaying any operation sequence preserves the invariant, with the model
obtained by replaying on the reference map. -/
lemma replay_rep {cmp : Bytes → Bytes → Int} (hc : LawfulCmp cmp) :
    ∀ (ops : List Op) {p : DB} {M : List (Bytes × Bytes)} {ns : List Nat},
      RepW cmp p M ns →
      ∃ ns2, RepW cmp (dbReplay p ops) (ops.foldl (refApply cmp) M) ns2
  | [], _, _, ns, hr => ⟨ns, hr⟩
  | op :: ops, p, M, ns, hr => by
    obtain ⟨ns2, hr2⟩ := apply_rep hc hr op
    exact replay_rep hc ops hr2

/-- One `OpR` (including `Reset`) preserves the invariant for some model. -/
lemma applyR_rep {cmp : Bytes → Bytes → Int} {p : DB} {M : List (Bytes × Bytes)}
    {ns : List Nat} (hc : LawfulCmp cmp) (hr : RepW cmp p M ns) (op : OpR) :
    ∃ M2 ns2, RepW cmp (dbApplyR p op) M2 ns2 := by
  cases op with
  | put k v =>
    obtain ⟨ns2, h⟩ := put_rep hc hr k v
    exact ⟨_, ns2, h⟩
  | del k =>
    obtain ⟨ns2, h⟩ := (delete_rep hc hr k).2
    exact ⟨_, ns2, h⟩
  | reset => exact ⟨[], [], reset_rep hr⟩

/-- Replaying any `OpR` sequence preserves the invariant for some model. -/
lemma replayR_rep {cmp : Bytes → Bytes → Int} (hc : LawfulCmp cmp) :
    ∀ (ops : List OpR) {p : DB} {M : List (Bytes × Bytes)} {ns : List Nat},
      RepW cmp p M ns →
      ∃ M2 ns2, RepW cmp (dbReplayR p ops) M2 ns2
  | [], _, M, ns, hr => ⟨M, ns, hr⟩
  | op :: ops, p, M, ns, hr => by
    obtain ⟨M2, ns2, hr2⟩ := applyR_rep hc hr op
    exact replayR_rep hc ops hr2

/-- `fill` on an iterator with nil range: no bail checks apply. -/
lemma fill_none (p : DB) (s : Nat) (k0 v0 : Bytes) (fw : Bool) :
    dbIter.fill
        { p := p, slice := none, node := s, forward := fw, key := k0, value := v0,
          released := false, iterErr := false } false true =
    (if s ≠ 0 then
      ({ p := p, slice := none, node := s, forward := fw, key := keyOf p s,
         value := valOf p s, released := false, iterErr := false }, true)
    else
      ({ p := p, slice := none, node := s, forward := fw, key := [], value := [],
         released := false, iterErr := false }, false)) := by
  by_cases h : s = 0
  · subst h
    rw [dbIter.fill]
    simp
  · simp [dbIter.fill, h, keyOf, valOf]

/-- `First` on a nil-range iterator jumps to the head's level-0 successor. -/
lemma first_none (p : DB) :
    (p.NewIterator none).First =
      dbIter.fill
        { p := p, slice := none, node := nd p nNext, forward := true, key := [],
          value := [], released := false, iterErr := false } false true := by
  rw [DB.NewIterator, dbIter.First]
  simp

/-- `Next` on a valid nil-range position follows the level-0 pointer. -/
lemma next_none (p : DB) (s : Nat) (k0 v0 : Bytes) (hs : s ≠ 0) :
    dbIter.Next
        { p := p, slice := none, node := s, forward := true, key := k0, value := v0,
          released := false, iterErr := false } =
    dbIter.fill
        { p := p, slice := none, node := nd p (s + nNext), forward := true,
          key := k0, value := v0, released := false, iterErr := false } false true := by
  rw [dbIter.Next]
  simp [hs]

/-- Following the level-0 chain with repeated `Next` collects exactly the
chain's key/value pairs. -/
lemma iterCollect_chain {cmp : Bytes → Bytes → Int} {p : DB}
    {M : List (Bytes × Bytes)} {ns : List Nat} (hr : RepW cmp p M ns) :
    ∀ (l : List Nat) (s fuel : Nat) (k0 v0 : Bytes),
      ChainSeg (nextF p 0) s l 0 → l.Sublist ns → l.length < fuel →
      iterCollect fuel
        (dbIter.fill
          { p := p, slice := none, node := s, forward := true, key := k0,
            value := v0, released := false, iterErr := false } false true) =
        l.map (fun x => (keyOf p x, valOf p x)) := by
  intro l
  induction l with
  | nil =>
    intro s fuel k0 v0 hcs _ _
    rw [chainSeg_nil] at hcs
    subst hcs
    rw [fill_none, if_neg (by simp)]
    cases fuel with
    | zero => rfl
    | succ f =>
      rw [iterCollect, if_neg (by simp)]
      rfl
  | cons x xs ih =>
    intro s fuel k0 v0 hcs hsub hf
    obtain ⟨hs, htail⟩ := hcs
    subst hs
    have hxns : s ∈ ns := hsub.subset (List.mem_cons_self s xs)
    have hx0 : s ≠ 0 := by
      have := (hr.hvalid s hxns).lb
      simp only [tMaxHeight] at this
      omega
    rw [fill_none, if_pos hx0]
    cases fuel with
    | zero => simp at hf
    | succ f =>
      rw [iterCollect, if_pos rfl]
      simp only [List.map_cons]
      congr 1
      rw [next_none p s _ _ hx0]
      exact ih (nd p (s + nNext)) f (keyOf p s) (valOf p s) htail
        ((List.sublist_cons_self s xs).trans hsub) (by simp at hf ⊢; omega)

/-- A full forward iteration (nil range: `First` then repeated `Next`) lists
exactly the model, in order. -/
lemma fullForward_spec {cmp : Bytes → Bytes → Int} {p : DB}
    {M : List (Bytes × Bytes)} {ns : List Nat} (hr : RepW cmp p M ns) :
    fullForward p = M := by
  have hl0 : levelNodes p 0 ns = ns := by
    unfold levelNodes
    refine List.filter_eq_self.mpr ?_
    intro x hx
    have := (hr.hvalid x hx).ht1
    simpa using this
  have hch := hr.hchain 0 (by simp only [tMaxHeight]; omega)
  unfold IsNodeChain at hch
  rw [hl0] at hch
  unfold fullForward
  rw [first_none, hr.hmodel]
  exact iterCollect_chain hr ns (nd p nNext) p.nodeData.length [] [] hch
    (List.Sublist.refl ns)
    (by have := hr.hroom; simp only [tMaxHeight] at this; omega)

/-- Distinct live nodes carry distinct keys. -/
lemma key_unique {cmp : Bytes → Bytes → Int} {p : DB} {M : List (Bytes × Bytes)}
    {ns : List Nat} (hc : LawfulCmp cmp) (hr : RepW cmp p M ns) {x y : Nat}
    (hx : x ∈ ns) (hy : y ∈ ns) (hk : keyOf p x = keyOf p y) : x = y := by
  by_contra hne
  have hs : List.Pairwise (fun a b => keyOf p a ≠ keyOf p b) ns := by
    refine hr.sortN.imp ?_
    intro a b hab hEq
    rw [hEq] at hab
    exact hc.not_lt_self _ hab
  have hsym : ∀ {a b : Nat}, keyOf p a ≠ keyOf p b → keyOf p b ≠ keyOf p a :=
    fun h hq => h hq.symm
  exact (List.Pairwise.forall (fun a b h => hsym h) hs hx hy hne) hk

/-- `Contains` agrees with reference-map membership. -/
lemma contains_spec {cmp : Bytes → Bytes → Int} {p : DB} {M : List (Bytes × Bytes)}
    {ns : List Nat} (hc : LawfulCmp cmp) (hr : RepW cmp p M ns) (k : Bytes) :
    p.Contains k = refMem cmp k M := by
  have h2 := (findGE_spec hc hr k false).2.1
  unfold DB.Contains
  rw [h2]
  cases hs : specExact cmp p k (ns.dropWhile (belowT cmp p k)) with
  | true =>
    exact ((refMem_model hc hr k).mpr ((specExact_true_iff hc hr k).mp hs)).symm
  | false =>
    cases hm : refMem cmp k M with
    | false => rfl
    | true =>
      have := (specExact_true_iff hc hr k).mpr ((refMem_model hc hr k).mp hm)
      rw [hs] at this
      exact absurd this (by simp)

/-- `Len` is the reference-map size. -/
lemma len_spec {cmp : Bytes → Bytes → Int} {p : DB} {M : List (Bytes × Bytes)}
    {ns : List Nat} (hr : RepW cmp p M ns) : p.Len = M.length := by
  show p.n = M.length
  rw [hr.hcount, hr.hmodel, List.length_map]

/-- `Size` is the total reference-map payload. -/
lemma size_spec {cmp : Bytes → Bytes → Int} {p : DB} {M : List (Bytes × Bytes)}
    {ns : List Nat} (hr : RepW cmp p M ns) : p.Size = kvLenSum M := hr.hsize

/-- `Get` returns exactly the value bound to a key comparing equal. -/
lemma get_spec {cmp : Bytes → Bytes → Int} {p : DB} {M : List (Bytes × Bytes)}
    {ns : List Nat} (hc : LawfulCmp cmp) (hr : RepW cmp p M ns) (k : Bytes) :
    (p.Get k = none ↔ refMem cmp k M = false) ∧
      ∀ v, p.Get k = some v ↔ (k, v) ∈ M := by
  obtain ⟨h1, h2, _, _⟩ := findGE_spec hc hr k false
  by_cases hex : specExact cmp p k (ns.dropWhile (belowT cmp p k)) = true
  · cases hB : ns.dropWhile (belowT cmp p k) with
    | nil => rw [hB] at hex; simp [specExact] at hex
    | cons y B2 =>
      have hky : keyOf p y = k := by
        rw [hB] at hex
        simp only [specExact, decide_eq_true_eq] at hex
        exact (hc.eq_iff _ _).mp hex
      have hyns : y ∈ ns := (List.dropWhile_sublist _).subset
        (by rw [hB]; exact List.mem_cons_self _ _)
      have hnode : (p.findGE k false).1 = y := by
        rw [h1, hB, List.headD_cons]
      have hGet : p.Get k = some (valOf p y) := by
        simp only [DB.Get]
        rw [h2, hex, hnode]
        simp [valOf]
      have hmemT : refMem cmp k M = true :=
        (refMem_model hc hr k).mpr ⟨y, hyns, hky⟩
      constructor
      · rw [hGet, hmemT]
        simp
      · intro v
        rw [hGet]
        constructor
        · intro hv
          have hv2 : v = valOf p y := by
            injection hv with hv
            exact hv.symm
          rw [hv2, ← hky, hr.hmodel]
          exact List.mem_map_of_mem _ hyns
        · intro hmem
          rw [hr.hmodel] at hmem
          rcases List.mem_map.mp hmem with ⟨x, hxns, hxe⟩
          have hkx : keyOf p x = k := congrArg Prod.fst hxe
          have hxy : x = y := key_unique hc hr hxns hyns (by rw [hkx, hky])
          have hvx : valOf p x = v := congrArg Prod.snd hxe
          rw [← hvx, hxy]
  · have hexF : specExact cmp p k (ns.dropWhile (belowT cmp p k)) = false :=
      Bool.not_eq_true _ ▸ (Bool.eq_false_iff.mpr (fun hq => hex hq))
    have hGet : p.Get k = none := by
      simp only [DB.Get]
      rw [h2, hexF]
      simp
    have hmemF : refMem cmp k M = false := by
      cases hm : refMem cmp k M with
      | false => rfl
      | true =>
        have := (specExact_true_iff hc hr k).mpr ((refMem_model hc hr k).mp hm)
        exact absurd this (by rw [hexF]; simp)
    constructor
    · rw [hGet, hmemF]
      simp
    · intro v
      rw [hGet]
      constructor
      · intro hv
        exact absurd hv (by simp)
      · intro hmem
        rw [hr.hmodel] at hmem
        rcases List.mem_map.mp hmem with ⟨x, hxns, hxe⟩
        have hkx : keyOf p x = k := congrArg Prod.fst hxe
        have : refMem cmp k M = true := (refMem_model hc hr k).mpr ⟨x, hxns, hkx⟩
        rw [hmemF] at this
        exact absurd this (by simp)

/-- `Find` returns the first entry at or after the sought key. -/
lemma find_spec {cmp : Bytes → Bytes → Int} {p : DB} {M : List (Bytes × Bytes)}
    {ns : List Nat} (hc : LawfulCmp cmp) (hr : RepW cmp p M ns) (k : Bytes) :
    p.Find k = (M.dropWhile (fun e => decide (cmp e.1 k < 0))).head? := by
  obtain ⟨h1, _, _, _⟩ := findGE_spec hc hr k false
  have hMd : M.dropWhile (fun e => decide (cmp e.1 k < 0)) =
      (ns.dropWhile (belowT cmp p k)).map (fun x => (keyOf p x, valOf p x)) := by
    rw [hr.hmodel, List.dropWhile_map]
    rfl
  simp only [DB.Find]
  rw [h1, hMd]
  cases hB : ns.dropWhile (belowT cmp p k) with
  | nil => simp
  | cons y B2 =>
    have hyns : y ∈ ns := (List.dropWhile_sublist _).subset
      (by rw [hB]; exact List.mem_cons_self _ _)
    have hy0 : y ≠ 0 := by
      have := (hr.hvalid y hyns).lb
      simp only [tMaxHeight] at this
      omega
    rw [List.headD_cons]
    simp [hy0]

/-- `Delete` never changes the capacity. -/
lemma delete_capacity (p : DB) (k : Bytes) :
    (p.Delete k).1.Capacity = p.Capacity := by
  simp only [DB.Delete, DB.Capacity]
  split <;> rfl

/-- Entries of an insert come from the new pair or the old map. -/
lemma refInsert_mem {cmp : Bytes → Bytes → Int} (k v : Bytes) :
    ∀ (M : List (Bytes × Bytes)) (e : Bytes × Bytes),
      e ∈ refInsert cmp k v M → e = (k, v) ∨ e ∈ M
  | [], e, he => by
    simp only [refInsert, List.mem_singleton] at he
    exact Or.inl he
  | (a, b) :: t, e, he => by
    simp only [refInsert] at he
    by_cases h1 : cmp k a < 0
    · rw [if_pos h1] at he
      rcases List.mem_cons.mp he with h | h
      · exact Or.inl h
      · exact Or.inr h
    · rw [if_neg h1] at he
      by_cases h2 : cmp k a = 0
      · rw [if_pos h2] at he
        rcases List.mem_cons.mp he with h | h
        · exact Or.inl h
        · exact Or.inr (List.mem_cons_of_mem _ h)
      · rw [if_neg h2] at he
        rcases List.mem_cons.mp he with h | h
        · exact Or.inr (h ▸ List.mem_cons_self _ _)
        · rcases refInsert_mem k v t e h with h3 | h3
          · exact Or.inl h3
          · exact Or.inr (List.mem_cons_of_mem _ h3)

/-- Inserting a key no existing entry matches adds exactly its payload. -/
lemma kvLenSum_refInsert_fresh {cmp : Bytes → Bytes → Int} (k v : Bytes) :
    ∀ (M : List (Bytes × Bytes)), (∀ e ∈ M, ¬ cmp k e.1 = 0) →
      kvLenSum (refInsert cmp k v M) =
        kvLenSum M + (k.length : Int) + (v.length : Int)
  | [], _ => by
    simp only [refInsert, kvLenSum]
    ring
  | (a, b) :: t, hfr => by
    simp only [refInsert]
    by_cases h1 : cmp k a < 0
    · rw [if_pos h1]
      simp only [kvLenSum]
      ring
    · rw [if_neg h1, if_neg (hfr (a, b) (List.mem_cons_self _ _))]
      simp only [kvLenSum]
      rw [kvLenSum_refInsert_fresh k v t (fun e he => hfr e (List.mem_cons_of_mem _ he))]
      ring

/-- Deleting a present key removes exactly that entry's payload. -/
lemma kvLenSum_refDelete {cmp : Bytes → Bytes → Int} (hc : LawfulCmp cmp) (k : Bytes) :
    ∀ (M : List (Bytes × Bytes)), List.Pairwise (fun a b => cmp a.1 b.1 < 0) M →
      ∀ e ∈ M, cmp k e.1 = 0 →
      kvLenSum (refDelete cmp k M) =
        kvLenSum M - (e.1.length : Int) - (e.2.length : Int)
  | [], _, e, he, _ => by simp at he
  | (a, b) :: t, hp, e, he, hek => by
    simp only [refDelete]
    by_cases h1 : cmp k a = 0
    · rw [if_pos h1]
      have hea : e = (a, b) := by
        rcases List.mem_cons.mp he with h | h
        · exact h
        · exfalso
          have hlt := (List.pairwise_cons.mp hp).1 e h
          have hka : k = a := (hc.eq_iff _ _).mp h1
          have hke : k = e.1 := (hc.eq_iff _ _).mp hek
          rw [← hka, ← hke] at hlt
          exact hc.not_lt_self _ hlt
      rw [hea]
      simp only [kvLenSum]
      ring
    · rw [if_neg h1]
      have het : e ∈ t := by
        rcases List.mem_cons.mp he with h | h
        · exfalso
          rw [h] at hek
          exact h1 hek
        · exact h
      simp only [kvLenSum]
      rw [kvLenSum_refDelete hc k t (List.pairwise_cons.mp hp).2 e het hek]
      ring

/-- Folding inserts of pairwise-fresh pairs adds exactly the total payload. -/
lemma size_putFold {cmp : Bytes → Bytes → Int} (hc : LawfulCmp cmp) :
    ∀ (kvs M : List (Bytes × Bytes)),
      (∀ e ∈ kvs, ∀ m ∈ M, ¬ cmp e.1 m.1 = 0) →
      List.Pairwise (fun a b => ¬ cmp a.1 b.1 = 0) kvs →
      kvLenSum (kvs.foldl (fun acc e => refInsert cmp e.1 e.2 acc) M) =
        kvLenSum M + kvLenSum kvs
  | [], M, _, _ => by simp [kvLenSum]
  | (k, v) :: t, M, hfr, hp => by
    simp only [List.foldl_cons]
    rw [size_putFold hc t (refInsert cmp k v M) ?_ (List.pairwise_cons.mp hp).2]
    · rw [kvLenSum_refInsert_fresh k v M
        (fun m hm => hfr (k, v) (List.mem_cons_self _ _) m hm)]
      simp only [kvLenSum]
      ring
    · intro e he m hm
      rcases refInsert_mem k v M m hm with hkv | hmM
      · rw [hkv]
        intro h0
        have hek : e.1 = k := (hc.eq_iff _ _).mp h0
        have := (List.pairwise_cons.mp hp).1 e he
        exact this ((hc.eq_iff _ _).mpr hek.symm)
      · exact hfr e (List.mem_cons_of_mem _ he) m hmM

/-- C1: replaying any Put/Delete sequence on a fresh store, a full forward
iteration yields exactly the reference ordered map obtained by replaying the
same operations, with keys in strictly increasing comparator order. -/
theorem C1_iteration_matches_reference (cmp : Bytes → Bytes → Int)
    (hc : LawfulCmp cmp) (rnd : Nat → Nat) (capacity : Nat) (ops : List Op) :
    fullForward (dbReplay (New_ cmp rnd capacity) ops) = refReplay cmp ops ∧
      List.Pairwise (fun a b => cmp a.1 b.1 < 0)
        (fullForward (dbReplay (New_ cmp rnd capacity) ops)) := by
  obtain ⟨ns2, hr⟩ := replay_rep hc ops (rep_new cmp rnd capacity)
  have hff := fullForward_spec hr
  constructor
  · rw [hff]
    rfl
  · rw [hff]
    exact hr.hsort

theorem C1_iteration_matches_reference_witness :
    LawfulCmp bytewiseCompare ∧
      (fullForward (dbReplay (New_ bytewiseCompare (fun _ => 0) 0)
          [Op.put [1] [2], Op.del [1]]) =
        refReplay bytewiseCompare [Op.put [1] [2], Op.del [1]] ∧
      List.Pairwise (fun a b => bytewiseCompare a.1 b.1 < 0)
        (fullForward (dbReplay (New_ bytewiseCompare (fun _ => 0) 0)
          [Op.put [1] [2], Op.del [1]]))) :=
  ⟨lawful_bytewise, C1_iteration_matches_reference bytewiseCompare lawful_bytewise
    (fun _ => 0) 0 [Op.put [1] [2], Op.del [1]]⟩

/-- C5: on an empty store, Put("a","1"), Put("b","2"), Delete("a") leaves
Len()=1, Get("a")=NotFound, Get("b")="2", and a full forward iteration yields
exactly [("b","2")] (bytes: "a"=[97], "b"=[98], "1"=[49], "2"=[50]). -/
theorem C5_concrete_scenario (rnd : Nat → Nat) (capacity : Nat) :
    (dbReplay (New_ bytewiseCompare rnd capacity)
        [Op.put [97] [49], Op.put [98] [50], Op.del [97]]).Len = 1 ∧
    (dbReplay (New_ bytewiseCompare rnd capacity)
        [Op.put [97] [49], Op.put [98] [50], Op.del [97]]).Get [97] = none ∧
    (dbReplay (New_ bytewiseCompare rnd capacity)
        [Op.put [97] [49], Op.put [98] [50], Op.del [97]]).Get [98] = some [50] ∧
    fullForward (dbReplay (New_ bytewiseCompare rnd capacity)
        [Op.put [97] [49], Op.put [98] [50], Op.del [97]]) = [([98], [50])] := by
  obtain ⟨ns2, hr⟩ := replay_rep lawful_bytewise
    [Op.put [97] [49], Op.put [98] [50], Op.del [97]]
    (rep_new bytewiseCompare rnd capacity)
  have hM : [Op.put [97] [49], Op.put [98] [50], Op.del [97]].foldl
      (refApply bytewiseCompare) [] = [([98], [50])] := by decide
  rw [hM] at hr
  refine ⟨?_, ?_, ?_, ?_⟩
  · rw [len_spec hr]
    rfl
  · refine ((get_spec lawful_bytewise hr [97]).1).mpr ?_
    decide
  · refine ((get_spec lawful_bytewise hr [98]).2 [50]).mpr ?_
    decide
  · exact fullForward_spec hr

/-- C6: after N fresh puts of pairwise-distinct keys the size is exactly the
total payload; a successful delete removes exactly the matched entry's
payload and never changes the capacity. -/
theorem C6_size_accounting (cmp : Bytes → Bytes → Int) (hc : LawfulCmp cmp)
    (rnd : Nat → Nat) (capacity : Nat) (kvs : List (Bytes × Bytes))
    (hdist : List.Pairwise (fun a b => ¬ cmp a.1 b.1 = 0) kvs) :
    (dbReplay (New_ cmp rnd capacity)
        (kvs.map (fun e => Op.put e.1 e.2))).Size = kvLenSum kvs ∧
    ∀ (ops : List Op) (k : Bytes), ∀ e ∈ refReplay cmp ops, cmp k e.1 = 0 →
      ((dbReplay (New_ cmp rnd capacity) ops).Delete k).2 = true ∧
      ((dbReplay (New_ cmp rnd capacity) ops).Delete k).1.Size =
        (dbReplay (New_ cmp rnd capacity) ops).Size -
          (e.1.length : Int) - (e.2.length : Int) ∧
      ((dbReplay (New_ cmp rnd capacity) ops).Delete k).1.Capacity =
        (dbReplay (New_ cmp rnd capacity) ops).Capacity := by
  constructor
  · obtain ⟨ns2, hr⟩ := replay_rep hc (kvs.map (fun e => Op.put e.1 e.2))
      (rep_new cmp rnd capacity)
    rw [size_spec hr, List.foldl_map]
    have : (kvs.foldl (fun acc e => refApply cmp acc (Op.put e.1 e.2)) []) =
        kvs.foldl (fun acc e => refInsert cmp e.1 e.2 acc) [] := rfl
    rw [this, size_putFold hc kvs [] (fun e _ m hm => absurd hm (by simp)) hdist]
    simp [kvLenSum]
  · intro ops k e he hek
    obtain ⟨ns2, hr⟩ := replay_rep hc ops (rep_new cmp rnd capacity)
    obtain ⟨hflag, ns3, hr2⟩ := delete_rep hc hr k
    have hmem : refMem cmp k (refReplay cmp ops) = true := by
      unfold refMem
      rw [List.any_eq_true]
      exact ⟨e, he, by simpa using hek⟩
    refine ⟨by rw [hflag]; exact hmem, ?_, delete_capacity _ k⟩
    rw [size_spec hr2, size_spec hr]
    exact kvLenSum_refDelete hc k _ hr.hsort e he hek

theorem C6_size_accounting_witness :
    (LawfulCmp bytewiseCompare ∧
      List.Pairwise (fun a b => ¬ bytewiseCompare a.1 b.1 = 0)
        [([1], [2]), ([3], [4, 5])]) ∧
    ((dbReplay (New_ bytewiseCompare (fun _ => 0) 0)
        ([([1], [2]), ([3], [4, 5])].map (fun e => Op.put e.1 e.2))).Size =
      kvLenSum [([1], [2]), ([3], [4, 5])] ∧
    ∀ (ops : List Op) (k : Bytes),
      ∀ e ∈ refReplay bytewiseCompare ops, bytewiseCompare k e.1 = 0 →
      ((dbReplay (New_ bytewiseCompare (fun _ => 0) 0) ops).Delete k).2 = true ∧
      ((dbReplay (New_ bytewiseCompare (fun _ => 0) 0) ops).Delete k).1.Size =
        (dbReplay (New_ bytewiseCompare (fun _ => 0) 0) ops).Size -
          (e.1.length : Int) - (e.2.length : Int) ∧
      ((dbReplay (New_ bytewiseCompare (fun _ => 0) 0) ops).Delete k).1.Capacity =
        (dbReplay (New_ bytewiseCompare (fun _ => 0) 0) ops).Capacity) :=
  ⟨⟨lawful_bytewise, by decide⟩,
    C6_size_accounting bytewiseCompare lawful_bytewise (fun _ => 0) 0
      [([1], [2]), ([3], [4, 5])] (by decide)⟩

/-- C7: Get reports NotFound exactly when no entry's key compares equal;
Delete reports NotFound under the same condition and then leaves Len, Size
and all entries unchanged; Find reports NotFound exactly when no entry is at
or after the key, and otherwise returns the smallest such entry. -/
theorem C7_notfound_behaviour (cmp : Bytes → Bytes → Int) (hc : LawfulCmp cmp)
    (rnd : Nat → Nat) (capacity : Nat) (ops : List Op) (k : Bytes) :
    ((dbReplay (New_ cmp rnd capacity) ops).Get k = none ↔
      refMem cmp k (refReplay cmp ops) = false) ∧
    (((dbReplay (New_ cmp rnd capacity) ops).Delete k).2 = false ↔
      refMem cmp k (refReplay cmp ops) = false) ∧
    (refMem cmp k (refReplay cmp ops) = false →
      ((dbReplay (New_ cmp rnd capacity) ops).Delete k).1.Len =
        (dbReplay (New_ cmp rnd capacity) ops).Len ∧
      ((dbReplay (New_ cmp rnd capacity) ops).Delete k).1.Size =
        (dbReplay (New_ cmp rnd capacity) ops).Size ∧
      fullForward ((dbReplay (New_ cmp rnd capacity) ops).Delete k).1 =
        fullForward (dbReplay (New_ cmp rnd capacity) ops)) ∧
    ((dbReplay (New_ cmp rnd capacity) ops).Find k =
      ((refReplay cmp ops).dropWhile (fun e => decide (cmp e.1 k < 0))).head?) ∧
    ((dbReplay (New_ cmp rnd capacity) ops).Find k = none ↔
      ∀ e ∈ refReplay cmp ops, cmp e.1 k < 0) := by
  obtain ⟨ns2, hr⟩ := replay_rep hc ops (rep_new cmp rnd capacity)
  have hRR : List.foldl (refApply cmp) [] ops = refReplay cmp ops := rfl
  rw [hRR] at hr
  obtain ⟨hflag, ns3, hr2⟩ := delete_rep hc hr k
  have hfind := find_spec hc hr k
  refine ⟨?_, ?_, ?_, hfind, ?_⟩
  · exact (get_spec hc hr k).1
  · rw [hflag]
  · intro hnm
    have hid : refDelete cmp k (refReplay cmp ops) = refReplay cmp ops := by
      refine refDelete_id k _ ?_
      intro e he hde
      have : refMem cmp k (refReplay cmp ops) = true := by
        unfold refMem
        rw [List.any_eq_true]
        exact ⟨e, he, by simpa using hde⟩
      rw [hnm] at this
      exact absurd this (by simp)
    rw [hid] at hr2
    exact ⟨by rw [len_spec hr2, len_spec hr], by rw [size_spec hr2, size_spec hr],
      by rw [fullForward_spec hr2, fullForward_spec hr]⟩
  · rw [hfind]
    rw [List.head?_eq_none_iff, List.dropWhile_eq_nil_iff]
    constructor
    · intro h e he
      simpa using h e he
    · intro h e he
      simpa using h e he

theorem C7_notfound_behaviour_witness :
    LawfulCmp bytewiseCompare ∧
      (((dbReplay (New_ bytewiseCompare (fun _ => 0) 0) [Op.put [1] [2]]).Get [3] =
          none ↔
        refMem bytewiseCompare [3] (refReplay bytewiseCompare [Op.put [1] [2]]) =
          false) ∧
      (((dbReplay (New_ bytewiseCompare (fun _ => 0) 0)
            [Op.put [1] [2]]).Delete [3]).2 = false ↔
        refMem bytewiseCompare [3] (refReplay bytewiseCompare [Op.put [1] [2]]) =
          false) ∧
      (refMem bytewiseCompare [3] (refReplay bytewiseCompare [Op.put [1] [2]]) =
          false →
        ((dbReplay (New_ bytewiseCompare (fun _ => 0) 0)
            [Op.put [1] [2]]).Delete [3]).1.Len =
          (dbReplay (New_ bytewiseCompare (fun _ => 0) 0) [Op.put [1] [2]]).Len ∧
        ((dbReplay (New_ bytewiseCompare (fun _ => 0) 0)
            [Op.put [1] [2]]).Delete [3]).1.Size =
          (dbReplay (New_ bytewiseCompare (fun _ => 0) 0) [Op.put [1] [2]]).Size ∧
        fullForward ((dbReplay (New_ bytewiseCompare (fun _ => 0) 0)
            [Op.put [1] [2]]).Delete [3]).1 =
          fullForward (dbReplay (New_ bytewiseCompare (fun _ => 0) 0)
            [Op.put [1] [2]])) ∧
      ((dbReplay (New_ bytewiseCompare (fun _ => 0) 0) [Op.put [1] [2]]).Find [3] =
        ((refReplay bytewiseCompare [Op.put [1] [2]]).dropWhile
          (fun e => decide (bytewiseCompare e.1 [3] < 0))).head?) ∧
      ((dbReplay (New_ bytewiseCompare (fun _ => 0) 0) [Op.put [1] [2]]).Find [3] =
          none ↔
        ∀ e ∈ refReplay bytewiseCompare [Op.put [1] [2]],
          bytewiseCompare e.1 [3] < 0)) :=
  ⟨lawful_bytewise, C7_notfound_behaviour bytewiseCompare lawful_bytewise
    (fun _ => 0) 0 [Op.put [1] [2]] [3]⟩

/-- C10: every Put/Delete/Reset sequence on a fresh store preserves the
representation invariant; in particular 1 ≤ maxHeight ≤ tMaxHeight, the head
node's stored height is tMaxHeight, every live node's height lies in
[1, maxHeight], prevNode keeps length tMaxHeight, and randHeight always
returns a height in [1, tMaxHeight]. -/
theorem C10_height_invariants (cmp : Bytes → Bytes → Int) (hc : LawfulCmp cmp)
    (rnd : Nat → Nat) (capacity : Nat) (ops : List OpR) :
    ∃ M ns, RepW cmp (dbReplayR (New_ cmp rnd capacity) ops) M ns ∧
      1 ≤ (dbReplayR (New_ cmp rnd capacity) ops).maxHeight ∧
      (dbReplayR (New_ cmp rnd capacity) ops).maxHeight ≤ tMaxHeight ∧
      nd (dbReplayR (New_ cmp rnd capacity) ops) nHeight = tMaxHeight ∧
      (dbReplayR (New_ cmp rnd capacity) ops).prevNode.length = tMaxHeight ∧
      (∀ x ∈ ns, 1 ≤ htOf (dbReplayR (New_ cmp rnd capacity) ops) x ∧
        htOf (dbReplayR (New_ cmp rnd capacity) ops) x ≤
          (dbReplayR (New_ cmp rnd capacity) ops).maxHeight) ∧
      1 ≤ (dbReplayR (New_ cmp rnd capacity) ops).randHeight.1 ∧
      (dbReplayR (New_ cmp rnd capacity) ops).randHeight.1 ≤ tMaxHeight := by
  obtain ⟨M, ns, hr⟩ := replayR_rep hc ops (rep_new cmp rnd capacity)
  have hrb := (dbReplayR (New_ cmp rnd capacity) ops).randHeight_bounds
  exact ⟨M, ns, hr, hr.hmax1, hr.hmax2, hr.hheadH, hr.hpn,
    fun x hx => ⟨(hr.hvalid x hx).ht1, (hr.hvalid x hx).ht2⟩, hrb.1, hrb.2⟩

theorem C10_height_invariants_witness :
    LawfulCmp bytewiseCompare ∧
      (∃ M ns, RepW bytewiseCompare
          (dbReplayR (New_ bytewiseCompare (fun _ => 0) 0)
            [OpR.put [1] [2], OpR.reset, OpR.put [3] [4], OpR.del [3]]) M ns ∧
        1 ≤ (dbReplayR (New_ bytewiseCompare (fun _ => 0) 0)
            [OpR.put [1] [2], OpR.reset, OpR.put [3] [4], OpR.del [3]]).maxHeight ∧
        (dbReplayR (New_ bytewiseCompare (fun _ => 0) 0)
            [OpR.put [1] [2], OpR.reset, OpR.put [3] [4], OpR.del [3]]).maxHeight ≤
          tMaxHeight ∧
        nd (dbReplayR (New_ bytewiseCompare (fun _ => 0) 0)
            [OpR.put [1] [2], OpR.reset, OpR.put [3] [4], OpR.del [3]]) nHeight =
          tMaxHeight ∧
        (dbReplayR (New_ bytewiseCompare (fun _ => 0) 0)
            [OpR.put [1] [2], OpR.reset, OpR.put [3] [4],
              OpR.del [3]]).prevNode.length = tMaxHeight ∧
        (∀ x ∈ ns, 1 ≤ htOf (dbReplayR (New_ bytewiseCompare (fun _ => 0) 0)
              [OpR.put [1] [2], OpR.reset, OpR.put [3] [4], OpR.del [3]]) x ∧
          htOf (dbReplayR (New_ bytewiseCompare (fun _ => 0) 0)
              [OpR.put [1] [2], OpR.reset, OpR.put [3] [4], OpR.del [3]]) x ≤
            (dbReplayR (New_ bytewiseCompare (fun _ => 0) 0)
              [OpR.put [1] [2], OpR.reset, OpR.put [3] [4],
                OpR.del [3]]).maxHeight) ∧
        1 ≤ (dbReplayR (New_ bytewiseCompare (fun _ => 0) 0)
            [OpR.put [1] [2], OpR.reset, OpR.put [3] [4],
              OpR.del [3]]).randHeight.1 ∧
        (dbReplayR (New_ bytewiseCompare (fun _ => 0) 0)
            [OpR.put [1] [2], OpR.reset, OpR.put [3] [4],
              OpR.del [3]]).randHeight.1 ≤ tMaxHeight) :=
  ⟨lawful_bytewise, C10_height_invariants bytewiseCompare lawful_bytewise
    (fun _ => 0) 0 [OpR.put [1] [2], OpR.reset, OpR.put [3] [4], OpR.del [3]]⟩

/-! ## Varint encoding/decoding -/

lemma lor_shift_disjoint : ∀ (s a b : Nat), a < 2 ^ s →
    a ||| (b <<< s) = a + b * 2 ^ s := by
  intro s
  induction s with
  | zero =>
    intro a b ha
    have h0 : a = 0 := by omega
    subst h0
    simp [Nat.shiftLeft_eq]
  | succ s ih =>
    intro a b ha
    have hd : Nat.bit (decide (a % 2 = 1)) (a >>> 1) = a :=
      Nat.bit_decide_mod_two_eq_one_shiftRight_one a
    have hb : b <<< (s + 1) = Nat.bit false (b <<< s) := by
      rw [Nat.shiftLeft_succ, Nat.bit_val]
      simp
    conv_lhs => rw [← hd, hb]
    rw [Nat.lor_bit]
    simp only [Bool.or_false]
    rw [ih (a >>> 1) b (by rw [Nat.shiftRight_one]; omega)]
    rw [Nat.bit_val, Nat.shiftRight_one]
    have ht : (decide (a % 2 = 1)).toNat = a % 2 := by
      by_cases h2 : a % 2 = 1
      · simp [h2]
      · simp [h2]
        omega
    have hp : 2 ^ (s + 1) = 2 * 2 ^ s := by ring
    rw [ht, hp]
    ring_nf
    omega

lemma uvarintBytes_fuel : ∀ (x : Nat), ∀ (f g : Nat), x ≤ f → x ≤ g →
    uvarintBytes f x = uvarintBytes g x := by
  intro x
  induction x using Nat.strong_induction_on with
  | _ x ih =>
    intro f g hf hg
    by_cases h : x < 128
    · have e : ∀ m, uvarintBytes m x = [x] := by
        intro m
        cases m with
        | zero => simp [uvarintBytes, Nat.mod_eq_of_lt h]
        | succ m => simp [uvarintBytes, h]
      rw [e, e]
    · cases f with
      | zero => omega
      | succ f =>
        cases g with
        | zero => omega
        | succ g =>
          simp only [uvarintBytes, if_neg h]
          rw [ih (x / 128) (by omega) f g (by omega) (by omega)]

lemma putUvarint_small (x : Nat) (h : x < 128) : putUvarint x = [x] := by
  unfold putUvarint
  cases x with
  | zero => simp [uvarintBytes]
  | succ n => simp [uvarintBytes, h]

lemma putUvarint_step (x : Nat) (h : 128 ≤ x) :
    putUvarint x = (x % 128 + 128) :: putUvarint (x / 128) := by
  unfold putUvarint
  cases hx : x with
  | zero => omega
  | succ n =>
    rw [← hx]
    rw [show uvarintBytes x x = uvarintBytes (n + 1) x by rw [hx]]
    rw [show uvarintBytes (n + 1) x = if x < 128 then [x]
      else (x % 128 + 128) :: uvarintBytes n (x / 128) from rfl]
    rw [if_neg (by omega)]
    congr 1
    exact uvarintBytes_fuel (x / 128) n (x / 128) (by omega) (le_refl _)

lemma putUvarint_length_le : ∀ (k x : Nat), x < 128 ^ (k + 1) →
    (putUvarint x).length ≤ k + 1 := by
  intro k
  induction k with
  | zero =>
    intro x hx
    rw [putUvarint_small x (by simpa using hx)]
    simp
  | succ k ih =>
    intro x hx
    by_cases h : x < 128
    · rw [putUvarint_small x h]
      simp
    · rw [putUvarint_step x (by omega)]
      simp only [List.length_cons]
      have hd : x / 128 < 128 ^ (k + 1) := by
        have h2 : 128 ^ (k + 2) = 128 ^ (k + 1) * 128 := by ring
        rw [h2] at hx
        omega
      have := ih (x / 128) hd
      omega

lemma putUvarint_length_pos (x : Nat) : 1 ≤ (putUvarint x).length := by
  by_cases h : x < 128
  · rw [putUvarint_small x h]
    simp
  · rw [putUvarint_step x (by omega)]
    simp

lemma goUvarintAux_putUvarint : ∀ (x : Nat), ∀ (rest : List Nat) (i xa s : Nat),
    s = 7 * i → xa < 2 ^ s → x * 2 ^ s < 2 ^ 63 →
    i + (putUvarint x).length ≤ 9 →
    goUvarintAux (putUvarint x ++ rest) i xa s =
      (xa + x * 2 ^ s, (i : Int) + ((putUvarint x).length : Int)) := by
  intro x
  induction x using Nat.strong_induction_on with
  | _ x ih =>
    intro rest i xa s hs hxa hsmall hlen
    have hpos := putUvarint_length_pos x
    have hi8 : i ≤ 8 := by omega
    have hs56 : (2 : Nat) ^ s ≤ 2 ^ 56 := Nat.pow_le_pow_right (by omega) (by omega)
    have h5663 : (2 : Nat) ^ 56 ≤ 2 ^ 63 := Nat.pow_le_pow_right (by omega) (by omega)
    have h64 : (2 : Nat) ^ 64 = 2 ^ 63 * 2 := by ring
    by_cases h : x < 128
    · rw [putUvarint_small x h]
      rw [List.singleton_append]
      rw [show goUvarintAux (x :: rest) i xa s =
        (if i = 10 then (0, -11)
         else if x % 256 < 128 then
           if i = 9 ∧ 1 < x % 256 then (0, -10)
           else ((xa ||| (x % 256) <<< s) % 2 ^ 64, (i : Int) + 1)
         else goUvarintAux rest (i + 1) ((xa ||| (x % 256 % 128) <<< s) % 2 ^ 64)
           (s + 7)) from rfl]
      rw [if_neg (by omega), if_pos (by omega), if_neg (by omega)]
      rw [show x % 256 = x from Nat.mod_eq_of_lt (by omega)]
      rw [lor_shift_disjoint s xa x hxa]
      rw [Nat.mod_eq_of_lt (show xa + x * 2 ^ s < 2 ^ 64 by omega)]
      simp
    · rw [putUvarint_step x (by omega)]
      rw [List.cons_append]
      rw [show goUvarintAux ((x % 128 + 128) :: (putUvarint (x / 128) ++ rest)) i xa s =
        (if i = 10 then (0, -11)
         else if (x % 128 + 128) % 256 < 128 then
           if i = 9 ∧ 1 < (x % 128 + 128) % 256 then (0, -10)
           else ((xa ||| ((x % 128 + 128) % 256) <<< s) % 2 ^ 64, (i : Int) + 1)
         else goUvarintAux (putUvarint (x / 128) ++ rest) (i + 1)
           ((xa ||| ((x % 128 + 128) % 256 % 128) <<< s) % 2 ^ 64) (s + 7))
        from rfl]
      rw [if_neg (by omega), if_neg (by omega)]
      have hb7 : (x % 128 + 128) % 256 % 128 = x % 128 := by omega
      rw [hb7, lor_shift_disjoint s xa (x % 128) hxa]
      have hs7 : (2 : Nat) ^ (s + 7) = 2 ^ s * 128 := by ring
      have hxa2 : xa + x % 128 * 2 ^ s < 2 ^ (s + 7) := by
        rw [hs7]
        have hm : x % 128 * 2 ^ s ≤ 127 * 2 ^ s := by
          have : x % 128 ≤ 127 := by omega
          exact Nat.mul_le_mul_right _ this
        omega
      have hmod : (xa + x % 128 * 2 ^ s) % 2 ^ 64 = xa + x % 128 * 2 ^ s := by
        refine Nat.mod_eq_of_lt ?_
        have h757 : (2 : Nat) ^ (s + 7) ≤ 2 ^ 63 := by
          refine Nat.pow_le_pow_right (by omega) ?_
          omega
        omega
      rw [hmod]
      have hlen2 := putUvarint_length_pos (x / 128)
      have hstep := putUvarint_step x (by omega)
      have hlenx : (putUvarint x).length = (putUvarint (x / 128)).length + 1 := by
        rw [hstep]
        simp
      have hsm2 : x / 128 * 2 ^ (s + 7) < 2 ^ 63 := by
        rw [hs7]
        have : x / 128 * (2 ^ s * 128) ≤ x * 2 ^ s := by
          have h1 : x / 128 * 128 ≤ x := by omega
          calc x / 128 * (2 ^ s * 128) = x / 128 * 128 * 2 ^ s := by ring
          _ ≤ x * 2 ^ s := Nat.mul_le_mul_right _ h1
        omega
      rw [ih (x / 128) (by omega) rest (i + 1) (xa + x % 128 * 2 ^ s) (s + 7)
        (by omega) hxa2 hsm2 (by omega)]
      rw [Prod.mk.injEq]
      constructor
      · rw [hs7]
        have hx : x % 128 + x / 128 * 128 = x := by omega
        calc xa + x % 128 * 2 ^ s + x / 128 * (2 ^ s * 128)
            = xa + (x % 128 + x / 128 * 128) * 2 ^ s := by ring
        _ = xa + x * 2 ^ s := by rw [hx]
      · simp only [List.length_cons]
        push_cast
        ring

lemma goUvarint_putUvarint (x : Nat) (hx : x < 2 ^ 32) (rest : List Nat) :
    goUvarint (putUvarint x ++ rest) =
      (x, ((putUvarint x).length : Int)) := by
  unfold goUvarint
  have hlen : (putUvarint x).length ≤ 5 := by
    refine putUvarint_length_le 4 x ?_
    have : (2 : Nat) ^ 32 ≤ 128 ^ 5 := by norm_num
    omega
  have h1 : x * 2 ^ 0 < 2 ^ 63 := by
    have h2 : (2 : Nat) ^ 32 ≤ 2 ^ 63 := Nat.pow_le_pow_right (by omega) (by omega)
    simpa using lt_of_lt_of_le hx h2
  rw [goUvarintAux_putUvarint x rest 0 0 0 (by omega) (by simp) h1 (by omega)]
  simp

/-! ## Batch building characterisation -/

lemma batchApply_spec (b : Batch) (op : BatchOp) :
    (batchApply b op).data = b.data ++ encRec op ∧
      (batchApply b op).index = b.index ++ [idxRec b.data.length op] ∧
      (batchApply b op).internalLen = b.internalLen +
        (idxRec b.data.length op).keyLen + (idxRec b.data.length op).valueLen + 8 := by
  cases op with
  | put k v =>
    simp only [batchApply, Batch.Put, Batch.appendRec]
    rw [if_pos trivial]
    exact ⟨rfl, rfl, rfl⟩
  | del k =>
    simp only [batchApply, Batch.Delete, Batch.appendRec]
    rw [if_neg (by simp [keyTypeDel, keyTypeVal])]
    exact ⟨rfl, rfl, rfl⟩

lemma buildAux : ∀ (ops : List BatchOp) (b : Batch),
    (ops.foldl batchApply b).data = b.data ++ encChain ops ∧
      (ops.foldl batchApply b).index = b.index ++ idxChain b.data.length ops
  | [], b => by simp [encChain, idxChain]
  | op :: t, b => by
    simp only [List.foldl_cons]
    obtain ⟨h1, h2, _⟩ := batchApply_spec b op
    obtain ⟨h3, h4⟩ := buildAux t (batchApply b op)
    constructor
    · rw [h3, h1, encChain, List.append_assoc]
    · rw [h4, h2, h1, idxChain]
      simp only [List.length_append, List.append_assoc, List.singleton_append]

lemma buildBatch_data (ops : List BatchOp) :
    (buildBatch ops).data = encChain ops := by
  have := (buildAux ops emptyBatch).1
  simpa [buildBatch, emptyBatch] using this

lemma buildBatch_index (ops : List BatchOp) :
    (buildBatch ops).index = idxChain 0 ops := by
  have := (buildAux ops emptyBatch).2
  simpa [buildBatch, emptyBatch] using this

lemma idxChain_shape : ∀ (ops : List BatchOp) (o : Nat), ∀ idx ∈ idxChain o ops,
    (idx.keyType = keyTypeVal ∧ (0 : Int) ≤ idx.valueLen) ∨
      (idx.keyType = keyTypeDel ∧ idx.valueLen = 0)
  | [], _, idx, h => by simp [idxChain] at h
  | op :: t, o, idx, h => by
    rw [idxChain] at h
    rcases List.mem_cons.mp h with h1 | h1
    · subst h1
      cases op with
      | put k v => exact Or.inl ⟨rfl, by simp [idxRec]⟩
      | del k => exact Or.inr ⟨rfl, rfl⟩
    · exact idxChain_shape t _ idx h1

/-! ## Decoding a well-formed batch buffer -/

lemma drop_head_getD : ∀ (D : List Nat) (o : Nat) (b : Nat) (rest : List Nat),
    D.drop o = b :: rest → D.getD o 0 = b ∧ D.drop (o + 1) = rest := by
  intro D
  induction D with
  | nil =>
    intro o b rest h
    simp at h
  | cons x xs ih =>
    intro o b rest h
    cases o with
    | zero =>
      simp only [List.drop_zero] at h
      injection h with h1 h2
      subst h1
      constructor
      · rfl
      · simpa using h2
    | succ o =>
      rw [List.drop_succ_cons] at h
      obtain ⟨g1, g2⟩ := ih o b rest h
      constructor
      · simpa using g1
      · simpa [List.drop_succ_cons] using g2

lemma drop_shift (D : List Nat) (o n : Nat) :
    D.drop (o + n) = (D.drop o).drop n := by
  rw [List.drop_drop]

lemma wrap64_small (z : Int) (h1 : -(2 ^ 63) ≤ z) (h2 : z < 2 ^ 63) :
    wrap64 z = z := by
  unfold wrap64
  omega

lemma intOfUint64_small (x : Nat) (h : x < 2 ^ 63) : intOfUint64 x = (x : Int) := by
  unfold intOfUint64
  rw [if_pos h]

lemma decodeLoop_spec : ∀ (ops : List BatchOp) (D : List Nat) (oN i fuel : Nat)
    (acc : List BatchIndex),
    D.length < 2 ^ 63 →
    (∀ op ∈ ops, opLenOK op = true) →
    D.drop oN = encChain ops →
    ops.length < fuel →
    decodeBatchLoop D fuel i (oN : Int) acc = .ok (acc ++ idxChain oN ops) := by
  intro ops
  induction ops with
  | nil =>
    intro D oN i fuel acc hD _ hdrop hfuel
    cases fuel with
    | zero => omega
    | succ f =>
      rw [decodeBatchLoop]
      rw [if_neg (show ¬ ((oN : Int) < (D.length : Int)) by
        have hlen := congrArg List.length hdrop
        rw [List.length_drop] at hlen
        simp only [encChain, List.length_nil] at hlen
        omega)]
      simp [idxChain]
  | cons op t ih =>
    intro D oN i fuel acc hD hok hdrop hfuel
    cases fuel with
    | zero => simp at hfuel
    | succ f =>
      rw [encChain] at hdrop
      have hokop := hok op (List.mem_cons_self _ _)
      have hokt : ∀ op2 ∈ t, opLenOK op2 = true :=
        fun op2 h2 => hok op2 (List.mem_cons_of_mem _ h2)
      cases op with
      | put k v =>
        have hk32 : k.length < 2 ^ 32 := by
          simp only [opLenOK, Bool.and_eq_true, decide_eq_true_eq] at hokop
          exact hokop.1
        have hv32 : v.length < 2 ^ 32 := by
          simp only [opLenOK, Bool.and_eq_true, decide_eq_true_eq] at hokop
          exact hokop.2
        have hLk1 := putUvarint_length_pos k.length
        have hLv1 := putUvarint_length_pos v.length
        rw [show encRec (BatchOp.put k v) =
          keyTypeVal :: (putUvarint k.length ++ k ++ putUvarint v.length ++ v)
          from rfl] at hdrop
        rw [List.cons_append] at hdrop
        obtain ⟨hgd, hdrop1⟩ := drop_head_getD D oN _ _ hdrop
        simp only [List.append_assoc] at hdrop1
        have hlenTot : oN + (1 + (putUvarint k.length).length + k.length +
            (putUvarint v.length).length + v.length + (encChain t).length) =
            D.length := by
          have hlen := congrArg List.length hdrop
          rw [List.length_drop] at hlen
          simp only [List.length_cons, List.length_append] at hlen
          omega
        have hdrop2 : D.drop (oN + 1 + (putUvarint k.length).length) =
            k ++ (putUvarint v.length ++ (v ++ encChain t)) := by
          rw [show oN + 1 + (putUvarint k.length).length =
            (oN + 1) + (putUvarint k.length).length from rfl]
          rw [drop_shift, hdrop1, List.drop_left]
        have hdrop3 : D.drop (oN + 1 + (putUvarint k.length).length + k.length) =
            putUvarint v.length ++ (v ++ encChain t) := by
          rw [drop_shift, hdrop2, List.drop_left]
        have hdrop4 : D.drop (oN + 1 + (putUvarint k.length).length + k.length +
            (putUvarint v.length).length) = v ++ encChain t := by
          rw [drop_shift, hdrop3, List.drop_left]
        have hdrop5 : D.drop (oN + 1 + (putUvarint k.length).length + k.length +
            (putUvarint v.length).length + v.length) = encChain t := by
          rw [drop_shift, hdrop4, List.drop_left]
        have huk := goUvarint_putUvarint k.length hk32
          (k ++ (putUvarint v.length ++ (v ++ encChain t)))
        have huv := goUvarint_putUvarint v.length hv32 (v ++ encChain t)
        simp only [decodeBatchLoop]
        rw [if_pos (show ((oN : Nat) : Int) < (D.length : Int) by omega)]
        rw [if_neg (show ¬ (((oN : Nat) : Int) < 0) by omega)]
        rw [show ((oN : Nat) : Int).toNat = oN from rfl]
        rw [show D.getD oN 0 % 256 = keyTypeVal by rw [hgd]; decide]
        rw [if_neg (show ¬ (keyTypeVal < keyTypeVal) by omega)]
        rw [show (((oN : Nat) : Int) + 1).toNat = oN + 1 by omega]
        rw [hdrop1, huk]
        rw [intOfUint64_small k.length (by
          have h1 : (2 : Nat) ^ 32 ≤ 2 ^ 63 := Nat.pow_le_pow_right (by omega) (by omega)
          omega)]
        rw [wrap64_small (((oN : Nat) : Int) + 1 + ((putUvarint k.length).length : Int) +
          (k.length : Int)) (by omega) (by omega)]
        rw [if_neg (show ¬ (((putUvarint k.length).length : Int) ≤ 0 ∨
          (D.length : Int) < ((oN : Nat) : Int) + 1 +
            ((putUvarint k.length).length : Int) + (k.length : Int)) by omega)]
        rw [if_pos (show keyTypeVal = keyTypeVal from rfl)]
        rw [if_neg (show ¬ (((oN : Nat) : Int) + 1 + ((putUvarint k.length).length : Int) +
          (k.length : Int) < 0 ∨ (D.length : Int) < ((oN : Nat) : Int) + 1 +
            ((putUvarint k.length).length : Int) + (k.length : Int)) by omega)]
        rw [show (((oN : Nat) : Int) + 1 + ((putUvarint k.length).length : Int) +
          (k.length : Int)).toNat = oN + 1 + (putUvarint k.length).length + k.length
          by omega]
        rw [hdrop3, huv]
        rw [intOfUint64_small v.length (by
          have h1 : (2 : Nat) ^ 32 ≤ 2 ^ 63 := Nat.pow_le_pow_right (by omega) (by omega)
          omega)]
        rw [wrap64_small (((oN : Nat) : Int) + 1 + ((putUvarint k.length).length : Int) +
          (k.length : Int) + ((putUvarint v.length).length : Int) + (v.length : Int))
          (by omega) (by omega)]
        rw [if_neg (show ¬ (((putUvarint v.length).length : Int) ≤ 0 ∨
          (D.length : Int) < ((oN : Nat) : Int) + 1 +
            ((putUvarint k.length).length : Int) + (k.length : Int) +
            ((putUvarint v.length).length : Int) + (v.length : Int)) by omega)]
        rw [show (((oN : Nat) : Int) + 1 + ((putUvarint k.length).length : Int) +
          (k.length : Int) + ((putUvarint v.length).length : Int) + (v.length : Int)) =
          ((oN + 1 + (putUvarint k.length).length + k.length +
            (putUvarint v.length).length + v.length : Nat) : Int) by push_cast; ring]
        rw [ih D (oN + 1 + (putUvarint k.length).length + k.length +
          (putUvarint v.length).length + v.length) (i + 1) f _ hD hokt hdrop5
          (by simp at hfuel ⊢; omega)]
        rw [show idxChain oN (BatchOp.put k v :: t) =
          idxRec oN (BatchOp.put k v) ::
            idxChain (oN + (encRec (BatchOp.put k v)).length) t from rfl]
        rw [show (encRec (BatchOp.put k v)).length =
          1 + (putUvarint k.length).length + k.length +
            (putUvarint v.length).length + v.length by
          simp [encRec]
          omega]
        rw [show idxRec oN (BatchOp.put k v) =
          { keyType := keyTypeVal,
            keyPos := ((oN : Nat) : Int) + 1 + ((putUvarint k.length).length : Int),
            keyLen := (k.length : Int),
            valuePos := ((oN : Nat) : Int) + 1 + ((putUvarint k.length).length : Int) +
              (k.length : Int) + ((putUvarint v.length).length : Int),
            valueLen := (v.length : Int) } by
          simp only [idxRec]
          congr 1 <;> push_cast <;> ring]
        congr 1
        rw [show oN + 1 + (putUvarint k.length).length + k.length +
          (putUvarint v.length).length + v.length =
          oN + (1 + (putUvarint k.length).length + k.length +
            (putUvarint v.length).length + v.length) by omega]
        simp [List.append_assoc]
      | del k =>
        have hk32 : k.length < 2 ^ 32 := by
          simp only [opLenOK, decide_eq_true_eq] at hokop
          exact hokop
        have hLk1 := putUvarint_length_pos k.length
        rw [show encRec (BatchOp.del k) =
          keyTypeDel :: (putUvarint k.length ++ k) from rfl] at hdrop
        rw [List.cons_append] at hdrop
        obtain ⟨hgd, hdrop1⟩ := drop_head_getD D oN _ _ hdrop
        simp only [List.append_assoc] at hdrop1
        have hlenTot : oN + (1 + (putUvarint k.length).length + k.length +
            (encChain t).length) = D.length := by
          have hlen := congrArg List.length hdrop
          rw [List.length_drop] at hlen
          simp only [List.length_cons, List.length_append] at hlen
          omega
        have hdrop5 : D.drop (oN + 1 + (putUvarint k.length).length + k.length) =
            encChain t := by
          rw [show oN + 1 + (putUvarint k.length).length + k.length =
            (oN + 1) + ((putUvarint k.length).length + k.length) by omega]
          rw [drop_shift, hdrop1, ← List.append_assoc]
          rw [show (putUvarint k.length).length + k.length =
            (putUvarint k.length ++ k).length by simp]
          rw [List.drop_left]
        have huk := goUvarint_putUvarint k.length hk32 (k ++ encChain t)
        simp only [decodeBatchLoop]
        rw [if_pos (show ((oN : Nat) : Int) < (D.length : Int) by omega)]
        rw [if_neg (show ¬ (((oN : Nat) : Int) < 0) by omega)]
        rw [show ((oN : Nat) : Int).toNat = oN from rfl]
        rw [show D.getD oN 0 % 256 = keyTypeDel by rw [hgd]; decide]
        rw [if_neg (show ¬ (keyTypeVal < keyTypeDel) by decide)]
        rw [show (((oN : Nat) : Int) + 1).toNat = oN + 1 by omega]
        rw [hdrop1, huk]
        rw [intOfUint64_small k.length (by
          have h1 : (2 : Nat) ^ 32 ≤ 2 ^ 63 := Nat.pow_le_pow_right (by omega) (by omega)
          omega)]
        rw [wrap64_small (((oN : Nat) : Int) + 1 + ((putUvarint k.length).length : Int) +
          (k.length : Int)) (by omega) (by omega)]
        rw [if_neg (show ¬ (((putUvarint k.length).length : Int) ≤ 0 ∨
          (D.length : Int) < ((oN : Nat) : Int) + 1 +
            ((putUvarint k.length).length : Int) + (k.length : Int)) by omega)]
        rw [if_neg (show ¬ (keyTypeDel = keyTypeVal) by decide)]
        rw [show (((oN : Nat) : Int) + 1 + ((putUvarint k.length).length : Int) +
          (k.length : Int)) =
          ((oN + 1 + (putUvarint k.length).length + k.length : Nat) : Int)
          by push_cast; ring]
        rw [ih D (oN + 1 + (putUvarint k.length).length + k.length) (i + 1) f _ hD
          hokt hdrop5 (by simp at hfuel ⊢; omega)]
        rw [show idxChain oN (BatchOp.del k :: t) =
          idxRec oN (BatchOp.del k) ::
            idxChain (oN + (encRec (BatchOp.del k)).length) t from rfl]
        rw [show (encRec (BatchOp.del k)).length =
          1 + (putUvarint k.length).length + k.length by
          simp [encRec]
          omega]
        rw [show idxRec oN (BatchOp.del k) =
          { keyType := keyTypeDel,
            keyPos := ((oN : Nat) : Int) + 1 + ((putUvarint k.length).length : Int),
            keyLen := (k.length : Int), valuePos := 0, valueLen := 0 } by
          simp only [idxRec]
          congr 1 <;> push_cast <;> ring]
        congr 1
        rw [show oN + 1 + (putUvarint k.length).length + k.length =
          oN + (1 + (putUvarint k.length).length + k.length) by omega]
        simp [List.append_assoc]

lemma sumInternal_snoc (l : List BatchIndex) (e : BatchIndex) :
    sumInternal (l ++ [e]) = sumInternal l + e.keyLen + e.valueLen + 8 := by
  unfold sumInternal
  rw [List.foldl_append]
  rfl

lemma internal_inv : ∀ (ops : List BatchOp) (b : Batch),
    b.internalLen = sumInternal b.index →
    (ops.foldl batchApply b).internalLen = sumInternal (ops.foldl batchApply b).index
  | [], _, h => h
  | op :: t, b, h => by
    simp only [List.foldl_cons]
    refine internal_inv t _ ?_
    obtain ⟨_, h2, h3⟩ := batchApply_spec b op
    rw [h3, h2, sumInternal_snoc, h]

lemma buildBatch_internal (ops : List BatchOp) :
    (buildBatch ops).internalLen = sumInternal (buildBatch ops).index := by
  refine internal_inv ops emptyBatch ?_
  rfl

lemma ops_le_enc : ∀ (ops : List BatchOp), ops.length ≤ (encChain ops).length
  | [] => le_refl _
  | op :: t => by
    rw [encChain, List.length_append, List.length_cons]
    have h1 : 1 ≤ (encRec op).length := by
      cases op <;> simp [encRec]
    have := ops_le_enc t
    omega

/-- C3: Dump followed by Load reproduces the batch exactly — the same
`Len()` and, for every record, the same op tag, key bytes and value bytes
(the loaded batch is equal to the original).  The hypotheses bound the
lengths by what Go's 32-bit varint headroom and slice sizes admit. -/
theorem C3_dump_load_roundtrip (ops : List BatchOp)
    (hl : ∀ op ∈ ops, opLenOK op = true)
    (hD : (buildBatch ops).data.length < 2 ^ 63) :
    Batch.Load emptyBatch ((buildBatch ops).Dump) = LoadResult.ok (buildBatch ops) := by
  unfold Batch.Load Batch.decode Batch.Dump
  have hdec : decodeBatch (buildBatch ops).data = .ok (buildBatch ops).index := by
    unfold decodeBatch
    rw [buildBatch_index]
    have hfuel : ops.length < (buildBatch ops).data.length + 1 := by
      have h1 := ops_le_enc ops
      rw [buildBatch_data]
      omega
    have := decodeLoop_spec ops (buildBatch ops).data 0 0
      ((buildBatch ops).data.length + 1) [] hD hl
      (by rw [buildBatch_data]; rfl) hfuel
    simpa using this
  rw [hdec]
  simp only []
  rw [if_neg (by simp)]
  rw [← buildBatch_internal]

theorem C3_dump_load_roundtrip_witness :
    ((∀ op ∈ [BatchOp.put [1] [2], BatchOp.del [3]], opLenOK op = true) ∧
      (buildBatch [BatchOp.put [1] [2], BatchOp.del [3]]).data.length < 2 ^ 63) ∧
    Batch.Load emptyBatch ((buildBatch [BatchOp.put [1] [2], BatchOp.del [3]]).Dump) =
      LoadResult.ok (buildBatch [BatchOp.put [1] [2], BatchOp.del [3]]) :=
  ⟨⟨by decide, by decide⟩,
    C3_dump_load_roundtrip [BatchOp.put [1] [2], BatchOp.del [3]] (by decide) (by decide)⟩

/-- C4: the safety claim fails — `decodeBatch` can panic.  A 10-byte varint
decoding to `2^63` passes the `nn ≤ 0` / length checks (the `int(x)`
conversion is negative), drives the cursor negative, and the next slice
index is out of range: a Go runtime panic, not a BatchCorrupted error.  The
truncated-buffer rejection itself does hold (second conjunct). -/
theorem C4_decodeBatch_panics :
    decodeBatch [1, 128, 128, 128, 128, 128, 128, 128, 128, 128, 1] =
      DecodeOutcome.panicked ∧
    decodeBatch [1, 5] = DecodeOutcome.corrupted "bad record: invalid key length" := by
  constructor
  · rfl
  · rfl

lemma decodeBatchLoop_reasons : ∀ (fuel : Nat) (data : List Nat) (i : Nat) (o : Int)
    (acc : List BatchIndex) (r : String),
    decodeBatchLoop data fuel i o acc = .corrupted r →
    (∃ t, r = "bad record: invalid type " ++ goHexFmt t) ∨
      r = "bad record: invalid key length" ∨
      r = "bad record: invalid value length" := by
  intro fuel
  induction fuel with
  | zero =>
    intro data i o acc r h
    rw [decodeBatchLoop] at h
    exact DecodeOutcome.noConfusion h
  | succ f ih =>
    intro data i o acc r h
    simp only [decodeBatchLoop] at h
    split_ifs at h
    all_goals first
      | exact DecodeOutcome.noConfusion h
      | exact ih _ _ _ _ _ h
      | (injection h with h2
         first
           | exact Or.inl ⟨_, h2.symm⟩
           | exact Or.inr (Or.inl h2.symm)
           | exact Or.inr (Or.inr h2.symm))

/-- C8 (amended): decoding rejects a tag above the defined ones and any
length reading past the buffer, each with a distinct reason; the record
reasons actually produced are "bad record: invalid type 0x…" (tag appended
in hex), "bad record: invalid key length" and "bad record: invalid value
length"; the header produces "too short", and `Batch.decode` produces
"invalid records length: X vs Y". -/
theorem C8_corruption_reasons :
    (∀ (data : List Nat) (r : String), decodeBatch data = .corrupted r →
      (∃ t, r = "bad record: invalid type " ++ goHexFmt t) ∨
        r = "bad record: invalid key length" ∨
        r = "bad record: invalid value length") ∧
    decodeBatch [2] = .corrupted "bad record: invalid type 0x2" ∧
    decodeBatch [0, 3] = .corrupted "bad record: invalid key length" ∧
    decodeBatch [1, 0, 5] = .corrupted "bad record: invalid value length" ∧
    decodeBatchHeader [] = Except.error "too short" ∧
    Batch.decode emptyBatch (buildBatch [BatchOp.put [1] [2]]).data 2 =
      LoadResult.corrupted "invalid records length: 2 vs 1" := by
  refine ⟨?_, by rfl, by rfl, by rfl, by rfl, by rfl⟩
  intro data r h
  exact decodeBatchLoop_reasons _ data 0 0 [] r h

/-- C8, counterexample to the verbatim enumeration: the produced type
reason carries the offending tag, and "bad record: invalid value length"
is produced but not among the enumerated strings. -/
theorem C8_reasons_counterexample :
    decodeBatch [2] ≠ DecodeOutcome.corrupted "bad record: invalid type" ∧
    decodeBatch [2] = DecodeOutcome.corrupted "bad record: invalid type 0x2" ∧
    "bad record: invalid value length" ≠ "bad record: invalid type" ∧
    "bad record: invalid value length" ≠ "bad record: invalid key length" ∧
    "bad record: invalid value length" ≠ "too short" :=
  ⟨by decide, by rfl, by decide, by decide, by decide⟩

/-! ## putMem / revertMem -/

lemma refInsert_perm_fresh {cmp : Bytes → Bytes → Int} (k v : Bytes) :
    ∀ (M : List (Bytes × Bytes)), (∀ e ∈ M, ¬ cmp k e.1 = 0) →
      (refInsert cmp k v M).Perm ((k, v) :: M)
  | [], _ => by simp [refInsert]
  | (a, b) :: t, hfr => by
    simp only [refInsert]
    by_cases h1 : cmp k a < 0
    · rw [if_pos h1]
    · rw [if_neg h1, if_neg (hfr (a, b) (List.mem_cons_self _ _))]
      refine List.Perm.trans (List.Perm.cons _
        (refInsert_perm_fresh k v t (fun e he => hfr e (List.mem_cons_of_mem _ he)))) ?_
      exact List.Perm.swap _ _ _

lemma uint64LE_inj (x y : Nat) (hx : x < 2 ^ 64) (hy : y < 2 ^ 64)
    (h : uint64LE x = uint64LE y) : x = y := by
  have e2 : (256 : Nat) ^ 2 = 65536 := by norm_num
  have e3 : (256 : Nat) ^ 3 = 16777216 := by norm_num
  have e4 : (256 : Nat) ^ 4 = 4294967296 := by norm_num
  have e5 : (256 : Nat) ^ 5 = 1099511627776 := by norm_num
  have e6 : (256 : Nat) ^ 6 = 281474976710656 := by norm_num
  have e7 : (256 : Nat) ^ 7 = 72057594037927936 := by norm_num
  have e64 : (2 : Nat) ^ 64 = 18446744073709551616 := by norm_num
  simp only [uint64LE, e2, e3, e4, e5, e6, e7, List.cons.injEq, and_true] at h
  rw [e64] at hx hy
  omega

lemma makeInternalKey_counter_inj (u1 u2 : Bytes) (c1 c2 t1 t2 : Nat)
    (h1 : c1 * 256 + t1 < 2 ^ 64) (h2 : c2 * 256 + t2 < 2 ^ 64)
    (ht1 : t1 < 256) (ht2 : t2 < 256)
    (he : makeInternalKey u1 c1 t1 = makeInternalKey u2 c2 t2) : c1 = c2 := by
  unfold makeInternalKey at he
  have hlen : (uint64LE (c1 * 256 + t1)).length = (uint64LE (c2 * 256 + t2)).length := by
    simp [uint64LE]
  obtain ⟨_, he2⟩ := List.append_inj' he hlen
  have := uint64LE_inj _ _ h1 h2 he2
  omega

lemma internalKeys_mem : ∀ (idxs : List BatchIndex) (data : List Nat) (seq i : Nat)
    (k : Bytes), k ∈ internalKeys data seq idxs i →
    ∃ a, a < idxs.length ∧ ∃ idx ∈ idxs,
      k = makeInternalKey (idx.k data) (seq + (i + a)) idx.keyType
  | [], _, _, _, k, h => by simp [internalKeys] at h
  | idx :: rest, data, seq, i, k, h => by
    rw [internalKeys] at h
    rcases List.mem_cons.mp h with h1 | h1
    · exact ⟨0, by simp, idx, List.mem_cons_self _ _, by simpa using h1⟩
    · obtain ⟨a, ha, idx2, hmem, hk⟩ := internalKeys_mem rest data seq (i + 1) k h1
      exact ⟨a + 1, by simp; omega, idx2, List.mem_cons_of_mem _ hmem,
        by rw [hk]; congr 1; omega⟩

lemma internalKeys_nodup : ∀ (idxs : List BatchIndex) (data : List Nat) (seq i : Nat),
    (∀ idx ∈ idxs, idx.keyType < 256) →
    seq + i + idxs.length ≤ 2 ^ 56 →
    (internalKeys data seq idxs i).Nodup
  | [], _, _, _, _, _ => List.nodup_nil
  | idx :: rest, data, seq, i, ht, hb => by
    rw [internalKeys]
    rw [List.nodup_cons]
    constructor
    · intro hmem
      obtain ⟨a, ha, idx2, hmem2, hk⟩ := internalKeys_mem rest data seq (i + 1) _ hmem
      simp only [List.length_cons] at hb
      have ht1 : idx.keyType < 256 := ht idx (List.mem_cons_self _ _)
      have ht2 : idx2.keyType < 256 := ht idx2 (List.mem_cons_of_mem _ hmem2)
      have hc1 : (seq + i) * 256 + idx.keyType < 2 ^ 64 := by
        have h56 : (2 : Nat) ^ 56 * 256 = 2 ^ 64 := by norm_num
        have : seq + i < 2 ^ 56 := by omega
        omega
      have hc2 : (seq + (i + 1 + a)) * 256 + idx2.keyType < 2 ^ 64 := by
        have h56 : (2 : Nat) ^ 56 * 256 = 2 ^ 64 := by norm_num
        have : seq + (i + 1 + a) < 2 ^ 56 := by omega
        omega
      have := makeInternalKey_counter_inj (idx.k data) (idx2.k data) (seq + i)
        (seq + (i + 1 + a)) idx.keyType idx2.keyType hc1 hc2 ht1 ht2 hk
      omega
    · refine internalKeys_nodup rest data seq (i + 1)
        (fun j hj => ht j (List.mem_cons_of_mem _ hj)) ?_
      simp only [List.length_cons] at hb
      omega

lemma recPairs_length : ∀ (idxs : List BatchIndex) (data : List Nat) (seq i : Nat),
    (recPairs data seq idxs i).length = idxs.length
  | [], _, _, _ => rfl
  | idx :: rest, data, seq, i => by
    rw [recPairs, List.length_cons, List.length_cons,
      recPairs_length rest data seq (i + 1)]

lemma recPairs_keys : ∀ (idxs : List BatchIndex) (data : List Nat) (seq i : Nat),
    (recPairs data seq idxs i).map Prod.fst = internalKeys data seq idxs i
  | [], _, _, _ => rfl
  | idx :: rest, data, seq, i => by
    rw [recPairs, internalKeys, List.map_cons,
      recPairs_keys rest data seq (i + 1)]

lemma idxChain_length : ∀ (ops : List BatchOp) (o : Nat),
    (idxChain o ops).length = ops.length
  | [], _ => rfl
  | op :: t, o => by
    rw [idxChain, List.length_cons, List.length_cons, idxChain_length t]

lemma putMemGo_spec {cmp : Bytes → Bytes → Int} (hc : LawfulCmp cmp)
    (data : List Nat) (seq : Nat) :
    ∀ (idxs : List BatchIndex) (i : Nat) {db : DB} {M : List (Bytes × Bytes)}
      {ns : List Nat}, RepW cmp db M ns →
      (∀ k ∈ internalKeys data seq idxs i, ∀ e ∈ M, k ≠ e.1) →
      (internalKeys data seq idxs i).Nodup →
      ∃ M2 ns2, RepW cmp (putMemGo data seq idxs i db) M2 ns2 ∧
        M2.Perm (recPairs data seq idxs i ++ M) := by
  intro idxs
  induction idxs with
  | nil =>
    intro i db M ns hr _ _
    exact ⟨M, ns, hr, by simp [recPairs]⟩
  | cons idx rest ih =>
    intro i db M ns hr hfresh hnodup
    rw [putMemGo]
    rw [internalKeys] at hfresh hnodup
    have hfr0 : ∀ e ∈ M, ¬ cmp (makeInternalKey (idx.k data) (seq + i) idx.keyType)
        e.1 = 0 := by
      intro e he h0
      exact hfresh _ (List.mem_cons_self _ _) e he ((hc.eq_iff _ _).mp h0)
    obtain ⟨ns1, hr1⟩ := put_rep hc hr
      (makeInternalKey (idx.k data) (seq + i) idx.keyType) (idx.v data)
    have hperm1 := refInsert_perm_fresh
      (makeInternalKey (idx.k data) (seq + i) idx.keyType) (idx.v data) M hfr0
    have hfresh2 : ∀ k ∈ internalKeys data seq rest (i + 1),
        ∀ e ∈ refInsert cmp (makeInternalKey (idx.k data) (seq + i) idx.keyType)
          (idx.v data) M, k ≠ e.1 := by
      intro k hk e he
      rcases refInsert_mem _ _ M e he with h1 | h1
      · rw [h1]
        intro hq
        have hq2 : k = makeInternalKey (idx.k data) (seq + i) idx.keyType := hq
        exact (List.nodup_cons.mp hnodup).1 (hq2 ▸ hk)
      · exact hfresh k (List.mem_cons_of_mem _ hk) e h1
    obtain ⟨M2, ns2, hr2, hperm2⟩ := ih (i + 1) hr1 hfresh2
      (List.nodup_cons.mp hnodup).2
    refine ⟨M2, ns2, hr2, ?_⟩
    rw [recPairs]
    refine hperm2.trans ?_
    refine (List.Perm.append_left _ hperm1).trans ?_
    rw [List.cons_append]
    exact List.perm_middle

lemma keys_refDelete {cmp : Bytes → Bytes → Int} (hc : LawfulCmp cmp) (k : Bytes) :
    ∀ (M : List (Bytes × Bytes)),
      (refDelete cmp k M).map Prod.fst =
        @List.erase Bytes instBEqOfDecidableEq (M.map Prod.fst) k
  | [] => rfl
  | (a, b) :: t => by
    simp only [refDelete, List.map_cons]
    rw [@List.erase_cons Bytes instBEqOfDecidableEq k a (t.map Prod.fst)]
    by_cases h1 : cmp k a = 0
    · have hka : k = a := (hc.eq_iff _ _).mp h1
      rw [if_pos h1, if_pos (by rw [hka]; simp)]
    · have hka : ¬ a = k := fun hq => h1 ((hc.eq_iff _ _).mpr hq.symm)
      rw [if_neg h1, if_neg (by simp [hka]), List.map_cons,
        keys_refDelete hc k t]

lemma revertMemGo_spec {cmp : Bytes → Bytes → Int} (hc : LawfulCmp cmp)
    (data : List Nat) (seq : Nat) :
    ∀ (idxs : List BatchIndex) (i : Nat) {db : DB} {M : List (Bytes × Bytes)}
      {ns : List Nat}, RepW cmp db M ns →
      (M.map Prod.fst).Perm (internalKeys data seq idxs i) →
      (revertMemGo data seq idxs i db).2 = true ∧
        ∃ ns2, RepW cmp (revertMemGo data seq idxs i db).1 [] ns2 := by
  intro idxs
  induction idxs with
  | nil =>
    intro i db M ns hr hperm
    rw [internalKeys] at hperm
    have hM : M = [] := by
      have hlen := List.Perm.length_eq hperm
      simp only [List.length_map, List.length_nil] at hlen
      exact List.length_eq_zero.mp hlen
    subst hM
    exact ⟨rfl, ns, hr⟩
  | cons idx rest ih =>
    intro i db M ns hr hperm
    rw [internalKeys] at hperm
    have hmemk : makeInternalKey (idx.k data) (seq + i) idx.keyType ∈
        M.map Prod.fst := hperm.mem_iff.mpr (List.mem_cons_self _ _)
    obtain ⟨e, he, hek⟩ := List.mem_map.mp hmemk
    have hmemT : refMem cmp (makeInternalKey (idx.k data) (seq + i) idx.keyType)
        M = true := by
      unfold refMem
      rw [List.any_eq_true]
      exact ⟨e, he, by
        simp only [decide_eq_true_eq]
        exact (hc.eq_iff _ _).mpr hek.symm⟩
    obtain ⟨hflag, ns2, hr2⟩ := delete_rep hc hr
      (makeInternalKey (idx.k data) (seq + i) idx.keyType)
    rw [hmemT] at hflag
    rw [revertMemGo]
    rw [hflag, if_pos rfl]
    refine ih (i + 1) hr2 ?_
    rw [keys_refDelete hc]
    have hpe := hperm.erase (makeInternalKey (idx.k data) (seq + i) idx.keyType)
    have herase : @List.erase Bytes instBEqOfDecidableEq
        (makeInternalKey (idx.k data) (seq + i) idx.keyType ::
          internalKeys data seq rest (i + 1))
        (makeInternalKey (idx.k data) (seq + i) idx.keyType) =
        internalKeys data seq rest (i + 1) := by
      rw [@List.erase_cons Bytes instBEqOfDecidableEq]
      rw [if_pos (by simp)]
    rwa [herase] at hpe

/-- C2: `putMem(seq)` applies the batch records in original append order,
giving record `i` the internal key `makeInternalKey(key_i, seq+i, tag_i)` —
the store then realises exactly those internal pairs (`recPairs`); a
subsequent `revertMem` of the same batch at the same `seq` on the
previously-empty store deletes exactly those keys, succeeds, and leaves
`Len() = 0`.  The bound keeps `seq+i` inside the 56-bit sequence space. -/
theorem C2_putMem_revertMem (cmp : Bytes → Bytes → Int) (hc : LawfulCmp cmp)
    (rnd : Nat → Nat) (capacity : Nat) (ops : List BatchOp) (seq : Nat)
    (hseq : seq + ops.length ≤ 2 ^ 56) :
    (∃ M ns,
      RepW cmp (Batch.putMem (buildBatch ops) seq (New_ cmp rnd capacity)) M ns ∧
      M.Perm (recPairs (buildBatch ops).data seq (buildBatch ops).index 0)) ∧
    (Batch.revertMem (buildBatch ops) seq
      (Batch.putMem (buildBatch ops) seq (New_ cmp rnd capacity))).2 = true ∧
    (Batch.revertMem (buildBatch ops) seq
      (Batch.putMem (buildBatch ops) seq (New_ cmp rnd capacity))).1.Len = 0 := by
  have hidx : (buildBatch ops).index = idxChain 0 ops := buildBatch_index ops
  have hlen : (buildBatch ops).index.length = ops.length := by
    rw [hidx, idxChain_length]
  have htype : ∀ idx ∈ (buildBatch ops).index, idx.keyType < 256 := by
    intro idx h
    rw [hidx] at h
    rcases idxChain_shape ops 0 idx h with h1 | h1
    · rw [h1.1]
      decide
    · rw [h1.1]
      decide
  have hnodup := internalKeys_nodup (buildBatch ops).index (buildBatch ops).data
    seq 0 htype (by omega)
  obtain ⟨M2, ns2, hr2, hperm2⟩ := putMemGo_spec hc (buildBatch ops).data seq
    (buildBatch ops).index 0 (rep_new cmp rnd capacity)
    (fun k _ e he => absurd he (by simp)) hnodup
  rw [List.append_nil] at hperm2
  have hkeys : (M2.map Prod.fst).Perm
      (internalKeys (buildBatch ops).data seq (buildBatch ops).index 0) := by
    have hm := hperm2.map Prod.fst
    rwa [recPairs_keys] at hm
  obtain ⟨hflag, ns3, hr3⟩ := revertMemGo_spec hc (buildBatch ops).data seq
    (buildBatch ops).index 0 hr2 hkeys
  refine ⟨⟨M2, ns2, hr2, hperm2⟩, hflag, ?_⟩
  have := len_spec hr3
  simpa using this

theorem C2_putMem_revertMem_witness :
    (LawfulCmp bytewiseCompare ∧
      100 + [BatchOp.put [1] [2], BatchOp.del [3]].length ≤ 2 ^ 56) ∧
    ((∃ M ns,
      RepW bytewiseCompare (Batch.putMem (buildBatch [BatchOp.put [1] [2],
        BatchOp.del [3]]) 100 (New_ bytewiseCompare (fun _ => 0) 0)) M ns ∧
      M.Perm (recPairs (buildBatch [BatchOp.put [1] [2], BatchOp.del [3]]).data 100
        (buildBatch [BatchOp.put [1] [2], BatchOp.del [3]]).index 0)) ∧
    (Batch.revertMem (buildBatch [BatchOp.put [1] [2], BatchOp.del [3]]) 100
      (Batch.putMem (buildBatch [BatchOp.put [1] [2], BatchOp.del [3]]) 100
        (New_ bytewiseCompare (fun _ => 0) 0))).2 = true ∧
    (Batch.revertMem (buildBatch [BatchOp.put [1] [2], BatchOp.del [3]]) 100
      (Batch.putMem (buildBatch [BatchOp.put [1] [2], BatchOp.del [3]]) 100
        (New_ bytewiseCompare (fun _ => 0) 0))).1.Len = 0) :=
  ⟨⟨lawful_bytewise, by decide⟩,
    C2_putMem_revertMem bytewiseCompare lawful_bytewise (fun _ => 0) 0
      [BatchOp.put [1] [2], BatchOp.del [3]] 100 (by decide)⟩

/-- C9: `putMem` inserts one entry per record, including delete-tagged
records — a delete record has a nil (`[]`) value and is inserted under its
internal key rather than applied as a deletion — so a batch of `n` records
on an empty store yields exactly `n` entries. -/
theorem C9_putMem_insert_count (cmp : Bytes → Bytes → Int) (hc : LawfulCmp cmp)
    (rnd : Nat → Nat) (capacity : Nat) (ops : List BatchOp) (seq : Nat)
    (hseq : seq + ops.length ≤ 2 ^ 56) :
    (Batch.putMem (buildBatch ops) seq (New_ cmp rnd capacity)).Len =
      (buildBatch ops).Len ∧
    (∀ idx ∈ (buildBatch ops).index, idx.keyType = keyTypeDel →
      idx.v (buildBatch ops).data = []) ∧
    ∃ M ns,
      RepW cmp (Batch.putMem (buildBatch ops) seq (New_ cmp rnd capacity)) M ns ∧
      ∀ e ∈ recPairs (buildBatch ops).data seq (buildBatch ops).index 0, e ∈ M := by
  have hidx : (buildBatch ops).index = idxChain 0 ops := buildBatch_index ops
  have hlen : (buildBatch ops).index.length = ops.length := by
    rw [hidx, idxChain_length]
  have htype : ∀ idx ∈ (buildBatch ops).index, idx.keyType < 256 := by
    intro idx h
    rw [hidx] at h
    rcases idxChain_shape ops 0 idx h with h1 | h1
    · rw [h1.1]
      decide
    · rw [h1.1]
      decide
  have hnodup := internalKeys_nodup (buildBatch ops).index (buildBatch ops).data
    seq 0 htype (by omega)
  obtain ⟨M2, ns2, hr2, hperm2⟩ := putMemGo_spec hc (buildBatch ops).data seq
    (buildBatch ops).index 0 (rep_new cmp rnd capacity)
    (fun k _ e he => absurd he (by simp)) hnodup
  rw [List.append_nil] at hperm2
  refine ⟨?_, ?_, M2, ns2, hr2, ?_⟩
  · have h1 := len_spec hr2
    have h2 := hperm2.length_eq
    rw [recPairs_length] at h2
    show (putMemGo (buildBatch ops).data seq (buildBatch ops).index 0
      (New_ cmp rnd capacity)).Len = (buildBatch ops).index.length
    omega
  · intro idx h hdel
    rw [hidx] at h
    rcases idxChain_shape ops 0 idx h with h1 | h1
    · rw [hdel] at h1
      exact absurd h1.1 (by decide)
    · simp [BatchIndex.v, h1.2]
  · intro e he
    exact hperm2.mem_iff.mpr he

theorem C9_putMem_insert_count_witness :
    (LawfulCmp bytewiseCompare ∧
      100 + [BatchOp.put [1] [2], BatchOp.del [3]].length ≤ 2 ^ 56) ∧
    ((Batch.putMem (buildBatch [BatchOp.put [1] [2], BatchOp.del [3]]) 100
        (New_ bytewiseCompare (fun _ => 0) 0)).Len =
      (buildBatch [BatchOp.put [1] [2], BatchOp.del [3]]).Len ∧
    (∀ idx ∈ (buildBatch [BatchOp.put [1] [2], BatchOp.del [3]]).index,
      idx.keyType = keyTypeDel →
      idx.v (buildBatch [BatchOp.put [1] [2], BatchOp.del [3]]).data = []) ∧
    ∃ M ns,
      RepW bytewiseCompare (Batch.putMem (buildBatch [BatchOp.put [1] [2],
        BatchOp.del [3]]) 100 (New_ bytewiseCompare (fun _ => 0) 0)) M ns ∧
      ∀ e ∈ recPairs (buildBatch [BatchOp.put [1] [2], BatchOp.del [3]]).data 100
        (buildBatch [BatchOp.put [1] [2], BatchOp.del [3]]).index 0, e ∈ M) :=
  ⟨⟨lawful_bytewise, by decide⟩,
    C9_putMem_insert_count bytewiseCompare lawful_bytewise (fun _ => 0) 0
      [BatchOp.put [1] [2], BatchOp.del [3]] 100 (by decide)⟩
